import Mathlib

/-!
Verification development for the knok-fm link-enrichment system.

This file gives a shallow embedding, in Lean 4, of the parts of the Go
source that the specification's testable claims are about:

* the Redis-backed job queue (`internal/repository/redis/queue.go`):
  enqueue / dequeue / complete / fail / retry promotion, modelled as pure
  transitions on an explicit queue state;
* the worker's `processJob` loop (`internal/service/worker/service.go`);
* the tiered metadata-extraction pipeline and its HTML/Open-Graph parser
  (`internal/service/worker/processor.go`, oEmbed extractor);
* the URL normalizer and detector helpers
  (`internal/pkg/urldetector/normalize.go`, `detector.go`), together with a
  model of the fragment of Go's `net/url` package they use;
* the platform loader (`internal/platforms` loader).

Modelling conventions: Go machine integers become `Int`/`Nat` (no overflow is
reachable in the modelled ranges); Go strings are Lean `String`s read as byte
strings (all claims and witnesses use ASCII data, where the two agree
character-for-character); fallible Go functions return `Except`/`Option`;
Redis side effects become explicit state passing.  Network and clock effects
are inputs: each operation takes the current time, and the extraction
pipeline takes the outcome of each tier's I/O as an environment record.
-/

namespace KnokFM

/-! ## Character-list string helpers

Go string primitives, re-implemented over the underlying character list so
that every definition evaluates inside the kernel.  Characters model bytes
(all claims and witnesses use ASCII). -/

/-- `strings.HasPrefix`. -/
def hasStart (s pre : String) : Bool := pre.data.isPrefixOf s.data

/-- Drop the first `n` characters (used for `strings.TrimPrefix` after a
prefix check). -/
def dropStart (s : String) (n : Nat) : String := ⟨s.data.drop n⟩

/-- `strings.TrimPrefix`. -/
def trimStart (s pre : String) : String :=
  if hasStart s pre then dropStart s pre.data.length else s

/-- ASCII lowercasing of one character (`strings.ToLower` acts
characterwise; the claims use ASCII only). -/
def lowerChar (c : Char) : Char :=
  if 'A' ≤ c ∧ c ≤ 'Z' then Char.ofNat (c.toNat + 32) else c

/-- `strings.ToLower` (ASCII). -/
def lowerStr (s : String) : String := ⟨s.data.map lowerChar⟩

/-- `strings.Contains` for a single character. -/
def containsChar (s : String) (c : Char) : Bool := s.data.contains c

/-! ## Association-list helpers (Go maps and Redis hashes) -/

/-- Look up a key in an association list (Go map read / Redis HGET). -/
def alookup {α : Type} (l : List (String × α)) (k : String) : Option α :=
  match l with
  | [] => none
  | (k', v) :: rest => if k' = k then some v else alookup rest k

/-- Insert or overwrite a key (Go map write / Redis HSET). -/
def aset {α : Type} (l : List (String × α)) (k : String) (v : α) :
    List (String × α) :=
  match l with
  | [] => [(k, v)]
  | (k', v') :: rest =>
      if k' = k then (k, v) :: rest else (k', v') :: aset rest k v

/-- Increment an integer counter (Redis HINCRBY). -/
def hincr (l : List (String × Int)) (k : String) (d : Int) :
    List (String × Int) :=
  match alookup l k with
  | some v => aset l k (v + d)
  | none => aset l k d

/-! ## Job queue model — `internal/repository/redis/queue.go`

The Redis keys `queue:job_type`, `processing:job_type`, `retry:job_type`,
`dead:job_type`, `stats:job_type` partition all structures by job type; every
claim concerns jobs of a single type, so the state below models one job
type's structures plus the global `job:<id>` hash store.  List heads are the
Redis left end: `LPush` prepends, `BRPopLPush` pops the right end of the
source and prepends onto the destination. -/

/-- `domain` job status strings (`unnamed/part_007`). -/
inductive JobStatus where
  | pending
  | processing
  | completed
  | failed
deriving DecidableEq, Repr

/-- `QueueJob` from `queue.go` (the payload is kept opaque as its JSON
serialization; timestamps are Unix seconds). -/
structure QueueJob where
  id : String
  jobType : String
  payload : String
  status : JobStatus
  createdAt : Int
  updatedAt : Option Int
  retryCount : Nat
  maxRetries : Nat
  nextRetry : Option Int
  error : String
deriving DecidableEq, Repr

/-- `maxRetries` constant from `queue.go`. -/
def maxRetriesConst : Nat := 5

/-- `initialBackoffSec` constant from `queue.go`. -/
def initialBackoffSec : Nat := 1

/-- `maxBackoffSec` constant from `queue.go` (five minutes). -/
def maxBackoffSec : Nat := 300

/-- Backoff computed in `Fail`:
`int(math.Min(float64(initialBackoffSec)*math.Pow(2, float64(rc-1)), 300))`.
The float arithmetic is exact for every retry count the queue can produce
(powers of two far below 2^53), so the Nat form is faithful there. -/
def backoffSec (rc : Nat) : Nat :=
  min (initialBackoffSec * 2 ^ (rc - 1)) maxBackoffSec

/-- One job type's queue structures plus the job hash store and counters. -/
structure QueueState where
  pending : List String
  processing : List String
  retry : List (String × Int)
  dead : List String
  jobs : List (String × QueueJob)
  stats : List (String × Int)
deriving DecidableEq, Repr

/-- The state with every structure empty. -/
def QueueState.empty : QueueState :=
  { pending := [], processing := [], retry := [], dead := [], jobs := [],
    stats := [] }

/-- Redis `LREM key 1 value`: remove the first occurrence from the head. -/
def lremFirst : List String → String → List String
  | [], _ => []
  | x :: rest, v => if x = v then rest else x :: lremFirst rest v

/-- Redis `ZADD`: insert a member with a score, or update its score. -/
def zadd (l : List (String × Int)) (m : String) (s : Int) :
    List (String × Int) :=
  match l with
  | [] => [(m, s)]
  | (m', s') :: rest =>
      if m' = m then (m, s) :: rest else (m', s') :: zadd rest m s

/-- Sorted-set order: ascending score, ties broken by member string. -/
def zle (a b : String × Int) : Prop :=
  a.2 < b.2 ∨ (a.2 = b.2 ∧ a.1 ≤ b.1)

instance : DecidableRel zle := fun a b => by
  unfold zle; infer_instance

/-- `ZRANGEBYSCORE key 0 now WITHSCORES`: members with score at most `now`,
in sorted-set order (scores here are Unix timestamps, all nonnegative). -/
def zrangeByScoreLe (l : List (String × Int)) (now : Int) :
    List (String × Int) :=
  List.insertionSort zle (l.filter fun e => decide (e.2 ≤ now))

/-- `QueueRepository.Enqueue` (queue.go:64-127).  The fresh UUID and the
current time are inputs.  Stores the job hash, LPushes the id onto the
pending list and bumps the counters; the Redis pipeline cannot fail in the
model, so no error case remains. -/
def enqueue (st : QueueState) (jobType payload newID : String) (now : Int) :
    QueueState :=
  let job : QueueJob :=
    { id := newID, jobType := jobType, payload := payload,
      status := .pending, createdAt := now, updatedAt := none,
      retryCount := 0, maxRetries := maxRetriesConst, nextRetry := none,
      error := "" }
  { st with
    jobs := aset st.jobs newID job
    pending := newID :: st.pending
    stats := hincr (hincr st.stats "total_enqueued" 1) "pending" 1 }

/-- `QueueRepository.Dequeue` (queue.go:130-209).  `BRPopLPush` with an
empty source list times out after 30s and yields `redis.Nil`, which the code
maps to `(nil, nil)`: in the model, an empty pending list yields `.ok none`
with the state unchanged.  Otherwise the right end of pending is atomically
moved onto processing; a missing job hash is an error (the id is LRem'd back
out); on success the stored job is marked `processing` and returned. -/
def dequeue (st : QueueState) (now : Int) :
    QueueState × Except String (Option QueueJob) :=
  match st.pending.getLast? with
  | none => (st, .ok none)
  | some jobID =>
    let pending' := st.pending.dropLast
    let processing' := jobID :: st.processing
    match alookup st.jobs jobID with
    | none =>
        ({ st with pending := pending',
                   processing := lremFirst processing' jobID },
         .error "job data not found")
    | some job =>
        let job' := { job with status := .processing, updatedAt := some now }
        ({ st with
             pending := pending'
             processing := processing'
             jobs := aset st.jobs jobID job'
             stats := hincr (hincr st.stats "pending" (-1)) "processing" 1 },
         .ok (some job'))

/-- `QueueRepository.Complete` (queue.go:211-262): mark the job completed,
LRem it from the processing list, adjust counters (the shortened TTL has no
observable effect in the model). -/
def complete (st : QueueState) (jobID : String) (now : Int) :
    QueueState × Except String Unit :=
  match alookup st.jobs jobID with
  | none => (st, .error "failed to get job for completion")
  | some job =>
    let job' := { job with status := .completed, updatedAt := some now }
    ({ st with
         jobs := aset st.jobs jobID job'
         processing := lremFirst st.processing jobID
         stats := hincr (hincr st.stats "processing" (-1)) "completed" 1 },
     .ok ())

/-- `QueueRepository.Fail` (queue.go:264-355): bump `retry_count`; while the
budget lasts, schedule the id in the retry sorted set at `now + backoff` and
set the status back to pending; once exhausted, LPush the id onto the
dead-letter list and mark it failed.  Either branch rewrites the job hash
and LRems the id from the processing list. -/
def fail (st : QueueState) (jobID errMsg : String) (now : Int) :
    QueueState × Except String Unit :=
  match alookup st.jobs jobID with
  | none => (st, .error "failed to get job for failure")
  | some job =>
    let rc := job.retryCount + 1
    if rc ≤ job.maxRetries then
      let nextRetry := now + (backoffSec rc : Int)
      let job' := { job with
        error := errMsg, updatedAt := some now, retryCount := rc,
        nextRetry := some nextRetry, status := .pending }
      ({ st with
           retry := zadd st.retry jobID nextRetry
           jobs := aset st.jobs jobID job'
           processing := lremFirst st.processing jobID
           stats := hincr st.stats "processing" (-1) },
       .ok ())
    else
      let job' := { job with
        error := errMsg, updatedAt := some now, retryCount := rc,
        status := .failed }
      ({ st with
           dead := jobID :: st.dead
           jobs := aset st.jobs jobID job'
           processing := lremFirst st.processing jobID
           stats := hincr (hincr st.stats "failed" 1) "processing" (-1) },
       .ok ())

/-- `QueueRepository.ProcessRetryJobs` (queue.go:368-412): take every retry
entry whose scheduled time has passed and, in sorted-set order, ZRem it and
LPush its id onto the pending list (so the batch ends up reversed at the
left end), bumping the pending counter per job. -/
def processRetryJobs (st : QueueState) (now : Int) : QueueState :=
  let ready := zrangeByScoreLe st.retry now
  if ready = [] then st
  else
    { st with
        retry := st.retry.filter fun e => decide (¬ e.2 ≤ now)
        pending := (ready.map Prod.fst).reverse ++ st.pending
        stats := hincr st.stats "pending" (ready.length : Int) }

/-- `WorkerService.processJob` (service.go:201-270).  The worker first calls
`Complete` (under the comment "Update job status to processing"), ignoring
its error, then runs the handler, then calls `Fail` on a handler error and
`Complete` again on success.  The handler outcome is an input
(`some errMsg` = the handler failed). -/
def processJob (st : QueueState) (jobID : String)
    (handlerErr : Option String) (now : Int) : QueueState :=
  let st1 := (complete st jobID now).1
  match handlerErr with
  | some e => (fail st1 jobID e now).1
  | none => (complete st1 jobID now).1

/-! ### Lifecycle trace of a single job

The natural failure lifecycle of one job: it is enqueued once, and each
round then dequeues it, fails it, and (once the backoff has elapsed) lets
the retry promoter move it back to pending.  Dequeue and Fail of round `k`
happen at time `ts k`, the promoter runs at time `us k`. -/

/-- One worker failure round: dequeue the job, then fail it. -/
def failStep (st : QueueState) (jobID emsg : String) (t : Int) : QueueState :=
  (fail (dequeue st t).1 jobID emsg t).1

/-- State after `k` complete failure rounds (fail + promotion) following the
initial enqueue at time `t0`. -/
def lifeState (jobID jobType payload emsg : String) (t0 : Int)
    (ts us : Nat → Int) : Nat → QueueState
  | 0 => enqueue QueueState.empty jobType payload jobID t0
  | k + 1 =>
      processRetryJobs
        (failStep (lifeState jobID jobType payload emsg t0 ts us k)
          jobID emsg (ts k))
        (us k)

/-- Mid-lifecycle invariant: after `i` full failure rounds the job sits
alone on the pending list with `retry_count = i` and status pending, and
every other structure is empty. -/
def MidS (st : QueueState) (jobID : String) (i : Nat) : Prop :=
  st.pending = [jobID] ∧ st.processing = [] ∧ st.retry = [] ∧
  st.dead = [] ∧
  ∃ job : QueueJob, st.jobs = [(jobID, job)] ∧ job.id = jobID ∧
    job.retryCount = i ∧ job.status = .pending ∧
    job.maxRetries = maxRetriesConst

/-! ## HTML metadata extraction — `internal/service/worker/processor.go`

`golang.org/x/net/html` document trees are modelled by an inductive tree;
only the node kinds the extractor inspects (element with tag/attributes,
text, and non-element containers such as the document root) are
distinguished.  Extracted metadata is a Go `map[string]string`, modelled as
an association list with the Go read default `""` for missing keys. -/

mutual
/-- A parsed HTML node (`html.Node`): element nodes carry their tag name
and attribute list; all other node kinds that can carry children are
`container`s (document root, etc.).  The sibling chain
(`FirstChild`/`NextSibling`) is the `HtmlForest`. -/
inductive HtmlNode where
  | element (tag : String) (attrs : List (String × String))
      (children : HtmlForest)
  | textNode (data : String)
  | container (children : HtmlForest)

/-- A child list of HTML nodes. -/
inductive HtmlForest where
  | nil : HtmlForest
  | cons : HtmlNode → HtmlForest → HtmlForest
end

/-- Build a child list from a Lean list literal. -/
def forestOf : List HtmlNode → HtmlForest
  | [] => .nil
  | n :: rest => .cons n (forestOf rest)

/-- `map[string]string` as an association list. -/
abbrev MetaMap : Type := List (String × String)

/-- Go map read: a missing key yields the zero value `""`. -/
def mget (m : MetaMap) (k : String) : String := (alookup m k).getD ""

/-- Go map write. -/
def mset (m : MetaMap) (k v : String) : MetaMap := aset m k v

/-- `\s` of Go's `regexp` package: `[\t\n\f\r ]`. -/
def isRegexpSpace (c : Char) : Bool :=
  c = '\t' || c = '\n' || c = '\x0c' || c = '\r' || c = ' '

/-- `unicode.IsSpace` on the ASCII range (the model's character set):
`\t \n \v \f \r` and space. -/
def isGoSpace (c : Char) : Bool :=
  c = '\t' || c = '\n' || c = '\x0b' || c = '\x0c' || c = '\r' || c = ' '

/-- `strings.TrimSpace`. -/
def trimSpace (s : String) : String :=
  ⟨((s.data.dropWhile isGoSpace).reverse.dropWhile isGoSpace).reverse⟩

/-- `regexp.MustCompile(...).ReplaceAllString(value, " ")` for the pattern
matching one or more `\s` characters: every maximal run of regexp
whitespace becomes a single space (the boolean tracks whether the previous
character belonged to a run). -/
def collapseWSAux : List Char → Bool → List Char
  | [], _ => []
  | c :: rest, prevSpace =>
      if isRegexpSpace c then
        if prevSpace then collapseWSAux rest true
        else ' ' :: collapseWSAux rest true
      else c :: collapseWSAux rest false

/-- Whitespace-run collapsing on strings. -/
def collapseWS (s : String) : String := ⟨collapseWSAux s.data false⟩

/-- The per-value cleanup applied to every extracted metadata value
(processor.go:244-248): trim, then collapse whitespace runs. -/
def cleanMetaValue (v : String) : String := collapseWS (trimSpace v)

/-- The Twitter-Card-to-Open-Graph property renaming
(processor.go:269-280). -/
def mapTwitterProperty (tp : String) : String :=
  if tp = "title" then "title"
  else if tp = "description" then "description"
  else if tp = "image" then "image"
  else if tp = "site" then "site_name"
  else tp

/-- The attribute scan of one `meta` element (processor.go:259-282): a
fold over the attribute list updating the `property` and `content`
variables, later attributes overwriting earlier ones. -/
def metaPropertyContent (attrs : List (String × String)) : String × String :=
  attrs.foldl
    (fun pc attr =>
      if attr.1 = "content" then (pc.1, attr.2)
      else if attr.1 = "property" && hasStart attr.2 "og:" then
        (dropStart attr.2 3, pc.2)
      else if attr.1 = "name" && hasStart attr.2 "twitter:" then
        (mapTwitterProperty (dropStart attr.2 8), pc.2)
      else pc)
    ("", "")

mutual
/-- `JobProcessor.findOgMetaInNode` (processor.go:254-297): preorder walk;
at each `meta` element with a nonempty property and content, store the
value only if the key is not already present. -/
def findOgMetaInNode (n : HtmlNode) (ogData : MetaMap) : MetaMap :=
  match n with
  | .element tag attrs children =>
      let m :=
        if tag = "meta" then
          let pc := metaPropertyContent attrs
          if pc.1 ≠ "" && pc.2 ≠ "" then
            if (alookup ogData pc.1).isSome then ogData
            else ogData ++ [(pc.1, pc.2)]
          else ogData
        else ogData
      findOgMetaInForest children m
  | .textNode _ => ogData
  | .container children => findOgMetaInForest children ogData

/-- The child loop of `findOgMetaInNode`. -/
def findOgMetaInForest (ns : HtmlForest) (ogData : MetaMap) : MetaMap :=
  match ns with
  | .nil => ogData
  | .cons n rest => findOgMetaInForest rest (findOgMetaInNode n ogData)
end

/-- `JobProcessor.extractOgMetadataFromHTML` (processor.go:234-251):
collect the meta tags, then clean every value. -/
def extractOgMetadataFromHTML (doc : HtmlNode) : MetaMap :=
  (findOgMetaInNode doc []).map fun kv => (kv.1, cleanMetaValue kv.2)

/-! ## Tiered extraction pipeline — `extractMetadataWithFallbacks`

Network and browser effects are inputs: the environment record carries the
outcome of each tier's I/O exactly at the Go function-call boundary
(`TryExtract`, `extractOgMetadata`, `extractTitleFromURL`,
`extractMetadataWithRodSimple`), and the pipeline itself is the pure
control flow of processor.go:620-762 over those outcomes. -/

/-- The oEmbed JSON response fields used by `oembedToMetadata`
(`unnamed/part_009`); absent JSON fields decode to `""`. -/
structure OEmbedResponse where
  title : String
  description : String
  authorName : String
  providerName : String
  thumbnailURL : String
  oembedType : String
deriving DecidableEq, Repr

/-- `OEmbedExtractor.oembedToMetadata` (`unnamed/part_009`): map the oEmbed
response into the standard metadata shape.  A response with an empty title
produces a map with no `title` key at all. -/
def oembedToMetadata (o : OEmbedResponse) (originalURL : String) : MetaMap :=
  let m : MetaMap := []
  let m := if o.title ≠ "" then mset m "title" o.title else m
  let m :=
    if o.description ≠ "" then mset m "description" o.description
    else if o.authorName ≠ "" then
      mset m "description" ("By " ++ o.authorName)
    else mset m "description" originalURL
  let m := if o.thumbnailURL ≠ "" then mset m "image" o.thumbnailURL else m
  let m :=
    if o.providerName ≠ "" then mset m "site_name" o.providerName
    else if o.authorName ≠ "" then mset m "site_name" o.authorName
    else m
  if o.oembedType ≠ "" then mset m "oembed_type" o.oembedType else m

/-- Outcomes of the four tier I/O calls for one URL.
`oembedResult = .ok none` is the provider-not-found case (not an error). -/
structure ExtractEnv where
  oembedAvailable : Bool
  oembedResult : Except String (Option MetaMap)
  httpResult : Except String MetaMap
  titleResult : Except String String
  rodResult : Except String MetaMap

/-- The Tier-3 fallback block (processor.go:739-761). -/
def titleFallback (httpMetadata : MetaMap) (title url : String) : MetaMap :=
  let fb : MetaMap := [("title", title)]
  let fb :=
    if mget httpMetadata "description" ≠ "" then
      mset fb "description" (mget httpMetadata "description")
    else mset fb "description" url
  let fb :=
    if mget httpMetadata "image" ≠ "" then
      mset fb "image" (mget httpMetadata "image")
    else fb
  if mget httpMetadata "site_name" ≠ "" then
    mset fb "site_name" (mget httpMetadata "site_name")
  else fb

/-- Tiers 1-3 of `extractMetadataWithFallbacks` (processor.go:649-762),
after the Tier-1 fetch and the basic-title fetch have been resolved into
`httpMetadata` and `title`.  The merge at Tier 2 copies the Tier-1 map and
then fills still-empty fields from the rendered scrape; the fold mirrors
Go's map iteration (each key of the rod map is distinct, so iteration
order does not affect the result). -/
def fallbackTiers (httpMetadata0 : MetaMap) (title : String)
    (rodResult : Except String MetaMap) (url : String) :
    MetaMap × String × Option String :=
  let hasTitle := mget httpMetadata0 "title" != ""
  let hasDescription0 := mget httpMetadata0 "description" != ""
  let hasImage := mget httpMetadata0 "image" != ""
  let step :=
    if hasTitle && !hasDescription0 then
      (mset httpMetadata0 "description" url, true)
    else (httpMetadata0, hasDescription0)
  let httpMetadata := step.1
  let hasDescription := step.2
  if hasTitle && (hasDescription || hasImage) then
    (httpMetadata, "http_static", none)
  else
    match rodResult with
    | .ok rodMetadata =>
        let merged := rodMetadata.foldl
          (fun acc kv =>
            if kv.2 != "" && mget acc kv.1 == "" then mset acc kv.1 kv.2
            else acc)
          httpMetadata
        let rodHasTitle := mget merged "title" != ""
        let rodHasDescription0 := mget merged "description" != ""
        let rodHasImage := mget merged "image" != ""
        let step2 :=
          if rodHasTitle && !rodHasDescription0 then
            (mset merged "description" url, true)
          else (merged, rodHasDescription0)
        let merged2 := step2.1
        let rodHasDescription := step2.2
        if rodHasTitle && (rodHasDescription || rodHasImage) then
          (merged2, "rod_browser", none)
        else (titleFallback httpMetadata title url, "title_fallback", none)
    | .error _ => (titleFallback httpMetadata title url, "title_fallback", none)

/-- `JobProcessor.extractMetadataWithFallbacks` (processor.go:620-762),
returning `(metadata, extraction method, error)`. -/
def extractMetadataWithFallbacks (env : ExtractEnv) (url : String) :
    MetaMap × String × Option String :=
  let oembedHit : Option MetaMap :=
    if env.oembedAvailable then
      match env.oembedResult with
      | .ok (some om) => some om
      | _ => none
    else none
  match oembedHit with
  | some om =>
      let om :=
        if mget om "description" = "" then mset om "description" url else om
      (om, "oembed", none)
  | none =>
    let httpMetadata :=
      match env.httpResult with
      | .ok m => m
      | .error _ => ([] : MetaMap)
    let title :=
      match env.titleResult with
      | .ok t => t
      | .error _ => "Unknown Title"
    fallbackTiers httpMetadata title env.rodResult url

/-! ## Model of the used fragment of Go's `net/url`

`NormalizeURL` (normalize.go) delegates to `url.Parse`, `URL.Query`
(`ParseQuery`), `Values.Del`, `Values.Encode` and `URL.String`.  Those are
modelled here, restricted to the shapes that reach them: `NormalizeURL`
only parses strings that carry a case-insensitive `http://`/`https://`
scheme (it adds one otherwise), so the parser handles exactly
`scheme://authority[path][?query][#fragment]`.  Characters model bytes (the
file-level convention); user-info (`@`) and percent-escaped hosts are not
modelled (the parser rejects them, a strict subset of what Go accepts, and
no claim touches them). -/

/-- Hex digit test (`ishex`). -/
def isHexDigit (c : Char) : Bool :=
  ('0' ≤ c && c ≤ '9') || ('a' ≤ c && c ≤ 'f') || ('A' ≤ c && c ≤ 'F')

/-- Hex digit value (`unhex`). -/
def unhex (c : Char) : Nat :=
  if '0' ≤ c && c ≤ '9' then c.toNat - '0'.toNat
  else if 'a' ≤ c && c ≤ 'f' then c.toNat - 'a'.toNat + 10
  else if 'A' ≤ c && c ≤ 'F' then c.toNat - 'A'.toNat + 10
  else 0

/-- Upper-case hex digit (`upperhex` table). -/
def hexUpper (n : Nat) : Char :=
  "0123456789ABCDEF".data.getD n '0'

/-- ASCII letter or digit. -/
def isAlnumGo (c : Char) : Bool :=
  ('a' ≤ c && c ≤ 'z') || ('A' ≤ c && c ≤ 'Z') || ('0' ≤ c && c ≤ '9')

/-- `url.QueryEscape` on one byte: keep unreserved characters, space
becomes `+`, everything else `%XX` (upper-case hex of the byte value). -/
def queryEscapeChar (c : Char) : List Char :=
  if c = ' ' then ['+']
  else if isAlnumGo c || c = '-' || c = '_' || c = '.' || c = '~' then [c]
  else ['%', hexUpper (c.toNat % 256 / 16), hexUpper (c.toNat % 16)]

/-- `url.QueryEscape`. -/
def queryEscape (s : String) : String :=
  ⟨(s.data.map queryEscapeChar).flatten⟩

/-- Go `unescape`: decode `%XX` (an invalid escape is an error); `+`
becomes a space only in query mode (`plusToSpace`). -/
def unescapeList (plusToSpace : Bool) : List Char → Option (List Char)
  | [] => some []
  | c :: rest =>
      if c = '%' then
        match rest with
        | a :: b :: rest2 =>
            if isHexDigit a && isHexDigit b then
              (unescapeList plusToSpace rest2).map
                (Char.ofNat (unhex a * 16 + unhex b) :: ·)
            else none
        | _ => none
      else if c = '+' then
        (unescapeList plusToSpace rest).map
          ((if plusToSpace then ' ' else '+') :: ·)
      else (unescapeList plusToSpace rest).map (c :: ·)

/-- `url.QueryUnescape`. -/
def queryUnescape (s : String) : Option String :=
  (unescapeList true s.data).map (⟨·⟩)

/-- `url.Values`: a map from keys to value lists; modelled as an
association list in first-insertion order with distinct keys. -/
abbrev Values := List (String × List String)

/-- `Values` write during parsing: `m[key] = append(m[key], value)`. -/
def valuesAdd (v : Values) (k val : String) : Values :=
  match v with
  | [] => [(k, [val])]
  | (k', vs) :: rest =>
      if k' = k then (k', vs ++ [val]) :: rest
      else (k', vs) :: valuesAdd rest k val

/-- `Values.Del`: remove the key (and all its values) from the map. -/
def valuesDel (v : Values) (k : String) : Values :=
  match v with
  | [] => []
  | (k', vs) :: rest =>
      if k' = k then valuesDel rest k else (k', vs) :: valuesDel rest k

/-- `Values.Get`-style lookup of the whole value list. -/
def valuesGet (v : Values) (k : String) : Option (List String) :=
  match v with
  | [] => none
  | (k', vs) :: rest => if k' = k then some vs else valuesGet rest k

/-- Split a character list on a separator (`strings.Cut` loop /
`strings.Split`). -/
def splitOnChar (l : List Char) (sep : Char) : List (List Char) :=
  match l with
  | [] => [[]]
  | c :: rest =>
      match splitOnChar rest sep with
      | [] => if c = sep then [[], []] else [[c]]
      | seg :: segs =>
          if c = sep then [] :: seg :: segs else (c :: seg) :: segs

/-- The segment loop of `url.ParseQuery`: skip empty segments and segments
containing a raw `;` (Go ≥1.17 reports them as errors, which `URL.Query`
ignores); cut each segment at the first `=`; skip pairs whose key or value
fails unescaping; append the rest in order. -/
def parseQuerySegs : List (List Char) → Values → Values
  | [], acc => acc
  | seg :: rest, acc =>
      if seg.contains ';' then parseQuerySegs rest acc
      else if seg.isEmpty then parseQuerySegs rest acc
      else
        let key := seg.takeWhile (· != '=')
        let value := (seg.dropWhile (· != '=')).drop 1
        match unescapeList true key with
        | none => parseQuerySegs rest acc
        | some k =>
          match unescapeList true value with
          | none => parseQuerySegs rest acc
          | some val => parseQuerySegs rest (valuesAdd acc ⟨k⟩ ⟨val⟩)

/-- `url.ParseQuery` with errors dropped (`URL.Query`). -/
def parseQuery (s : String) : Values :=
  parseQuerySegs (splitOnChar s.data '&') []

/-- The key order of `Values.Encode` (`sort.Strings`): ascending
byte-lexicographic. -/
def sortValues (v : Values) : Values :=
  List.insertionSort (fun a b => a.1 ≤ b.1) v

/-- `url.QueryEscape` at the character-list level. -/
def escQChars (s : String) : List Char :=
  (s.data.map queryEscapeChar).flatten

/-- The `key=value` segments `Values.Encode` emits, in map order. -/
def segsOf (v : Values) : List (List Char) :=
  v.flatMap fun kv => kv.2.map fun val =>
    escQChars kv.1 ++ '=' :: escQChars val

/-- `Encode`'s buffer writes: `&` before every segment but the first. -/
def joinAmp : List (List Char) → List Char
  | [] => []
  | [s] => s
  | s :: rest => s ++ '&' :: joinAmp rest

/-- `Values.Encode`: emit `key=value` segments, keys in sorted order,
values of one key in list order, all query-escaped, joined by `&`. -/
def valuesEncode (v : Values) : String :=
  ⟨joinAmp (segsOf (sortValues v))⟩

/-- Characters `validEncoded` accepts unescaped in an escaped path. -/
def pathValidChar (c : Char) : Bool :=
  isAlnumGo c ||
    ['-', '_', '.', '~', '!', '$', '&', '\'', '(', ')', '*', '+', ',',
      ';', '=', ':', '@', '[', ']', '/', '%'].contains c

/-- `shouldEscape(c, encodePath) = false`: characters `escape` leaves
unescaped in a path. -/
def pathKeepChar (c : Char) : Bool :=
  isAlnumGo c ||
    ['-', '_', '.', '~', '$', '&', '+', ',', '/', ':', ';', '=', '@'].contains c

/-- `escape(s, encodePath)`. -/
def escapePathList (l : List Char) : List Char :=
  (l.map fun c =>
    if pathKeepChar c then [c]
    else ['%', hexUpper (c.toNat % 256 / 16), hexUpper (c.toNat % 16)]).flatten

/-- `URL.EscapedPath` given the raw path text as parsed (its escapes were
validated there): `setPath` keeps the raw text as `RawPath` unless it
coincides with the default escaping, and `EscapedPath` returns the raw
text whenever it is validly encoded, else re-escapes the decoded path —
which collapses to: keep the raw text when all its characters may appear
in an escaped path, otherwise escape the decoded path. -/
def emitPath (raw : List Char) : List Char :=
  match unescapeList false raw with
  | none => raw
  | some decoded =>
      if raw.all pathValidChar then raw else escapePathList decoded

/-- Characters `validEncoded` accepts unescaped in an escaped fragment. -/
def fragValidChar (c : Char) : Bool :=
  isAlnumGo c ||
    ['-', '_', '.', '~', '!', '$', '&', '\'', '(', ')', '*', '+', ',',
      ';', '=', ':', '@', '[', ']', '/', '?', '%'].contains c

/-- `shouldEscape(c, encodeFragment) = false`. -/
def fragKeepChar (c : Char) : Bool :=
  isAlnumGo c ||
    ['-', '_', '.', '~', '$', '&', '+', ',', '/', ':', ';', '=', '?', '@',
      '!', '(', ')', '*'].contains c

/-- `escape(s, encodeFragment)`. -/
def escapeFragList (l : List Char) : List Char :=
  (l.map fun c =>
    if fragKeepChar c then [c]
    else ['%', hexUpper (c.toNat % 256 / 16), hexUpper (c.toNat % 16)]).flatten

/-- `URL.EscapedFragment` (same collapse as `emitPath`, with the fragment
character classes). -/
def emitFrag (raw : List Char) : List Char :=
  match unescapeList false raw with
  | none => raw
  | some decoded =>
      if raw.all fragValidChar then raw else escapeFragList decoded

/-- Characters accepted in a host (`shouldEscape(c, encodeHost) = false`);
the model rejects percent escapes and user-info instead of decoding them. -/
def hostValidChar (c : Char) : Bool :=
  isAlnumGo c ||
    ['-', '_', '.', '~', '!', '$', '&', '\'', '(', ')', '*', '+', ',',
      ';', '=', ':', '[', ']', '<', '>', '"'].contains c

/-- The `url.URL` fields the normalizer touches.  `path` and `fragment`
hold the raw text as written (Go's `RawPath`/`RawFragment`), validated at
parse time; `String()` re-escapes them via `emitPath`/`emitFrag`. -/
structure GoURL where
  scheme : String
  host : String
  path : String
  forceQuery : Bool
  rawQuery : String
  fragment : String
deriving DecidableEq, Repr

/-- The scheme-specific part of `url.Parse`: split off the query (a
trailing lone `?` sets `ForceQuery`), then the authority up to the first
`/`, then validate host characters and path escapes. -/
def parseHTTP (scheme : String) (rest frag : List Char) : Option GoURL :=
  let hasForce := rest ≠ [] ∧ rest.getLast? = some '?' ∧
    (rest.dropLast).all (· != '?')
  let beforeQ := if hasForce then rest.dropLast
    else rest.takeWhile (· != '?')
  let rawQuery := if hasForce then ([] : List Char)
    else (rest.dropWhile (· != '?')).drop 1
  let authority := beforeQ.takeWhile (· != '/')
  let path := beforeQ.dropWhile (· != '/')
  if authority.all hostValidChar then
    match unescapeList false path with
    | none => none
    | some _ =>
        some { scheme := scheme, host := ⟨authority⟩, path := ⟨path⟩,
               forceQuery := decide hasForce, rawQuery := ⟨rawQuery⟩,
               fragment := ⟨frag⟩ }
  else none

/-- `url.Parse`, restricted to strings with a case-insensitive
`http://`/`https://` scheme (the only shape `NormalizeURL` feeds it): the
fragment is split off first and its escapes validated (`setFragment`), the
scheme is lower-cased, and the rest goes to `parseHTTP`. -/
def parseURL (raw : String) : Option GoURL :=
  let l := raw.data
  let beforeHash := l.takeWhile (· != '#')
  let frag := (l.dropWhile (· != '#')).drop 1
  match unescapeList false frag with
  | none => none
  | some _ =>
      let lower := beforeHash.map lowerChar
      if ['h','t','t','p',':','/','/'].isPrefixOf lower then
        parseHTTP "http" (beforeHash.drop 7) frag
      else if ['h','t','t','p','s',':','/','/'].isPrefixOf lower then
        parseHTTP "https" (beforeHash.drop 8) frag
      else none

/-- `URL.String` for the parsed shape: scheme, `//`, host, escaped path,
`?query` when forced or nonempty, `#fragment` when nonempty. -/
def urlString (u : GoURL) : String :=
  ⟨u.scheme.data ++ [':', '/', '/'] ++ u.host.data ++ emitPath u.path.data
    ++ (if u.forceQuery || u.rawQuery ≠ "" then '?' :: u.rawQuery.data
        else [])
    ++ (if u.fragment ≠ "" then '#' :: emitFrag u.fragment.data else [])⟩

/-! ## URL normalizer — `internal/pkg/urldetector/normalize.go` -/

/-- The fixed tracking-parameter list of `NormalizeURL`
(normalize.go:50-66). -/
def trackingParams : List String :=
  ["utm_source", "utm_medium", "utm_campaign", "utm_content", "utm_term",
   "si", "fbclid", "gclid", "ref", "source", "msclkid", "igshid"]

/-- `NormalizeURL` (normalize.go:16-75): trim; require or add a scheme
(adding `https://` only when the string contains a dot); parse; require a
host; lower-case the host and strip one leading `www.`; delete the
tracking parameters from the parsed query and re-encode it; rebuild. -/
def NormalizeURL (rawURL : String) : Except String String :=
  let r := trimSpace rawURL
  if r = "" then .error "empty URL"
  else
    let withScheme : Option String :=
      if ¬ (hasStart (lowerStr r) "http://" ∨
            hasStart (lowerStr r) "https://") then
        if containsChar r '.' then some ("https://" ++ r) else none
      else some r
    match withScheme with
    | none => .error "invalid URL: no domain found"
    | some r2 =>
      match parseURL r2 with
      | none => .error "failed to parse URL"
      | some u =>
        if u.host = "" then .error "invalid URL: no host found"
        else
          let host := trimStart (lowerStr u.host) "www."
          let q := trackingParams.foldl valuesDel (parseQuery u.rawQuery)
          .ok (urlString { u with host := host, rawQuery := valuesEncode q })

/-! ## URL detector — `internal/pkg/urldetector/detector.go`

`DetectURLs` produces candidate strings by five regex scans of the message
text and funnels every candidate through `addIfSupported`; the scans
(Go regexp matching over free text) stay outside the model, so the
detector is modelled as the `addIfSupported` fold over an arbitrary
candidate list — every claim about it quantifies over all candidate lists.
Pattern matching of the compiled platform regexes is abstracted as a
boolean relation `m pattern url`. -/

/-- `URLInfo` (detector.go). -/
structure URLInfo where
  url : String
  platform : String
deriving DecidableEq, Repr

/-- `fixMalformedQueryString` (detector.go:242-258): after the first `?`,
every further `?` becomes `&`. -/
def fixMalformedQueryString (rawURL : String) : String :=
  if ¬ containsChar rawURL '?' then rawURL
  else
    let base := rawURL.data.takeWhile (· != '?') ++ ['?']
    let queryPart := (rawURL.data.dropWhile (· != '?')).drop 1
    ⟨base ++ queryPart.map fun c => if c = '?' then '&' else c⟩

/-- `detectPlatformFromURL` (detector.go:263-273): first matching compiled
pattern wins; no match yields `domain.PlatformUnknown = "unknown"`. -/
def detectPlatformFromURL (m : String → String → Bool)
    (patterns : List (String × String)) (url : String) : String :=
  match patterns with
  | [] => "unknown"
  | (pat, plat) :: rest =>
      if m pat url then plat else detectPlatformFromURL m rest url

/-- `addIfSupported` (detector.go:196-238): URL-decode once (keeping the
original on a decode error), fix the malformed query string, normalize
(dropping the candidate on a normalization error), deduplicate by the
normalized form, tag the platform, and append — unknown platforms
included. -/
def addIfSupported (m : String → String → Bool)
    (patterns : List (String × String)) (rawURL : String)
    (urls : List URLInfo) (seen : List String) :
    List URLInfo × List String :=
  let decoded := (queryUnescape rawURL).getD rawURL
  let fixed := fixMalformedQueryString decoded
  match NormalizeURL fixed with
  | .error _ => (urls, seen)
  | .ok normalizedURL =>
      if seen.contains normalizedURL then (urls, seen)
      else
        (urls ++ [{ url := normalizedURL,
                    platform := detectPlatformFromURL m patterns
                      normalizedURL }],
         seen ++ [normalizedURL])

/-- `DetectURLs` as the fold of `addIfSupported` over the candidate
strings produced by the five scanning stages. -/
def detectURLsFromCandidates (m : String → String → Bool)
    (patterns : List (String × String)) (cands : List String) :
    List URLInfo :=
  (cands.foldl (fun acc c => addIfSupported m patterns c acc.1 acc.2)
    ([], [])).1

/-! ## Platform loader — `unnamed/part_013` and pattern building -/

/-- `domain.Platform` (the fields the loader and detector use). -/
structure Platform where
  id : String
  name : String
  urlPatterns : List String
  priority : Int
  enabled : Bool
deriving DecidableEq, Repr

/-- The caching step of `Loader.Load`: keep the enabled platforms (in
registration order here; the Go cache is a map keyed by id, whose
iteration order is unspecified, so consumers receive some permutation of
this list). -/
def loadCache (platforms : List Platform) : List Platform :=
  platforms.filter (·.enabled)

/-- One step of the insertion sort in `Loader.GetAllByPriority`
(part_013:146-154): insert after every element of priority at least as
high (the Go loop shifts while `platforms[j].Priority < key.Priority`,
which keeps the sort stable). -/
def insertByPriority (p : Platform) : List Platform → List Platform
  | [] => [p]
  | q :: rest =>
      if q.priority < p.priority then p :: q :: rest
      else q :: insertByPriority p rest

/-- `Loader.GetAllByPriority`: stable insertion sort, highest priority
first, applied to the cache in its iteration order. -/
def getAllByPriority (cache : List Platform) : List Platform :=
  cache.foldl (fun acc p => insertByPriority p acc) []

/-- `regexp.QuoteMeta`. -/
def quoteMeta (s : String) : String :=
  ⟨(s.data.map fun c =>
    if ['\\', '.', '+', '*', '?', '(', ')', '|', '[', ']',
        Char.ofNat 123, Char.ofNat 125, '^', '$'].contains c then
      ['\\', c]
    else [c]).flatten⟩

/-- Substring search on character lists. -/
def listContainsSub : List Char → List Char → Bool
  | l, sub =>
    sub.isPrefixOf l ||
      match l with
      | [] => false
      | _ :: rest => listContainsSub rest sub

/-- `strings.Contains`. -/
def containsSub (s sub : String) : Bool := listContainsSub s.data sub.data

/-- `Detector.buildRegexPattern` (detector.go:95-119). -/
def buildRegexPattern (urlPattern : String) : String :=
  if hasStart urlPattern "www." then
    "(?i)(?:https?://)?(?:www\\.)?" ++ quoteMeta (trimStart urlPattern "www.")
      ++ "\\b"
  else if containsSub urlPattern "open." then
    "(?i)(?:https?://)?(?:open\\.)?" ++
      quoteMeta (trimStart urlPattern "open.") ++ "\\b"
  else if containsSub urlPattern "music." then
    "(?i)(?:https?://)?" ++ quoteMeta urlPattern ++ "\\b"
  else if containsSub urlPattern "bandcamp.com" then
    "(?i)(?:https?://)?[\\w-]+\\." ++ quoteMeta urlPattern ++ "\\b"
  else
    "(?i)(?:https?://)?(?:www\\.)?" ++ quoteMeta urlPattern ++ "\\b"

/-- `Detector.buildPatterns` (detector.go:48-92): no patterns before a
load; otherwise one compiled pattern per url-pattern of each platform, in
`GetAllByPriority` order (the `QuoteMeta`-built regexes always compile, so
the compile-error drop never fires). -/
def buildPatterns (loaded : Bool) (cache : List Platform) :
    List (String × String) :=
  if ¬ loaded then []
  else
    (getAllByPriority cache).flatMap fun p =>
      p.urlPatterns.map fun up => (buildRegexPattern up, p.id)

/-- Whether any of a platform's compiled patterns matches the URL. -/
def platformMatches (m : String → String → Bool) (p : Platform)
    (url : String) : Bool :=
  p.urlPatterns.any fun up => m (buildRegexPattern up) url

/-- Byte-valued strings: the model's characters stand for bytes, so
byte-faithful statements restrict to code points below 256. -/
def isByteStr (s : String) : Bool := s.data.all fun c => c.toNat < 256

/-- The claim's raw-text reading of "identical except for tracking
parameters": drop every query segment whose raw key text is one of the
tracking-parameter names (the `?` disappears when nothing remains). -/
def stripTrackingRaw (s : String) : String :=
  if ¬ containsChar s '?' then s
  else
    let base := s.data.takeWhile (· != '?')
    let query := (s.data.dropWhile (· != '?')).drop 1
    let keep := (splitOnChar query '&').filter fun seg =>
      !(trackingParams.contains ⟨seg.takeWhile (· != '=')⟩)
    if keep.isEmpty then ⟨base⟩
    else ⟨base ++ '?' :: joinAmp keep⟩

/-! ## Theorems -/

/-! ### Association-list and Redis-primitive lemmas -/

theorem alookup_aset {α : Type} (l : List (String × α)) (k : String)
    (v : α) : alookup (aset l k v) k = some v := by
  induction l with
  | nil => simp [aset, alookup]
  | cons hd tl ih =>
      by_cases h : hd.1 = k
      · simp [aset, alookup, h]
      · simp [aset, alookup, h, ih]

theorem alookup_aset_ne {α : Type} (l : List (String × α)) (k k' : String)
    (v : α) (h : k ≠ k') : alookup (aset l k v) k' = alookup l k' := by
  induction l with
  | nil => simp [aset, alookup, h]
  | cons hd tl ih =>
      by_cases h' : hd.1 = k
      · simp [aset, alookup, h', h]
      · simp [aset, alookup, h', ih]

theorem zadd_mem (l : List (String × Int)) (m : String) (s : Int) :
    (m, s) ∈ zadd l m s := by
  induction l with
  | nil => simp [zadd]
  | cons hd tl ih =>
      by_cases h : hd.1 = m
      · simp [zadd, h]
      · simp [zadd, h]
        right
        exact ih

theorem lremFirst_not_mem (l : List String) (v : String)
    (h : l.count v ≤ 1) : v ∉ lremFirst l v := by
  induction l with
  | nil => simp [lremFirst]
  | cons hd tl ih =>
      by_cases hv : hd = v
      · subst hv
        simp [lremFirst]
        have := List.count_cons_self (a := hd) (l := tl)
        intro hmem
        have : 1 ≤ tl.count hd := List.one_le_count_iff.mpr hmem
        simp [List.count_cons_self] at h
        omega
      · simp [lremFirst, hv]
        constructor
        · exact fun he => hv he.symm
        · apply ih
          simpa [List.count_cons, hv] using h

/-! ### C2 — exponential backoff schedule -/

/-- C2: for the N-th `Fail` call on a job (`1 ≤ N ≤ max_retries`, i.e. the
stored `retry_count` is `N-1` before the call), the scheduled backoff is
`min(initial * 2^(N-1), cap)` seconds with `initial = 1` and `cap = 300`
(so attempt 1 backs off by exactly `initial`), and the job is placed in the
retry sorted set at `now + backoff` with its status set back to pending. -/
theorem fail_backoff_contract (st : QueueState) (jobID emsg : String)
    (job : QueueJob) (now : Int) (N : Nat)
    (hjob : alookup st.jobs jobID = some job)
    (hrc : job.retryCount = N - 1)
    (h1 : 1 ≤ N) (hN : N ≤ job.maxRetries) :
    initialBackoffSec = 1 ∧ maxBackoffSec = 300 ∧
    backoffSec N = min (initialBackoffSec * 2 ^ (N - 1)) maxBackoffSec ∧
    backoffSec 1 = initialBackoffSec ∧
    (fail st jobID emsg now).2 = .ok () ∧
    (jobID, now + (backoffSec N : Int)) ∈ (fail st jobID emsg now).1.retry ∧
    ∃ job', alookup (fail st jobID emsg now).1.jobs jobID = some job' ∧
      job'.status = .pending ∧ job'.retryCount = N ∧
      job'.nextRetry = some (now + (backoffSec N : Int)) := by
  have hrcN : job.retryCount + 1 = N := by omega
  have hcond : job.retryCount + 1 ≤ job.maxRetries := by omega
  refine ⟨rfl, rfl, rfl, rfl, ?_, ?_, ?_⟩
  · simp [fail, hjob, hcond]
  · simp only [fail, hjob, hcond, if_true]
    simpa [hrcN] using zadd_mem st.retry jobID (now + (backoffSec N : Int))
  · simp only [fail, hjob, hcond, if_true]
    exact ⟨_, by simpa [hrcN] using alookup_aset st.jobs jobID _,
      rfl, rfl, rfl⟩

/-- Witness for `fail_backoff_contract` at a concrete queue state holding a
job with `retry_count = 2` (third attempt). -/
theorem fail_backoff_contract_witness :
    let job : QueueJob :=
      { id := "j1", jobType := "extract_metadata", payload := "p",
        status := .processing, createdAt := 0, updatedAt := none,
        retryCount := 2, maxRetries := 5, nextRetry := none, error := "" }
    let st : QueueState :=
      { pending := [], processing := ["j1"], retry := [], dead := [],
        jobs := [("j1", job)], stats := [] }
    (fail st "j1" "boom" 100).2 = .ok () ∧
    ("j1", (104 : Int)) ∈ (fail st "j1" "boom" 100).1.retry := by
  intro job st
  have h := fail_backoff_contract st "j1" "boom" job 100 3
    (by simp [st, job, alookup]) (by simp [job]) (by omega) (by simp [job])
  refine ⟨h.2.2.2.2.1, ?_⟩
  have hb : (backoffSec 3 : Int) = 4 := by decide
  have := h.2.2.2.2.2.1
  rw [hb] at this
  exact this

/-! ### C5 — dequeue: timeout is not an error; success moves the job -/

/-- C5: when the blocking wait times out with nothing pending, `Dequeue`
returns no job and no error (`(nil, nil)`), leaving the state unchanged;
when a job is available (here: the id `j`, previously enqueued, at the pop
end of the pending list with its hash present), the returned job has status
`processing` and its id has been moved from the pending list to the
processing set. -/
theorem dequeue_contract (st : QueueState) (now : Int) (l : List String)
    (j : String) (job : QueueJob)
    (hpend : st.pending = l ++ [j])
    (hjob : alookup st.jobs j = some job) (hid : job.id = j) :
    (∀ st' : QueueState, ∀ t : Int, st'.pending = [] →
        dequeue st' t = (st', .ok none)) ∧
    ∃ job', dequeue st now =
      ({ st with
           pending := l
           processing := j :: st.processing
           jobs := aset st.jobs j job'
           stats := hincr (hincr st.stats "pending" (-1)) "processing" 1 },
        .ok (some job')) ∧
      job'.id = j ∧ job'.status = .processing := by
  constructor
  · intro st' t hempty
    simp [dequeue, hempty]
  · refine ⟨{ job with status := .processing, updatedAt := some now },
      ?_, by simp [hid], rfl⟩
    simp [dequeue, hpend, hjob]

/-- Witness for `dequeue_contract`: one job enqueued into the empty state,
then dequeued. -/
theorem dequeue_contract_witness :
    let st := enqueue QueueState.empty "extract_metadata" "p" "j1" 7
    ∃ job', dequeue st 9 =
      ({ st with
           pending := []
           processing := ["j1"]
           jobs := aset st.jobs "j1" job'
           stats := hincr (hincr st.stats "pending" (-1)) "processing" 1 },
        .ok (some job')) ∧
      job'.id = "j1" ∧ job'.status = .processing := by
  intro st
  have h := dequeue_contract st 9 [] "j1"
    { id := "j1", jobType := "extract_metadata", payload := "p",
      status := .pending, createdAt := 7, updatedAt := none,
      retryCount := 0, maxRetries := maxRetriesConst, nextRetry := none,
      error := "" }
    (by simp [st, enqueue, QueueState.empty])
    (by simp [st, enqueue, QueueState.empty, alookup, aset]) rfl
  exact h.2

/-! ### C10 — the worker marks the job completed before the handler runs -/

/-- C10: `processJob` invokes `Complete` on the job id before the handler
executes, so already in the pre-handler state the job's status is
`completed` and its id is gone from the processing set, regardless of the
handler's outcome; when the handler fails, `Fail` is applied to exactly
that already-completed state, and when it succeeds `Complete` is applied to
it a second time. -/
theorem processJob_completes_before_handler (st : QueueState)
    (jobID emsg : String) (job : QueueJob) (now : Int)
    (hjob : alookup st.jobs jobID = some job)
    (hcount : st.processing.count jobID ≤ 1) :
    ∃ job1, alookup ((complete st jobID now).1).jobs jobID = some job1 ∧
      job1.status = .completed ∧
      jobID ∉ ((complete st jobID now).1).processing ∧
      processJob st jobID (some emsg) now =
        (fail (complete st jobID now).1 jobID emsg now).1 ∧
      processJob st jobID none now =
        (complete (complete st jobID now).1 jobID now).1 := by
  refine ⟨{ job with status := .completed, updatedAt := some now },
    ?_, rfl, ?_, rfl, rfl⟩
  · simp [complete, hjob, alookup_aset]
  · simp only [complete, hjob]
    exact lremFirst_not_mem st.processing jobID hcount

/-- Witness for `processJob_completes_before_handler`: a freshly dequeued
job in the processing set. -/
theorem processJob_completes_before_handler_witness :
    let job : QueueJob :=
      { id := "j1", jobType := "extract_metadata", payload := "p",
        status := .processing, createdAt := 0, updatedAt := none,
        retryCount := 0, maxRetries := 5, nextRetry := none, error := "" }
    let st : QueueState :=
      { pending := [], processing := ["j1"], retry := [], dead := [],
        jobs := [("j1", job)], stats := [] }
    ∃ job1, alookup ((complete st "j1" 3).1).jobs "j1" = some job1 ∧
      job1.status = .completed ∧
      "j1" ∉ ((complete st "j1" 3).1).processing := by
  intro job st
  have h := processJob_completes_before_handler st "j1" "boom" job 3
    (by simp [st, job, alookup]) (by simp [st])
  exact ⟨h.choose, h.choose_spec.1, h.choose_spec.2.1, h.choose_spec.2.2.1⟩

/-! ### Lifecycle lemmas for C1/C3 -/

/-- One non-final failure round: from the mid-lifecycle invariant at
`retry_count = i < maxRetries`, the dequeue-then-fail step empties the
processing set (the fail call LRems the id) and, once the promoter runs at
any time past the scheduled backoff, the invariant holds again at `i+1`. -/
theorem roundStep (st : QueueState) (jobID emsg : String) (i : Nat)
    (ts us : Int) (hm : MidS st jobID i) (hi : i < maxRetriesConst)
    (hu : ts + (backoffSec (i + 1) : Int) ≤ us) :
    (failStep st jobID emsg ts).processing = [] ∧
    MidS (processRetryJobs (failStep st jobID emsg ts) us) jobID (i + 1) := by
  obtain ⟨hp, hpr, hr, hd, job, hj, hjid, hjrc, hjst, hjmax⟩ := hm
  have hcond : job.retryCount + 1 ≤ job.maxRetries := by
    rw [hjrc, hjmax]; omega
  have hcond2 : i + 1 ≤ job.maxRetries := by rw [hjmax]; omega
  have hdeq : dequeue st ts =
      ({ st with
           pending := []
           processing := [jobID]
           jobs := [(jobID,
             { job with status := .processing, updatedAt := some ts })]
           stats := hincr (hincr st.stats "pending" (-1)) "processing" 1 },
       .ok (some { job with status := .processing, updatedAt := some ts })) := by
    simp [dequeue, hp, hpr, hj, alookup, aset]
  have hfail : failStep st jobID emsg ts =
      { st with
          pending := [],
          processing := [],
          retry := [(jobID, ts + (backoffSec (i + 1) : Int))],
          jobs := [(jobID, { job with status := .pending, updatedAt := some ts, retryCount := i + 1, error := emsg, nextRetry := some (ts + (backoffSec (i + 1) : Int)) })],
          stats := hincr (hincr (hincr st.stats "pending" (-1))
            "processing" 1) "processing" (-1) } := by
    rw [failStep, hdeq]
    simp [fail, alookup, hcond, hcond2, hjrc, hr, zadd, aset, lremFirst]
  refine ⟨by rw [hfail], ?_⟩
  have hready : zrangeByScoreLe [(jobID, ts + (backoffSec (i + 1) : Int))] us
      = [(jobID, ts + (backoffSec (i + 1) : Int))] := by
    simp [zrangeByScoreLe, hu, List.insertionSort]
  rw [hfail]
  refine ⟨?_, ?_, ?_, ?_,
    { job with status := .pending, updatedAt := some ts, retryCount := i + 1, error := emsg, nextRetry := some (ts + (backoffSec (i + 1) : Int)) },
    ?_, by simp [hjid], rfl, rfl, by simp [hjmax]⟩ <;>
    simp [processRetryJobs, hready, hd, hu]

/-- The (maxRetries+1)-th fail from the mid-lifecycle invariant at
`retry_count = maxRetries` takes the dead-letter branch: the id lands on
the dead list, leaves pending/retry/processing, and the job record has
status failed with `retry_count = maxRetries + 1`. -/
theorem finalStep (st : QueueState) (jobID emsg : String) (t : Int)
    (hm : MidS st jobID maxRetriesConst) :
    (failStep st jobID emsg t).processing = [] ∧
    (failStep st jobID emsg t).pending = [] ∧
    (failStep st jobID emsg t).retry = [] ∧
    (failStep st jobID emsg t).dead = [jobID] ∧
    ∃ job, alookup (failStep st jobID emsg t).jobs jobID = some job ∧
      job.status = .failed ∧ job.retryCount = maxRetriesConst + 1 ∧
      job.maxRetries = maxRetriesConst := by
  obtain ⟨hp, hpr, hr, hd, job, hj, hjid, hjrc, hjst, hjmax⟩ := hm
  have hcond : ¬ (job.retryCount + 1 ≤ job.maxRetries) := by
    rw [hjrc, hjmax]; omega
  have hdeq : dequeue st t =
      ({ st with
           pending := []
           processing := [jobID]
           jobs := [(jobID,
             { job with status := .processing, updatedAt := some t })]
           stats := hincr (hincr st.stats "pending" (-1)) "processing" 1 },
       .ok (some { job with status := .processing, updatedAt := some t })) := by
    simp [dequeue, hp, hpr, hj, alookup, aset]
  have hfail : failStep st jobID emsg t =
      { st with
          pending := [],
          processing := [],
          retry := [],
          dead := [jobID],
          jobs := [(jobID, { job with status := .failed, updatedAt := some t, retryCount := job.retryCount + 1, error := emsg })],
          stats := hincr (hincr (hincr (hincr st.stats "pending" (-1))
            "processing" 1) "failed" 1) "processing" (-1) } := by
    rw [failStep, hdeq]
    simp [fail, alookup, hcond, hr, hd, aset, lremFirst]
  rw [hfail]
  refine ⟨rfl, rfl, rfl, rfl,
    { job with status := .failed, updatedAt := some t, retryCount := job.retryCount + 1, error := emsg },
    by simp [alookup], rfl, by simp [hjrc], hjmax⟩

/-- The mid-lifecycle invariant holds after every complete round up to the
retry budget. -/
theorem lifeState_mid (jobID jobType payload emsg : String) (t0 : Int)
    (ts us : Nat → Int)
    (hu : ∀ k, k < maxRetriesConst →
      ts k + (backoffSec (k + 1) : Int) ≤ us k) :
    ∀ k, k ≤ maxRetriesConst →
      MidS (lifeState jobID jobType payload emsg t0 ts us k) jobID k := by
  intro k
  induction k with
  | zero =>
      intro _
      exact ⟨rfl, rfl, rfl, rfl,
        { id := jobID, jobType := jobType, payload := payload, status := .pending, createdAt := t0, updatedAt := none, retryCount := 0, maxRetries := maxRetriesConst, nextRetry := none, error := "" },
        rfl, rfl, rfl, rfl, rfl⟩
  | succ k ih =>
      intro hk
      have hmid := ih (by omega)
      exact (roundStep _ jobID emsg k (ts k) (us k) hmid (by omega)
        (hu k (by omega))).2

/-! ### C1 — retry exhaustion dead-letters the job -/

/-- C1: along the failure lifecycle of one job (enqueued once, then
dequeue-fail rounds with retry promotion in between), after `Fail` has run
`max_retries + 1` times the job id is on the dead-letter list with status
`failed` and `retry_count = max_retries + 1`, it is absent from the pending
list and the retry schedule, and every one of the `max_retries + 1` fail
calls (the retry branch and the dead-letter branch alike) left the
processing set without the job id.  The only assumption is that each
promoter run happens after the scheduled backoff has elapsed. -/
theorem fail_exhaustion_dead_letter (jobID jobType payload emsg : String)
    (t0 : Int) (ts us : Nat → Int)
    (hu : ∀ k, k < maxRetriesConst →
      ts k + (backoffSec (k + 1) : Int) ≤ us k) :
    jobID ∈ (failStep (lifeState jobID jobType payload emsg t0 ts us
        maxRetriesConst) jobID emsg (ts maxRetriesConst)).dead ∧
    jobID ∉ (failStep (lifeState jobID jobType payload emsg t0 ts us
        maxRetriesConst) jobID emsg (ts maxRetriesConst)).pending ∧
    (∀ s : Int, (jobID, s) ∉ (failStep (lifeState jobID jobType payload emsg
        t0 ts us maxRetriesConst) jobID emsg (ts maxRetriesConst)).retry) ∧
    (∃ job, alookup (failStep (lifeState jobID jobType payload emsg t0 ts us
          maxRetriesConst) jobID emsg (ts maxRetriesConst)).jobs jobID
        = some job ∧
      job.status = .failed ∧ job.retryCount = job.maxRetries + 1 ∧
      job.maxRetries = maxRetriesConst) ∧
    (∀ k, k ≤ maxRetriesConst →
      jobID ∉ (failStep (lifeState jobID jobType payload emsg t0 ts us k)
        jobID emsg (ts k)).processing) := by
  have hmid := lifeState_mid jobID jobType payload emsg t0 ts us hu
  have hfin := finalStep (lifeState jobID jobType payload emsg t0 ts us
    maxRetriesConst) jobID emsg (ts maxRetriesConst)
    (hmid maxRetriesConst (le_refl _))
  obtain ⟨hproc, hpend, hretry, hdead, job, hjob, hst, hrc, hmax⟩ := hfin
  refine ⟨by rw [hdead]; exact List.mem_singleton.mpr rfl,
    by rw [hpend]; exact List.not_mem_nil jobID,
    fun s => by rw [hretry]; exact List.not_mem_nil _,
    ⟨job, hjob, hst, by rw [hrc, hmax], hmax⟩, ?_⟩
  intro k hk
  rcases Nat.lt_or_ge k maxRetriesConst with hlt | hge
  · have := (roundStep _ jobID emsg k (ts k) (us k) (hmid k (by omega))
      hlt (hu k hlt)).1
    rw [this]
    exact List.not_mem_nil jobID
  · have hkeq : k = maxRetriesConst := by omega
    subst hkeq
    rw [hproc]
    exact List.not_mem_nil jobID

/-- Witness for `fail_exhaustion_dead_letter`: a concrete job with concrete
round times (`ts k = 1000 k`, promoter at `1000 k + 500`). -/
theorem fail_exhaustion_dead_letter_witness :
    "job-1" ∈ (failStep (lifeState "job-1" "extract_metadata" "p" "boom" 0
        (fun k => (1000 * k : Int)) (fun k => (1000 * k + 500 : Int))
        maxRetriesConst) "job-1" "boom" 5000).dead := by
  exact (fail_exhaustion_dead_letter "job-1" "extract_metadata" "p" "boom" 0
    (fun k => (1000 * k : Int)) (fun k => (1000 * k + 500 : Int))
    (by decide)).1

/-! ### C3 — the retry-count invariant -/

/-- Counterexample to C3 as stated: in the reachable state in which the
sixth `Fail` call has just dead-lettered the job, the stored job record has
`retry_count = 6 > 5 = max_retries`, so "`retry_count` never exceeds
`max_retries`" fails on the code. -/
theorem retryCount_exceeds_maxRetries_cex :
    ((alookup (failStep (lifeState "job-1" "extract_metadata" "p" "boom" 0
        (fun k => (1000 * k : Int)) (fun k => (1000 * k + 500 : Int))
        maxRetriesConst) "job-1" "boom" 5000).jobs "job-1").map
      (fun j => decide (j.retryCount ≤ j.maxRetries))) = some false := by
  decide

/-- C3 (amended): `retry_count` never exceeds `max_retries + 1`, the
excess over `max_retries` occurring exactly on the dead-letter transition:
along the lifecycle every pre-exhaustion state satisfies
`retry_count ≤ max_retries`, the dead-lettered job has
`retry_count = max_retries + 1` with status failed, and the bound is
respected by every queue operation because `Fail` is the only operation
that changes a stored `retry_count` (by exactly one), while `Enqueue`
initialises it to zero and `Dequeue`, `Complete`, `ProcessRetryJobs`
preserve it for every job. -/
theorem retryCount_bound_amended :
    (∀ (jobID jobType payload emsg : String) (t0 : Int) (ts us : Nat → Int),
      (∀ k, k < maxRetriesConst →
        ts k + (backoffSec (k + 1) : Int) ≤ us k) →
      (∀ k, k ≤ maxRetriesConst → ∃ job,
        alookup (lifeState jobID jobType payload emsg t0 ts us k).jobs jobID
          = some job ∧ job.retryCount ≤ job.maxRetries) ∧
      (∃ job, alookup (failStep (lifeState jobID jobType payload emsg t0 ts
          us maxRetriesConst) jobID emsg (ts maxRetriesConst)).jobs jobID
        = some job ∧
        job.retryCount = job.maxRetries + 1 ∧ job.status = .failed)) ∧
    (∀ (st : QueueState) (jobType payload newID : String) (now : Int),
      ∃ job, alookup (enqueue st jobType payload newID now).jobs newID
        = some job ∧ job.retryCount = 0) ∧
    (∀ (st : QueueState) (now : Int) (jid : String),
      (alookup (dequeue st now).1.jobs jid).map QueueJob.retryCount
        = (alookup st.jobs jid).map QueueJob.retryCount) ∧
    (∀ (st : QueueState) (jobID : String) (now : Int) (jid : String),
      (alookup (complete st jobID now).1.jobs jid).map QueueJob.retryCount
        = (alookup st.jobs jid).map QueueJob.retryCount) ∧
    (∀ (st : QueueState) (now : Int),
      (processRetryJobs st now).jobs = st.jobs) ∧
    (∀ (st : QueueState) (jobID emsg : String) (now : Int)
      (job : QueueJob), alookup st.jobs jobID = some job →
      ∃ job', alookup (fail st jobID emsg now).1.jobs jobID = some job' ∧
        job'.retryCount = job.retryCount + 1) := by
  refine ⟨?_, ?_, ?_, ?_, ?_, ?_⟩
  · intro jobID jobType payload emsg t0 ts us hu
    have hmid := lifeState_mid jobID jobType payload emsg t0 ts us hu
    constructor
    · intro k hk
      obtain ⟨_, _, _, _, job, hj, _, hrc, _, hmax⟩ := hmid k hk
      exact ⟨job, by rw [hj]; simp [alookup], by rw [hrc, hmax]; omega⟩
    · obtain ⟨_, _, _, _, job, hj, hst, hrc, hmax⟩ :=
        finalStep (lifeState jobID jobType payload emsg t0 ts us
          maxRetriesConst) jobID emsg (ts maxRetriesConst)
          (hmid maxRetriesConst (le_refl _))
      exact ⟨job, hj, by rw [hrc, hmax], hst⟩
  · intro st jobType payload newID now
    exact ⟨{ id := newID, jobType := jobType, payload := payload, status := .pending, createdAt := now, updatedAt := none, retryCount := 0, maxRetries := maxRetriesConst, nextRetry := none, error := "" },
      by simp [enqueue, alookup_aset], rfl⟩
  · intro st now jid
    cases hL : st.pending.getLast? with
    | none => simp [dequeue, hL]
    | some p =>
      cases hA : alookup st.jobs p with
      | none => simp [dequeue, hL, hA]
      | some job =>
        by_cases h : p = jid
        · subst h
          simp [dequeue, hL, hA, alookup_aset]
        · simp [dequeue, hL, hA, alookup_aset_ne _ _ _ _ h]
  · intro st jobID now jid
    cases hA : alookup st.jobs jobID with
    | none => simp [complete, hA]
    | some job =>
      by_cases h : jobID = jid
      · subst h
        simp [complete, hA, alookup_aset]
      · simp [complete, hA, alookup_aset_ne _ _ _ _ h]
  · intro st now
    rw [processRetryJobs]
    split <;> rfl
  · intro st jobID emsg now job hA
    by_cases h : job.retryCount + 1 ≤ job.maxRetries
    · exact ⟨{ job with error := emsg, updatedAt := some now, retryCount := job.retryCount + 1, nextRetry := some (now + (backoffSec (job.retryCount + 1) : Int)), status := .pending },
        by simp [fail, hA, h, alookup_aset], rfl⟩
    · exact ⟨{ job with error := emsg, updatedAt := some now, retryCount := job.retryCount + 1, status := .failed },
        by simp [fail, hA, h, alookup_aset], rfl⟩

/-- Witness for `retryCount_bound_amended`: the lifecycle part at a
concrete job and concrete times, read off at round 3. -/
theorem retryCount_bound_amended_witness :
    ∃ job, alookup (lifeState "job-1" "extract_metadata" "p" "boom" 0
        (fun k => (1000 * k : Int)) (fun k => (1000 * k + 500 : Int))
        3).jobs "job-1" = some job ∧ job.retryCount ≤ job.maxRetries := by
  exact (retryCount_bound_amended.1 "job-1" "extract_metadata" "p" "boom" 0
    (fun k => (1000 * k : Int)) (fun k => (1000 * k + 500 : Int))
    (by decide)).1 3 (by decide)

/-! ### C6 — Open-Graph vs Twitter-Card priority -/

/-- C6 (code bug): `findOgMetaInNode` is documented (processor.go:284-287)
to prioritize Open-Graph over Twitter Cards, but the implementation is
first-seen-wins in document order; when the `twitter:title` meta tag
precedes the `og:title` tag, the extracted title is the Twitter value, not
the Open-Graph one (the value is still trimmed and whitespace-collapsed).
This theorem evaluates the extractor at such a document. -/
theorem findOgMeta_document_order_bug :
    alookup (extractOgMetadataFromHTML (HtmlNode.container (forestOf
      [HtmlNode.element "html" [] (forestOf
        [HtmlNode.element "head" [] (forestOf
          [HtmlNode.element "meta"
            [("name", "twitter:title"), ("content", "  TW   Title ")]
            (forestOf []),
           HtmlNode.element "meta"
            [("property", "og:title"), ("content", "OG Title")]
            (forestOf [])])])])))
      "title" = some "TW Title" ∧ "TW Title" ≠ "OG Title" := by
  decide

/-! ### C4 — the pipeline never fails -/

theorem mget_mset (m : MetaMap) (k v : String) :
    mget (mset m k v) k = v := by
  simp [mget, mset, alookup_aset]

theorem mget_mset_ne (m : MetaMap) (k k' v : String) (h : k ≠ k') :
    mget (mset m k v) k' = mget m k' := by
  simp [mget, mset, alookup_aset_ne _ _ _ _ h]

theorem mget_titleFallback_title (http : MetaMap) (t u : String) :
    mget (titleFallback http t u) "title" = t := by
  unfold titleFallback
  split_ifs <;>
    simp [mget_mset_ne _ _ _ _ (by decide : ("description" : String) ≠ "title"),
      mget_mset_ne _ _ _ _ (by decide : ("image" : String) ≠ "title"),
      mget_mset_ne _ _ _ _ (by decide : ("site_name" : String) ≠ "title"),
      mget, alookup]

/-- Counterexample to C4 as stated: an oEmbed provider response whose JSON
has no title field maps (via `oembedToMetadata`) to a metadata object
without a `title` key, which `TryExtract` returns with a nil error and the
pipeline passes through as the tier-0 result — so the pipeline yields a
metadata object with an empty title. -/
theorem extract_pipeline_empty_title_cex :
    mget (extractMetadataWithFallbacks
      { oembedAvailable := true,
        oembedResult := .ok (some (oembedToMetadata
          { title := "", description := "", authorName := "Some Artist",
            providerName := "SoundCloud", thumbnailURL := "",
            oembedType := "rich" } "https://on.soundcloud.com/abc")),
        httpResult := .error "unused", titleResult := .error "unused",
        rodResult := .error "unused" }
      "https://on.soundcloud.com/abc").1 "title" = "" ∧
    (extractMetadataWithFallbacks
      { oembedAvailable := true,
        oembedResult := .ok (some (oembedToMetadata
          { title := "", description := "", authorName := "Some Artist",
            providerName := "SoundCloud", thumbnailURL := "",
            oembedType := "rich" } "https://on.soundcloud.com/abc")),
        httpResult := .error "unused", titleResult := .error "unused",
        rodResult := .error "unused" }
      "https://on.soundcloud.com/abc").2.1 = "oembed" := by
  constructor <;> decide

/-- Tiers 1-3 never produce an error, always name one of the three
fallback tiers, and emit a non-empty title when the basic title is
non-empty. -/
theorem fallbackTiers_spec (http : MetaMap) (title url : String)
    (rodR : Except String MetaMap) (htne : title ≠ "") :
    (fallbackTiers http title rodR url).2.2 = none ∧
    ((fallbackTiers http title rodR url).2.1 = "http_static" ∨
     (fallbackTiers http title rodR url).2.1 = "rod_browser" ∨
     (fallbackTiers http title rodR url).2.1 = "title_fallback") ∧
    mget (fallbackTiers http title rodR url).1 "title" ≠ "" := by
  have hfb : ∀ h : MetaMap,
      mget (titleFallback h title url) "title" ≠ "" := by
    intro h
    rw [mget_titleFallback_title]
    exact htne
  have hdt : ("description" : String) ≠ "title" := by decide
  unfold fallbackTiers
  simp only []
  split_ifs with hA hB hB
  · exact ⟨rfl, Or.inl rfl, by
      rw [mget_mset_ne _ _ _ _ hdt]
      exact bne_iff_ne.mp ((Bool.and_eq_true _ _).mp hB).1⟩
  · cases rodR with
    | ok rodM =>
        simp only []
        split_ifs with hC hD hD
        · exact ⟨rfl, Or.inr (Or.inl rfl), by
            rw [mget_mset_ne _ _ _ _ hdt]
            exact bne_iff_ne.mp ((Bool.and_eq_true _ _).mp hD).1⟩
        · exact ⟨rfl, Or.inr (Or.inr rfl), hfb _⟩
        · exact ⟨rfl, Or.inr (Or.inl rfl),
            bne_iff_ne.mp ((Bool.and_eq_true _ _).mp hD).1⟩
        · exact ⟨rfl, Or.inr (Or.inr rfl), hfb _⟩
    | error e => exact ⟨rfl, Or.inr (Or.inr rfl), hfb _⟩
  · exact ⟨rfl, Or.inl rfl, bne_iff_ne.mp ((Bool.and_eq_true _ _).mp hB).1⟩
  · cases rodR with
    | ok rodM =>
        simp only []
        split_ifs with hC hD hD
        · exact ⟨rfl, Or.inr (Or.inl rfl), by
            rw [mget_mset_ne _ _ _ _ hdt]
            exact bne_iff_ne.mp ((Bool.and_eq_true _ _).mp hD).1⟩
        · exact ⟨rfl, Or.inr (Or.inr rfl), hfb _⟩
        · exact ⟨rfl, Or.inr (Or.inl rfl),
            bne_iff_ne.mp ((Bool.and_eq_true _ _).mp hD).1⟩
        · exact ⟨rfl, Or.inr (Or.inr rfl), hfb _⟩
    | error e => exact ⟨rfl, Or.inr (Or.inr rfl), hfb _⟩

/-- Tiers 1-3 never produce an error and always name one of the three
fallback tiers, with no hypotheses on the tier outcomes. -/
theorem fallbackTiers_no_error (http : MetaMap) (title url : String)
    (rodR : Except String MetaMap) :
    (fallbackTiers http title rodR url).2.2 = none ∧
    ((fallbackTiers http title rodR url).2.1 = "http_static" ∨
     (fallbackTiers http title rodR url).2.1 = "rod_browser" ∨
     (fallbackTiers http title rodR url).2.1 = "title_fallback") := by
  unfold fallbackTiers
  simp only []
  split_ifs with hA hB hB
  · exact ⟨rfl, Or.inl rfl⟩
  · cases rodR with
    | ok rodM =>
        simp only []
        split_ifs with hC hD hD
        · exact ⟨rfl, Or.inr (Or.inl rfl)⟩
        · exact ⟨rfl, Or.inr (Or.inr rfl)⟩
        · exact ⟨rfl, Or.inr (Or.inl rfl)⟩
        · exact ⟨rfl, Or.inr (Or.inr rfl)⟩
    | error e => exact ⟨rfl, Or.inr (Or.inr rfl)⟩
  · exact ⟨rfl, Or.inl rfl⟩
  · cases rodR with
    | ok rodM =>
        simp only []
        split_ifs with hC hD hD
        · exact ⟨rfl, Or.inr (Or.inl rfl)⟩
        · exact ⟨rfl, Or.inr (Or.inr rfl)⟩
        · exact ⟨rfl, Or.inr (Or.inl rfl)⟩
        · exact ⟨rfl, Or.inr (Or.inr rfl)⟩
    | error e => exact ⟨rfl, Or.inr (Or.inr rfl)⟩

/-- C4 (amended): for every URL and every tier-outcome environment, the
pipeline unconditionally returns a nil error and one of the four tier
names — no tier failure (oEmbed fetch/decode error, static-fetch error,
render error, title-fetch error) ever surfaces as a pipeline failure —
and the returned title is non-empty provided every oEmbed success
carries a non-empty title and the Tier-3 title fetch never succeeds
with an empty string (the two gaps exhibited by the counterexample's
family). -/
theorem extract_pipeline_never_fails (env : ExtractEnv) (url : String) :
    ((extractMetadataWithFallbacks env url).2.2 = none ∧
     ((extractMetadataWithFallbacks env url).2.1 = "oembed" ∨
      (extractMetadataWithFallbacks env url).2.1 = "http_static" ∨
      (extractMetadataWithFallbacks env url).2.1 = "rod_browser" ∨
      (extractMetadataWithFallbacks env url).2.1 = "title_fallback")) ∧
    ((∀ om, env.oembedResult = .ok (some om) → mget om "title" ≠ "") →
     (∀ t, env.titleResult = .ok t → t ≠ "") →
     mget (extractMetadataWithFallbacks env url).1 "title" ≠ "") := by
  constructor
  · cases hav : env.oembedAvailable with
    | false =>
        simp only [extractMetadataWithFallbacks, hav]
        obtain ⟨h1, h2⟩ := fallbackTiers_no_error
          (match env.httpResult with
            | Except.ok m => m
            | Except.error _ => ([] : MetaMap))
          (match env.titleResult with
            | Except.ok t => t
            | Except.error _ => "Unknown Title") url env.rodResult
        exact ⟨h1, Or.inr h2⟩
    | true =>
      cases hoeq : env.oembedResult with
      | ok o =>
        cases o with
        | some om =>
            simp only [extractMetadataWithFallbacks, hav, hoeq]
            exact ⟨rfl, Or.inl rfl⟩
        | none =>
            simp only [extractMetadataWithFallbacks, hav, hoeq]
            obtain ⟨h1, h2⟩ := fallbackTiers_no_error
              (match env.httpResult with
                | Except.ok m => m
                | Except.error _ => ([] : MetaMap))
              (match env.titleResult with
                | Except.ok t => t
                | Except.error _ => "Unknown Title") url env.rodResult
            exact ⟨h1, Or.inr h2⟩
      | error e =>
          simp only [extractMetadataWithFallbacks, hav, hoeq]
          obtain ⟨h1, h2⟩ := fallbackTiers_no_error
            (match env.httpResult with
              | Except.ok m => m
              | Except.error _ => ([] : MetaMap))
            (match env.titleResult with
              | Except.ok t => t
              | Except.error _ => "Unknown Title") url env.rodResult
          exact ⟨h1, Or.inr h2⟩
  · intro hoe hti
    have htne : (match env.titleResult with
        | Except.ok t => t
        | Except.error _ => "Unknown Title") ≠ "" := by
      cases h : env.titleResult with
      | ok t => exact hti t h
      | error e => exact (by decide : ("Unknown Title" : String) ≠ "")
    have hfall := fun http => fallbackTiers_spec http
      (match env.titleResult with
        | Except.ok t => t
        | Except.error _ => "Unknown Title") url env.rodResult htne
    cases hav : env.oembedAvailable with
    | false =>
        simp only [extractMetadataWithFallbacks, hav]
        exact (hfall (match env.httpResult with
          | Except.ok m => m
          | Except.error _ => ([] : MetaMap))).2.2
    | true =>
      cases hoeq : env.oembedResult with
      | ok o =>
        cases o with
        | some om =>
            simp only [extractMetadataWithFallbacks, hav, hoeq]
            have h := hoe om hoeq
            by_cases hdesc : mget om "description" = ""
            · simpa [hdesc, mget_mset_ne _ _ _ _
                (by decide : ("description" : String) ≠ "title")] using h
            · simpa [hdesc] using h
        | none =>
            simp only [extractMetadataWithFallbacks, hav, hoeq]
            exact (hfall (match env.httpResult with
              | Except.ok m => m
              | Except.error _ => ([] : MetaMap))).2.2
      | error e =>
          simp only [extractMetadataWithFallbacks, hav, hoeq]
          exact (hfall (match env.httpResult with
            | Except.ok m => m
            | Except.error _ => ([] : MetaMap))).2.2

/-- Witness for `extract_pipeline_never_fails`: every tier fails except the
title fetch. -/
theorem extract_pipeline_never_fails_witness :
    (extractMetadataWithFallbacks
      { oembedAvailable := true, oembedResult := .error "HTTP error: 500",
        httpResult := .error "HTTP error: 403",
        titleResult := .ok "Some Song", rodResult := .error "launch failed" }
      "https://example.com/x").2.2 = none ∧
    mget (extractMetadataWithFallbacks
      { oembedAvailable := true, oembedResult := .error "HTTP error: 500",
        httpResult := .error "HTTP error: 403",
        titleResult := .ok "Some Song", rodResult := .error "launch failed" }
      "https://example.com/x").1 "title" ≠ "" := by
  have h := extract_pipeline_never_fails
    { oembedAvailable := true, oembedResult := .error "HTTP error: 500",
      httpResult := .error "HTTP error: 403",
      titleResult := .ok "Some Song", rodResult := .error "launch failed" }
    "https://example.com/x"
  exact ⟨h.1.1, h.2 (by intro om hom; cases hom)
    (by intro t ht; cases ht; decide)⟩

/-! ### C9 — platform tagging by priority -/

theorem mem_insertByPriority (p x : Platform) (l : List Platform) :
    x ∈ insertByPriority p l ↔ x = p ∨ x ∈ l := by
  induction l with
  | nil => simp [insertByPriority]
  | cons q rest ih =>
      by_cases h : q.priority < p.priority
      · simp [insertByPriority, h]
        try tauto
      · simp [insertByPriority, h, ih]
        try tauto

theorem insertByPriority_perm (p : Platform) (l : List Platform) :
    List.Perm (insertByPriority p l) (p :: l) := by
  induction l with
  | nil => simp [insertByPriority]
  | cons q rest ih =>
      by_cases h : q.priority < p.priority
      · simp [insertByPriority, h]
      · simp only [insertByPriority, if_neg h]
        exact (ih.cons q).trans (List.Perm.swap p q rest)

/-- Sortedness (non-increasing priority) is preserved by the Go insertion
step. -/
theorem insertByPriority_sorted (p : Platform) (l : List Platform)
    (h : l.Sorted fun a b => b.priority ≤ a.priority) :
    (insertByPriority p l).Sorted fun a b => b.priority ≤ a.priority := by
  induction l with
  | nil => simp [insertByPriority]
  | cons q rest ih =>
      rw [List.sorted_cons] at h
      by_cases hq : q.priority < p.priority
      · rw [insertByPriority, if_pos hq, List.sorted_cons]
        refine ⟨?_, List.sorted_cons.mpr h⟩
        intro b hb
        rcases List.mem_cons.mp hb with hb | hb
        · subst hb
          omega
        · have := h.1 b hb
          omega
      · rw [insertByPriority, if_neg hq, List.sorted_cons]
        constructor
        · intro b hb
          rcases (mem_insertByPriority p b rest).mp hb with hb | hb
          · subst hb
            omega
          · exact h.1 b hb
        · exact ih h.2

theorem getAllByPriority_aux (cache acc : List Platform)
    (hs : acc.Sorted fun a b => b.priority ≤ a.priority) :
    (cache.foldl (fun acc p => insertByPriority p acc) acc).Sorted
      (fun a b => b.priority ≤ a.priority) ∧
    List.Perm (cache.foldl (fun acc p => insertByPriority p acc) acc)
      (acc ++ cache) := by
  induction cache generalizing acc with
  | nil => simpa using hs
  | cons p rest ih =>
      obtain ⟨h1, h2⟩ := ih (insertByPriority p acc)
        (insertByPriority_sorted p acc hs)
      refine ⟨h1, ?_⟩
      rw [List.foldl_cons]
      exact h2.trans
        (((insertByPriority_perm p acc).append_right rest).trans
          List.perm_middle.symm)

/-- First-match scan over the patterns of one platform, all carrying the
same platform id. -/
theorem detect_tagged (m : String → String → Bool) (l : List String)
    (pid : String) (rest : List (String × String)) (url : String) :
    detectPlatformFromURL m
        ((l.map fun up => (buildRegexPattern up, pid)) ++ rest) url =
      if l.any (fun up => m (buildRegexPattern up) url) then pid
      else detectPlatformFromURL m rest url := by
  induction l with
  | nil => simp
  | cons up tl ih =>
      by_cases h : m (buildRegexPattern up) url
      · simp [detectPlatformFromURL, h]
      · simp [detectPlatformFromURL, h, ih]

/-- The flattened pattern scan equals a first-matching-platform search. -/
theorem detect_flatMap (m : String → String → Bool) (ps : List Platform)
    (url : String) :
    detectPlatformFromURL m
        (ps.flatMap fun p =>
          p.urlPatterns.map fun up => (buildRegexPattern up, p.id)) url =
      ((ps.find? fun p => platformMatches m p url).map Platform.id).getD
        "unknown" := by
  induction ps with
  | nil => simp [detectPlatformFromURL]
  | cons p rest ih =>
      rw [List.flatMap_cons, detect_tagged]
      by_cases h : platformMatches m p url = true
      · have h' : p.urlPatterns.any (fun up => m (buildRegexPattern up) url)
            = true := h
        rw [if_pos h',
          List.find?_cons_of_pos (p := fun q => platformMatches m q url) _ h]
        simp
      · have h' : ¬ p.urlPatterns.any (fun up => m (buildRegexPattern up) url)
            = true := h
        rw [if_neg h',
          List.find?_cons_of_neg (p := fun q => platformMatches m q url) _
            (by simpa using h), ih]

/-- In a list sorted by non-increasing priority, the first platform
satisfying a predicate has maximal priority among all satisfying it. -/
theorem find_first_max (ps : List Platform)
    (hs : ps.Sorted fun a b => b.priority ≤ a.priority)
    (pred : Platform → Bool) (p : Platform)
    (hf : ps.find? pred = some p) :
    ∀ q, q ∈ ps → pred q = true → q.priority ≤ p.priority := by
  induction ps with
  | nil => simp at hf
  | cons h0 rest ih =>
      rw [List.sorted_cons] at hs
      by_cases hp : pred h0 = true
      · rw [List.find?_cons_of_pos _ hp] at hf
        have h0p : h0 = p := by injection hf
        subst h0p
        intro q hq _
        rcases List.mem_cons.mp hq with hq | hq
        · subst hq
          omega
        · exact hs.1 q hq
      · rw [List.find?_cons_of_neg _ (by simpa using hp)] at hf
        intro q hq hpq
        rcases List.mem_cons.mp hq with hq | hq
        · subst hq
          exact absurd hpq hp
        · exact ih hs.2 hf q hq hpq

/-- Counterexample to C9 as stated: two enabled platforms of equal
priority, `alpha` registered before `beta`.  The loader cache is a Go map,
so consumers may receive any permutation of it — `[beta, alpha]` is such
an order — and with both patterns matching, detection returns `beta`, not
the first-registered `alpha`: ties are broken by map iteration order, not
registration order. -/
theorem detect_tiebreak_registration_cex :
    List.Perm
      [{ id := "beta", name := "Beta", urlPatterns := ["beta.com"],
         priority := 1, enabled := true },
       { id := "alpha", name := "Alpha", urlPatterns := ["alpha.com"],
         priority := 1, enabled := true }]
      (loadCache
        [{ id := "alpha", name := "Alpha", urlPatterns := ["alpha.com"],
           priority := 1, enabled := true },
         { id := "beta", name := "Beta", urlPatterns := ["beta.com"],
           priority := 1, enabled := true }]) ∧
    detectPlatformFromURL (fun _ _ => true)
      (buildPatterns true
        [{ id := "beta", name := "Beta", urlPatterns := ["beta.com"],
           priority := 1, enabled := true },
         { id := "alpha", name := "Alpha", urlPatterns := ["alpha.com"],
           priority := 1, enabled := true }])
      "https://alpha.com/x" = "beta" ∧
    "beta" ≠ "alpha" := by
  refine ⟨?_, by decide, by decide⟩
  decide

/-- C9 (amended): the pattern list is built from the cache sorted stably
by descending priority (a permutation of the cache), so the detected
platform is a matching platform of maximal priority among all matchers —
with ties between equal-priority platforms broken by the cache's map
iteration order, which Go does not guarantee to be registration order —
and a URL matched by no pattern is tagged `unknown` yet still appended to
the result by `addIfSupported`. -/
theorem platform_priority_detection (m : String → String → Bool)
    (cache : List Platform) (url : String) :
    (getAllByPriority cache).Sorted
      (fun a b => b.priority ≤ a.priority) ∧
    List.Perm (getAllByPriority cache) cache ∧
    (∀ pid, detectPlatformFromURL m (buildPatterns true cache) url = pid →
      pid ≠ "unknown" →
      ∃ p, p ∈ cache ∧ p.id = pid ∧ platformMatches m p url = true ∧
        ∀ q, q ∈ cache → platformMatches m q url = true →
          q.priority ≤ p.priority) ∧
    ((∀ q, q ∈ cache → platformMatches m q url = false) →
      detectPlatformFromURL m (buildPatterns true cache) url = "unknown") ∧
    (∀ raw urls seen n,
      NormalizeURL (fixMalformedQueryString
        ((queryUnescape raw).getD raw)) = .ok n →
      seen.contains n = false →
      (addIfSupported m (buildPatterns true cache) raw urls seen).1 =
        urls ++ [{ url := n, platform :=
          detectPlatformFromURL m (buildPatterns true cache) n }]) := by
  obtain ⟨hsort, hperm0⟩ := getAllByPriority_aux cache [] (by simp)
  have hperm : List.Perm (getAllByPriority cache) cache := by
    simpa using hperm0
  have hbp : buildPatterns true cache =
      (getAllByPriority cache).flatMap
        (fun p => p.urlPatterns.map fun up => (buildRegexPattern up, p.id)) :=
    by simp [buildPatterns]
  refine ⟨hsort, hperm, ?_, ?_, ?_⟩
  · intro pid hdet hunk
    rw [hbp, detect_flatMap] at hdet
    cases hf : (getAllByPriority cache).find?
        (fun p => platformMatches m p url) with
    | none =>
        rw [hf] at hdet
        simp at hdet
        exact absurd hdet.symm hunk
    | some p =>
        rw [hf] at hdet
        simp at hdet
        refine ⟨p, hperm.mem_iff.mp (List.mem_of_find?_eq_some hf), hdet,
          List.find?_some (p := fun q => platformMatches m q url) hf, ?_⟩
        intro q hq hm
        exact find_first_max _ hsort _ p hf q (hperm.mem_iff.mpr hq) hm
  · intro hall
    rw [hbp, detect_flatMap]
    have hnone : (getAllByPriority cache).find?
        (fun p => platformMatches m p url) = none := by
      rw [List.find?_eq_none]
      intro x hx
      simp [hall x (hperm.mem_iff.mp hx)]
    rw [hnone]
    rfl
  · intro raw urls seen n hn hseen
    have hns : ¬ n ∈ seen := by
      simpa using hseen
    simp [addIfSupported, hn, hns]

/-- Witness for `platform_priority_detection`: a higher-priority platform
whose pattern matches wins over a lower-priority one, and an unmatched URL
is tagged unknown but still added. -/
theorem platform_priority_detection_witness :
    ∃ p, p ∈
      [{ id := "alpha", name := "Alpha", urlPatterns := ["alpha.com"],
         priority := 1, enabled := true },
       { id := "beta", name := "Beta", urlPatterns := ["beta.com"],
         priority := 2, enabled := true }] ∧
      Platform.id p = "beta" ∧
      platformMatches (fun pat _ => pat = buildRegexPattern "beta.com") p
        "https://beta.com/x" = true := by
  have h := (platform_priority_detection
    (fun pat _ => pat = buildRegexPattern "beta.com")
    [{ id := "alpha", name := "Alpha", urlPatterns := ["alpha.com"],
       priority := 1, enabled := true },
     { id := "beta", name := "Beta", urlPatterns := ["beta.com"],
       priority := 2, enabled := true }]
    "https://beta.com/x").2.2.1 "beta" (by decide) (by decide)
  obtain ⟨p, hp1, hp2, hp3, _⟩ := h
  exact ⟨p, hp1, hp2, hp3⟩

/-! ### C7 — normalization is invariant under tracking parameters -/

theorem valuesGet_valuesDel (v : Values) (k t : String) :
    valuesGet (valuesDel v k) t = if k = t then none else valuesGet v t := by
  induction v with
  | nil => simp [valuesDel, valuesGet]
  | cons e rest ih =>
      obtain ⟨q, vs⟩ := e
      by_cases he : q = k
      · rw [valuesDel, if_pos he, ih]
        by_cases hkt : k = t
        · rw [if_pos hkt, if_pos hkt]
        · rw [if_neg hkt, if_neg hkt, valuesGet,
            if_neg (show ¬ q = t from fun h => hkt (he ▸ h))]
      · rw [valuesDel, if_neg he]
        by_cases hqt : q = t
        · have hkt : ¬ k = t := fun h => he (hqt.trans h.symm)
          rw [if_neg hkt, valuesGet, if_pos hqt, valuesGet, if_pos hqt]
        · rw [valuesGet, if_neg hqt, ih, valuesGet, if_neg hqt]

theorem valuesGet_foldl_del_none (ks : List String) (v : Values)
    (t : String) (h : valuesGet v t = none) :
    valuesGet (ks.foldl valuesDel v) t = none := by
  induction ks generalizing v with
  | nil => simpa using h
  | cons k ks ih =>
      rw [List.foldl_cons]
      apply ih
      rw [valuesGet_valuesDel]
      split
      · rfl
      · exact h

/-- Every tracking key deleted by the fold stays away. -/
theorem valuesGet_foldl_del_mem (ks : List String) (v : Values)
    (t : String) (h : t ∈ ks) :
    valuesGet (ks.foldl valuesDel v) t = none := by
  induction ks generalizing v with
  | nil => cases h
  | cons k ks ih =>
      rw [List.foldl_cons]
      by_cases hk : t ∈ ks
      · exact ih _ hk
      · have hkt : k = t := by
          rcases List.mem_cons.mp h with h | h
          · exact h.symm
          · exact absurd h hk
        apply valuesGet_foldl_del_none
        rw [valuesGet_valuesDel, if_pos hkt]

/-- The key order used by `Values.Encode` is sorted. -/
theorem sortValues_sorted (v : Values) :
    (sortValues v).Sorted fun a b => a.1 ≤ b.1 := by
  haveI : IsTotal (String × List String) (fun a b => a.1 ≤ b.1) :=
    ⟨fun a b => le_total a.1 b.1⟩
  haveI : IsTrans (String × List String) (fun a b => a.1 ≤ b.1) :=
    ⟨fun _ _ _ hab hbc => le_trans hab hbc⟩
  exact List.sorted_insertionSort _ _

/-- Counterexample to C7 as stated over raw inputs: `"x?si=3.5"` and
`"x"` are identical except for the presence of the tracking parameter
`si=3.5`, yet `NormalizeURL` accepts the first (the scheme-adding step
sees the dot inside the tracking value) and rejects the second (no dot,
so "no domain found"). -/
theorem normalize_tracking_raw_cex :
    stripTrackingRaw "x?si=3.5" = stripTrackingRaw "x" ∧
    NormalizeURL "x?si=3.5" = .ok "https://x" ∧
    NormalizeURL "x" = .error "invalid URL: no domain found" ∧
    (Except.ok "https://x" : Except String String) ≠
      .error "invalid URL: no domain found" := by
  refine ⟨by decide, rfl, rfl, fun h => by cases h⟩

/-- C7 (amended): for inputs that (after trimming) already carry an
http/https scheme, parse, and agree on scheme, host, path, force-query
flag and fragment, with parsed queries equal after deleting the fixed
tracking keys, `NormalizeURL` returns identical output; moreover the
deleted tracking keys are absent from the re-encoded query, whose key
order is sorted (deterministic).  The raw-string version of the claim
fails only through the scheme-adding dot check (see the
counterexample). -/
theorem normalize_tracking_equivalence :
    (∀ x y : String, ∀ ux uy : GoURL,
      (hasStart (lowerStr (trimSpace x)) "http://" = true ∨
       hasStart (lowerStr (trimSpace x)) "https://" = true) →
      (hasStart (lowerStr (trimSpace y)) "http://" = true ∨
       hasStart (lowerStr (trimSpace y)) "https://" = true) →
      parseURL (trimSpace x) = some ux →
      parseURL (trimSpace y) = some uy →
      ux.scheme = uy.scheme → ux.host = uy.host → ux.path = uy.path →
      ux.forceQuery = uy.forceQuery → ux.fragment = uy.fragment →
      trackingParams.foldl valuesDel (parseQuery ux.rawQuery) =
        trackingParams.foldl valuesDel (parseQuery uy.rawQuery) →
      NormalizeURL x = NormalizeURL y) ∧
    (∀ v t, t ∈ trackingParams →
      valuesGet (trackingParams.foldl valuesDel v) t = none) ∧
    (∀ v, (sortValues v).Sorted fun a b => a.1 ≤ b.1) := by
  refine ⟨?_, fun v t ht => valuesGet_foldl_del_mem _ v t ht,
    sortValues_sorted⟩
  intro x y ux uy hsx hsy hpx hpy h1 h2 h3 h4 h5 h6
  have hnone : parseURL "" = none := by decide
  have hrx : ¬ trimSpace x = "" := by
    intro h
    rw [h, hnone] at hpx
    cases hpx
  have hry : ¬ trimSpace y = "" := by
    intro h
    rw [h, hnone] at hpy
    cases hpy
  have hcx : ¬ ¬ (hasStart (lowerStr (trimSpace x)) "http://" = true ∨
      hasStart (lowerStr (trimSpace x)) "https://" = true) :=
    not_not_intro hsx
  have hcy : ¬ ¬ (hasStart (lowerStr (trimSpace y)) "http://" = true ∨
      hasStart (lowerStr (trimSpace y)) "https://" = true) :=
    not_not_intro hsy
  simp only [NormalizeURL, if_neg hrx, if_neg hry, if_neg hcx, if_neg hcy,
    hpx, hpy]
  by_cases hh : ux.host = ""
  · rw [if_pos hh, if_pos (h2 ▸ hh)]
  · rw [if_neg hh, if_neg (h2 ▸ hh), h1, h2, h3, h4, h5, h6]

/-- Witness for `normalize_tracking_equivalence`: two URLs differing only
in tracking parameters (`si` present in one, `utm_source` in the other)
normalize identically. -/
theorem normalize_tracking_equivalence_witness :
    NormalizeURL "https://Music.Apple.com/x?si=a&b=1" =
      NormalizeURL "https://Music.Apple.com/x?b=1&utm_source=z" := by
  exact normalize_tracking_equivalence.1
    "https://Music.Apple.com/x?si=a&b=1"
    "https://Music.Apple.com/x?b=1&utm_source=z"
    { scheme := "https", host := "Music.Apple.com", path := "/x",
      forceQuery := false, rawQuery := "si=a&b=1", fragment := "" }
    { scheme := "https", host := "Music.Apple.com", path := "/x",
      forceQuery := false, rawQuery := "b=1&utm_source=z", fragment := "" }
    (by decide) (by decide) (by decide) (by decide)
    rfl rfl rfl rfl rfl (by decide)

/-! ### C8 — detector output: deduplication and canonical form -/

/-- Invariant of the `addIfSupported` fold: the result URLs mirror the
`seen` set (so they are deduplicated), and every entry beyond the initial
ones is the normalization of one of the candidates, tagged by the
platform detector. -/
theorem addIfSupported_fold (m : String → String → Bool)
    (patterns : List (String × String)) (cands : List String) :
    ∀ (urls : List URLInfo) (seen : List String),
      urls.map URLInfo.url = seen → seen.Nodup →
      ((cands.foldl (fun acc c => addIfSupported m patterns c acc.1 acc.2)
          (urls, seen)).1.map URLInfo.url =
        (cands.foldl (fun acc c => addIfSupported m patterns c acc.1 acc.2)
          (urls, seen)).2) ∧
      (cands.foldl (fun acc c => addIfSupported m patterns c acc.1 acc.2)
          (urls, seen)).2.Nodup ∧
      (∀ e ∈ (cands.foldl (fun acc c => addIfSupported m patterns c
          acc.1 acc.2) (urls, seen)).1, e ∈ urls ∨
        ∃ c ∈ cands,
          NormalizeURL (fixMalformedQueryString ((queryUnescape c).getD c))
            = .ok e.url ∧
          e.platform = detectPlatformFromURL m patterns e.url) := by
  induction cands with
  | nil =>
      intro urls seen h1 h2
      exact ⟨h1, h2, fun e he => Or.inl he⟩
  | cons c rest ih =>
      intro urls seen h1 h2
      rw [List.foldl_cons]
      cases hn : NormalizeURL
          (fixMalformedQueryString ((queryUnescape c).getD c)) with
      | error e0 =>
          have hstep : addIfSupported m patterns c urls seen =
              (urls, seen) := by
            simp [addIfSupported, hn]
          rw [hstep]
          obtain ⟨g1, g2, g3⟩ := ih urls seen h1 h2
          refine ⟨g1, g2, fun e he => ?_⟩
          rcases g3 e he with h | ⟨c', hc', h⟩
          · exact Or.inl h
          · exact Or.inr ⟨c', List.mem_cons_of_mem c hc', h⟩
      | ok n =>
          by_cases hseen : n ∈ seen
          · have hstep : addIfSupported m patterns c urls seen =
                (urls, seen) := by
              simp [addIfSupported, hn, hseen]
            rw [hstep]
            obtain ⟨g1, g2, g3⟩ := ih urls seen h1 h2
            refine ⟨g1, g2, fun e he => ?_⟩
            rcases g3 e he with h | ⟨c', hc', h⟩
            · exact Or.inl h
            · exact Or.inr ⟨c', List.mem_cons_of_mem c hc', h⟩
          · have hstep : addIfSupported m patterns c urls seen =
                (urls ++ [{ url := n, platform :=
                  detectPlatformFromURL m patterns n }], seen ++ [n]) := by
              simp [addIfSupported, hn, hseen]
            rw [hstep]
            have h1' : (urls ++ [({ url := n, platform :=
                detectPlatformFromURL m patterns n } : URLInfo)]).map
                URLInfo.url = seen ++ [n] := by
              simp [h1]
            have h2' : (seen ++ [n]).Nodup := by
              rw [List.nodup_append]
              exact ⟨h2, List.nodup_singleton n, by simpa using hseen⟩
            obtain ⟨g1, g2, g3⟩ := ih _ _ h1' h2'
            refine ⟨g1, g2, fun e he => ?_⟩
            rcases g3 e he with h | ⟨c', hc', h⟩
            · rcases List.mem_append.mp h with h | h
              · exact Or.inl h
              · rcases List.mem_singleton.mp h with rfl
                exact Or.inr ⟨c, List.mem_cons_self c rest, hn, rfl⟩
            · exact Or.inr ⟨c', List.mem_cons_of_mem c hc', h⟩

/-- Counterexample to C8 as stated: the candidate
`https://www.www.example.com/a` (matched by the detector's standard URL
stage) is returned as `https://www.example.com/a`, which does not equal
its own normalization — `NormalizeURL` strips only one `www.` prefix per
call, so its output is not always a fixed point. -/
theorem detect_canonical_cex :
    detectURLsFromCandidates (fun _ _ => false) []
        ["https://www.www.example.com/a"] =
      [{ url := "https://www.example.com/a", platform := "unknown" }] ∧
    NormalizeURL "https://www.example.com/a" =
      .ok "https://example.com/a" ∧
    "https://example.com/a" ≠ "https://www.example.com/a" := by
  exact ⟨rfl, rfl, by decide⟩

/-! ### Toward C8's canonical-form clause: normalization is a fixed point
on its own byte-string outputs whose host keeps no `www.` prefix.  The
lemmas below re-trace `NormalizeURL` over its own output. -/

theorem twSelf {p : Char → Bool} {l : List Char}
    (h : ∀ c ∈ l, p c = true) : l.takeWhile p = l := by
  induction l with
  | nil => rfl
  | cons c t ih =>
      rw [List.takeWhile_cons_of_pos (h c (List.mem_cons_self c t)),
        ih fun d hd => h d (List.mem_cons_of_mem c hd)]

theorem dwNil {p : Char → Bool} {l : List Char}
    (h : ∀ c ∈ l, p c = true) : l.dropWhile p = [] := by
  induction l with
  | nil => rfl
  | cons c t ih =>
      rw [List.dropWhile_cons_of_pos (h c (List.mem_cons_self c t))]
      exact ih fun d hd => h d (List.mem_cons_of_mem c hd)

theorem ne_of_class {p : Char → Bool} {c d : Char} (h : p c = true)
    (hd : p d = false) : c ≠ d := by
  intro heq
  rw [heq, hd] at h
  cases h

theorem isAlnumGo_hexUpper (n : Nat) : isAlnumGo (hexUpper n) = true := by
  unfold hexUpper
  rcases Nat.lt_or_ge n "0123456789ABCDEF".data.length with h | h
  · have hall : ∀ c ∈ "0123456789ABCDEF".data, isAlnumGo c = true := by
      decide
    apply hall
    rw [List.getD_eq_getElem _ _ h]
    exact List.getElem_mem h
  · rw [List.getD_eq_default _ _ h]
    decide

theorem isHexDigit_hexUpper (n : Nat) (h : n < 16) :
    isHexDigit (hexUpper n) = true := by
  have hall : ∀ c ∈ "0123456789ABCDEF".data, isHexDigit c = true := by
    decide
  apply hall
  unfold hexUpper
  rw [List.getD_eq_getElem _ _ (by simpa using h)]
  exact List.getElem_mem (by simpa using h)

theorem unhex_hexUpper (n : Nat) (h : n < 16) : unhex (hexUpper n) = n := by
  interval_cases n <;> decide

/-- Character class of `queryEscapeChar` output. -/
def qoutChar (c : Char) : Bool :=
  isAlnumGo c || ['-', '_', '.', '~', '+', '%'].contains c

theorem unreserved_imp_qout (c : Char)
    (h : (isAlnumGo c || c = '-' || c = '_' || c = '.' || c = '~') = true) :
    qoutChar c = true := by
  simp only [Bool.or_eq_true, decide_eq_true_eq] at h
  rcases h with ((((h | h) | h) | h) | h)
  · simp [qoutChar, h]
  · subst h; decide
  · subst h; decide
  · subst h; decide
  · subst h; decide

theorem qout_queryEscapeChar (c c' : Char) (h : c' ∈ queryEscapeChar c) :
    qoutChar c' = true := by
  unfold queryEscapeChar at h
  split_ifs at h with h1 h2
  · rcases List.mem_singleton.mp h with rfl
    decide
  · rcases List.mem_singleton.mp h with rfl
    exact unreserved_imp_qout c' h2
  · simp only [List.mem_cons, List.not_mem_nil, or_false] at h
    rcases h with rfl | rfl | rfl
    · decide
    · simpa [qoutChar] using Or.inl (isAlnumGo_hexUpper _)
    · simpa [qoutChar] using Or.inl (isAlnumGo_hexUpper _)

theorem unescapeList_nil (ps : Bool) : unescapeList ps [] = some [] := rfl

theorem unescapeList_plus (ps : Bool) (rest : List Char) :
    unescapeList ps ('+' :: rest) =
      (unescapeList ps rest).map ((if ps then ' ' else '+') :: ·) := by
  conv_lhs => rw [unescapeList.eq_def]
  simp only []
  rw [if_neg (by decide : ¬ ('+' : Char) = '%'), if_pos trivial]

theorem unescapeList_other (ps : Bool) (c : Char) (rest : List Char)
    (h1 : c ≠ '%') (h2 : c ≠ '+') :
    unescapeList ps (c :: rest) =
      (unescapeList ps rest).map (c :: ·) := by
  conv_lhs => rw [unescapeList.eq_def]
  simp only []
  rw [if_neg h1, if_neg h2]

theorem unescapeList_pct (ps : Bool) (a b : Char) (rest : List Char)
    (ha : isHexDigit a = true) (hb : isHexDigit b = true) :
    unescapeList ps ('%' :: a :: b :: rest) =
      (unescapeList ps rest).map
        (Char.ofNat (unhex a * 16 + unhex b) :: ·) := by
  conv_lhs => rw [unescapeList.eq_def]
  simp only []
  rw [if_pos trivial]
  have hcond : (isHexDigit a && isHexDigit b) = true := by
    rw [ha, hb]
    rfl
  rw [if_pos hcond]

/-- `queryEscape` output on a byte decodes back to that byte. -/
theorem unescape_queryEscapeChar (c : Char) (hc : c.toNat < 256)
    (rest : List Char) :
    unescapeList true (queryEscapeChar c ++ rest) =
      (unescapeList true rest).map (c :: ·) := by
  unfold queryEscapeChar
  split_ifs with h1 h2
  · subst h1
    simp only [List.singleton_append]
    rw [unescapeList_plus]
    rfl
  · have hnp : c ≠ '%' := by
      intro h
      subst h
      simp [isAlnumGo] at h2
    have hnplus : c ≠ '+' := by
      intro h
      subst h
      simp [isAlnumGo] at h2
    simp only [List.singleton_append]
    rw [unescapeList_other _ _ _ hnp hnplus]
  · have hhex1 : isHexDigit (hexUpper (c.toNat % 256 / 16)) = true :=
      isHexDigit_hexUpper _ (by omega)
    have hhex2 : isHexDigit (hexUpper (c.toNat % 16)) = true :=
      isHexDigit_hexUpper _ (by omega)
    have hmod : c.toNat % 256 = c.toNat := Nat.mod_eq_of_lt hc
    have hval : unhex (hexUpper (c.toNat % 256 / 16)) * 16 +
        unhex (hexUpper (c.toNat % 16)) = c.toNat := by
      rw [unhex_hexUpper _ (by omega), unhex_hexUpper _ (by omega)]
      omega
    show unescapeList true ('%' :: hexUpper (c.toNat % 256 / 16) ::
      hexUpper (c.toNat % 16) :: rest) = _
    rw [unescapeList_pct _ _ _ _ hhex1 hhex2, hval, Char.ofNat_toNat]

theorem unescape_escQChars (l rest : List Char)
    (h : ∀ c ∈ l, c.toNat < 256) :
    unescapeList true ((l.map queryEscapeChar).flatten ++ rest) =
      (unescapeList true rest).map (l ++ ·) := by
  induction l with
  | nil =>
      simp only [List.map_nil, List.flatten_nil, List.nil_append]
      cases unescapeList true rest <;> rfl
  | cons c tl ih =>
      simp only [List.map_cons, List.flatten_cons, List.append_assoc]
      rw [unescape_queryEscapeChar c (h c (List.mem_cons_self c tl)),
        ih fun d hd => h d (List.mem_cons_of_mem c hd)]
      cases unescapeList true rest <;> rfl

theorem escQChars_qout (s : String) (c : Char) (h : c ∈ escQChars s) :
    qoutChar c = true := by
  unfold escQChars at h
  rw [List.mem_flatten] at h
  obtain ⟨seg, hseg, hc⟩ := h
  rw [List.mem_map] at hseg
  obtain ⟨d, _, rfl⟩ := hseg
  exact qout_queryEscapeChar d c hc

theorem splitOnChar_ne_nil (l : List Char) (sep : Char) :
    splitOnChar l sep ≠ [] := by
  cases l with
  | nil => simp [splitOnChar]
  | cons c rest =>
      rw [splitOnChar]
      split <;> split_ifs <;> simp

theorem splitOnChar_no_sep (l : List Char) (sep : Char)
    (h : ∀ c ∈ l, c ≠ sep) : splitOnChar l sep = [l] := by
  induction l with
  | nil => rfl
  | cons c rest ih =>
      rw [splitOnChar, ih fun d hd => h d (List.mem_cons_of_mem c hd)]
      simp only []
      rw [if_neg (h c (List.mem_cons_self c rest))]

theorem splitOnChar_append_sep (l1 l2 : List Char) (sep : Char)
    (h : ∀ c ∈ l1, c ≠ sep) :
    splitOnChar (l1 ++ sep :: l2) sep = l1 :: splitOnChar l2 sep := by
  induction l1 with
  | nil =>
      simp only [List.nil_append]
      rw [splitOnChar]
      cases hs : splitOnChar l2 sep with
      | nil => exact absurd hs (splitOnChar_ne_nil l2 sep)
      | cons s ss =>
          simp only []
          rw [if_pos trivial]
  | cons c rest ih =>
      simp only [List.cons_append]
      rw [splitOnChar, ih fun d hd => h d (List.mem_cons_of_mem c hd)]
      simp only []
      rw [if_neg (h c (List.mem_cons_self c rest))]

theorem splitOnChar_joinAmp (segs : List (List Char)) (hne : segs ≠ [])
    (h : ∀ s ∈ segs, ∀ c ∈ s, c ≠ '&') :
    splitOnChar (joinAmp segs) '&' = segs := by
  induction segs with
  | nil => exact absurd rfl hne
  | cons s rest ih =>
      cases rest with
      | nil =>
          rw [joinAmp]
          exact splitOnChar_no_sep s '&' (h s (List.mem_cons_self s []))
      | cons s2 rest2 =>
          have hrec : splitOnChar (joinAmp (s2 :: rest2)) '&' = s2 :: rest2 := by
            refine ih ?_ ?_
            · intro hnil
              exact List.noConfusion hnil
            · exact fun t ht c hc => h t (List.mem_cons_of_mem s ht) c hc
          rw [joinAmp]
          rw [splitOnChar_append_sep _ _ _
            (h s (List.mem_cons_self s _))]
          rw [hrec]
          exact fun hnil => List.noConfusion hnil

theorem valuesAdd_not_mem (v : Values) (k val : String)
    (h : k ∉ v.map Prod.fst) : valuesAdd v k val = v ++ [(k, [val])] := by
  induction v with
  | nil => rfl
  | cons e rest ih =>
      obtain ⟨k2, vs2⟩ := e
      simp only [List.map_cons, List.mem_cons, not_or] at h
      rw [valuesAdd, if_neg (fun he => h.1 he.symm), ih h.2]
      rfl

theorem valuesAdd_append_last (acc : Values) (k val : String)
    (vs : List String) (h : k ∉ acc.map Prod.fst) :
    valuesAdd (acc ++ [(k, vs)]) k val = acc ++ [(k, vs ++ [val])] := by
  induction acc with
  | nil => simp [valuesAdd]
  | cons e rest ih =>
      obtain ⟨k2, vs2⟩ := e
      simp only [List.map_cons, List.mem_cons, not_or] at h
      simp only [List.cons_append]
      rw [valuesAdd, if_neg (fun he => h.1 he.symm), ih h.2]

/-- Character classes occurring in one `key=value` segment of
`Values.Encode` output. -/
theorem seg_chars (k val : String) :
    ∀ c ∈ escQChars k ++ '=' :: escQChars val, qoutChar c = true ∨ c = '=' := by
  intro c hc
  rcases List.mem_append.mp hc with h | h
  · exact Or.inl (escQChars_qout k c h)
  · rcases List.mem_cons.mp h with rfl | h
    · exact Or.inr rfl
    · exact Or.inl (escQChars_qout val c h)

/-- `ParseQuery` consumes one encoded `key=value` segment as one
`Values.Add`. -/
theorem parseQuerySegs_cons_seg (k val : String) (rest : List (List Char))
    (acc : Values) (hk : ∀ c ∈ k.data, c.toNat < 256)
    (hv : ∀ c ∈ val.data, c.toNat < 256) :
    parseQuerySegs ((escQChars k ++ '=' :: escQChars val) :: rest) acc =
      parseQuerySegs rest (valuesAdd acc k val) := by
  have h1 : (escQChars k ++ '=' :: escQChars val).contains ';' = false := by
    rw [← Bool.not_eq_true]
    intro hc
    rcases seg_chars k val ';' (List.elem_iff.mp hc) with h | h
    · exact absurd h (by decide)
    · exact absurd h (by decide)
  have h2 : (escQChars k ++ '=' :: escQChars val).isEmpty = false :=
    List.isEmpty_eq_false.mpr
      (List.append_ne_nil_of_right_ne_nil _ (List.cons_ne_nil _ _))
  have hne : ∀ c ∈ escQChars k, (c != '=') = true := fun c hc =>
    bne_iff_ne.mpr (ne_of_class (escQChars_qout k c hc) (by decide))
  have hkey : (escQChars k ++ '=' :: escQChars val).takeWhile (· != '=') =
      escQChars k := by
    rw [List.takeWhile_append_of_pos hne,
      List.takeWhile_cons_of_neg (by decide), List.append_nil]
  have hval : (((escQChars k ++ '=' :: escQChars val).dropWhile
      (· != '=')).drop 1) = escQChars val := by
    rw [List.dropWhile_append_of_pos hne,
      List.dropWhile_cons_of_neg (by decide)]
    simp
  have hunk : unescapeList true (escQChars k) = some k.data := by
    have h := unescape_escQChars k.data [] hk
    simpa [escQChars, unescapeList_nil] using h
  have hunv : unescapeList true (escQChars val) = some val.data := by
    have h := unescape_escQChars val.data [] hv
    simpa [escQChars, unescapeList_nil] using h
  simp only [parseQuerySegs, h1, h2, hkey, hval, hunk, hunv,
    Bool.false_eq_true, if_false]

/-- `ParseQuery` consumes all segments of one key as a fold of
`Values.Add`. -/
theorem parseQuerySegs_key_block (k : String) (vs : List String)
    (rest : List (List Char)) (acc : Values)
    (hk : ∀ c ∈ k.data, c.toNat < 256)
    (hv : ∀ val ∈ vs, ∀ c ∈ val.data, c.toNat < 256) :
    parseQuerySegs ((vs.map fun val => escQChars k ++ '=' :: escQChars val)
        ++ rest) acc =
      parseQuerySegs rest
        (vs.foldl (fun a val => valuesAdd a k val) acc) := by
  induction vs generalizing acc with
  | nil => simp
  | cons v0 vs ih =>
      simp only [List.map_cons, List.cons_append, List.foldl_cons]
      rw [parseQuerySegs_cons_seg k v0 _ acc hk
        (hv v0 (List.mem_cons_self v0 vs))]
      exact ih _ fun val hval => hv val (List.mem_cons_of_mem v0 hval)

/-- Folding `Values.Add` over one key's value list extends that key's
entry. -/
theorem foldl_valuesAdd_block (k : String) (vs : List String)
    (acc : Values) (u : List String) (h : k ∉ acc.map Prod.fst) :
    vs.foldl (fun a val => valuesAdd a k val) (acc ++ [(k, u)]) =
      acc ++ [(k, u ++ vs)] := by
  induction vs generalizing u with
  | nil => simp
  | cons v0 vs ih =>
      rw [List.foldl_cons, valuesAdd_append_last acc k v0 u h,
        ih (u ++ [v0])]
      simp

/-- Parsing the segments `Values.Encode` emits recovers the map. -/
theorem parseQuerySegs_segsOf (v : Values) : ∀ acc : Values,
    (∀ k ∈ v.map Prod.fst, k ∉ acc.map Prod.fst) →
    (v.map Prod.fst).Nodup →
    (∀ kv ∈ v, (∀ c ∈ kv.1.data, c.toNat < 256) ∧
      ∀ val ∈ kv.2, ∀ c ∈ val.data, c.toNat < 256) →
    (∀ kv ∈ v, kv.2 ≠ []) →
    parseQuerySegs (segsOf v) acc = acc ++ v := by
  induction v with
  | nil =>
      intro acc _ _ _ _
      simp [segsOf, parseQuerySegs]
  | cons kv v ih =>
      intro acc hkeys hnd hbytes hne
      obtain ⟨k, vs⟩ := kv
      have hb := hbytes (k, vs) (List.mem_cons_self _ _)
      have hkacc : k ∉ acc.map Prod.fst := hkeys k (by simp)
      have hkv : k ∉ v.map Prod.fst := by
        simp only [List.map_cons, List.nodup_cons] at hnd
        exact hnd.1
      obtain ⟨v0, vs', rfl⟩ : ∃ v0 vs', vs = v0 :: vs' := by
        rcases vs with _ | ⟨v0, vs'⟩
        · exact absurd rfl (hne (k, []) (List.mem_cons_self _ _))
        · exact ⟨v0, vs', rfl⟩
      have hsegs : segsOf ((k, v0 :: vs') :: v) =
          ((v0 :: vs').map fun val => escQChars k ++ '=' :: escQChars val)
            ++ segsOf v := by
        simp [segsOf]
      rw [hsegs, parseQuerySegs_key_block k (v0 :: vs') _ acc hb.1 hb.2]
      rw [List.foldl_cons, valuesAdd_not_mem acc k v0 hkacc,
        foldl_valuesAdd_block k vs' acc [v0] hkacc]
      have hkeys2 : ∀ k2 ∈ v.map Prod.fst,
          k2 ∉ (acc ++ [(k, [v0] ++ vs')]).map Prod.fst := by
        intro k2 hk2
        simp only [List.map_append, List.map_cons, List.map_nil,
          List.mem_append, List.mem_cons, List.not_mem_nil, or_false,
          not_or]
        exact ⟨hkeys k2 (List.mem_cons_of_mem _ hk2),
          fun he => hkv (he ▸ hk2)⟩
      have hnd2 : (v.map Prod.fst).Nodup := by
        simp only [List.map_cons, List.nodup_cons] at hnd
        exact hnd.2
      have hbytes2 : ∀ kv ∈ v, (∀ c ∈ kv.1.data, c.toNat < 256) ∧
          ∀ val ∈ kv.2, ∀ c ∈ val.data, c.toNat < 256 :=
        fun kv2 hkv2 => hbytes kv2 (List.mem_cons_of_mem _ hkv2)
      have hne2 : ∀ kv2 ∈ v, kv2.2 ≠ [] :=
        fun kv2 hkv2 => hne kv2 (List.mem_cons_of_mem _ hkv2)
      rw [ih (acc ++ [(k, [v0] ++ vs')]) hkeys2 hnd2 hbytes2 hne2]
      simp

/-- `unhex` always yields a nibble. -/
theorem unhex_lt (c : Char) : unhex c < 16 := by
  unfold unhex
  split_ifs with h1 h2 h3
  · obtain ⟨g1, g2⟩ := Bool.and_eq_true_iff.mp h1
    simp only [decide_eq_true_eq] at g1 g2
    have e1 : Char.toNat '0' ≤ c.toNat := g1
    have e2 : c.toNat ≤ Char.toNat '9' := g2
    have q1 : Char.toNat '0' = 48 := rfl
    have q2 : Char.toNat '9' = 57 := rfl
    omega
  · obtain ⟨g1, g2⟩ := Bool.and_eq_true_iff.mp h2
    simp only [decide_eq_true_eq] at g1 g2
    have e1 : Char.toNat 'a' ≤ c.toNat := g1
    have e2 : c.toNat ≤ Char.toNat 'f' := g2
    have q1 : Char.toNat 'a' = 97 := rfl
    have q2 : Char.toNat 'f' = 102 := rfl
    omega
  · obtain ⟨g1, g2⟩ := Bool.and_eq_true_iff.mp h3
    simp only [decide_eq_true_eq] at g1 g2
    have e1 : Char.toNat 'A' ≤ c.toNat := g1
    have e2 : c.toNat ≤ Char.toNat 'F' := g2
    have q1 : Char.toNat 'A' = 65 := rfl
    have q2 : Char.toNat 'F' = 70 := rfl
    omega
  · omega

/-- `Char.ofNat` of a byte value reads back as that value. -/
theorem toNat_ofNat_byte (n : Nat) (h : n < 256) :
    (Char.ofNat n).toNat = n := by
  unfold Char.ofNat
  rw [dif_pos (by simpa [Nat.isValidChar] using Or.inl (by omega : n < 55296))]
  rfl

/-- Decoding a byte string yields a byte string. -/
theorem unescape_bytes (ps : Bool) (l : List Char) :
    (∀ c ∈ l, c.toNat < 256) →
    ∀ out, unescapeList ps l = some out → ∀ c ∈ out, c.toNat < 256 := by
  induction l using unescapeList.induct with
  | plusToSpace => exact ps
  | case1 =>
      intro _ out hout c hc
      rw [unescapeList_nil] at hout
      cases hout
      cases hc
  | case2 a b rest2 hhex ih =>
      intro hb out hout c hc
      obtain ⟨ha, hbx⟩ := Bool.and_eq_true_iff.mp hhex
      rw [unescapeList_pct ps a b rest2 ha hbx] at hout
      cases hr : unescapeList ps rest2 with
      | none =>
          rw [hr] at hout
          cases hout
      | some d =>
          rw [hr] at hout
          cases hout
          rcases List.mem_cons.mp hc with rfl | hcd
          · have hlt : unhex a * 16 + unhex b < 256 := by
              have l1 := unhex_lt a
              have l2 := unhex_lt b
              omega
            rw [toNat_ofNat_byte _ hlt]
            exact hlt
          · exact ih (fun c2 hc2 => hb c2 (by simp [hc2])) d hr c hcd
  | case3 a b rest2 hhex =>
      intro _ out hout _ _
      have hk : unescapeList ps ('%' :: a :: b :: rest2) = none := by
        rw [unescapeList.eq_def]
        simp only []
        rw [if_pos trivial, if_neg hhex]
      rw [hk] at hout
      cases hout
  | case4 rest hshape =>
      intro _ out hout _ _
      rcases rest with _ | ⟨a, rest1⟩
      · rw [show unescapeList ps ['%'] = none from rfl] at hout
        cases hout
      · rcases rest1 with _ | ⟨b, rest2⟩
        · rw [show unescapeList ps ['%', a] = none from rfl] at hout
          cases hout
        · exact (hshape a b rest2 rfl).elim
  | case5 rest hne ih =>
      intro hb out hout c hc
      rw [unescapeList_plus ps rest] at hout
      cases hr : unescapeList ps rest with
      | none =>
          rw [hr] at hout
          cases hout
      | some d =>
          rw [hr] at hout
          cases hout
          rcases List.mem_cons.mp hc with rfl | hcd
          · cases ps <;> decide
          · exact ih (fun c2 hc2 => hb c2 (by simp [hc2])) d hr c hcd
  | case6 c0 rest h1 h2 ih =>
      intro hb out hout c hc
      rw [unescapeList_other ps c0 rest h1 h2] at hout
      cases hr : unescapeList ps rest with
      | none =>
          rw [hr] at hout
          cases hout
      | some d =>
          rw [hr] at hout
          cases hout
          rcases List.mem_cons.mp hc with rfl | hcd
          · exact hb c (by simp)
          · exact ih (fun c2 hc2 => hb c2 (by simp [hc2])) d hr c hcd

/-- A nonempty map with nonempty value lists emits at least one
segment. -/
theorem segsOf_ne_nil (v : Values) (hv : v ≠ [])
    (hne : ∀ kv ∈ v, kv.2 ≠ []) : segsOf v ≠ [] := by
  rcases v with _ | ⟨⟨k, vs⟩, rest⟩
  · exact absurd rfl hv
  · rcases vs with _ | ⟨v0, vs'⟩
    · exact absurd rfl (hne (k, []) (List.mem_cons_self _ _))
    · simp [segsOf]

/-- No `&` occurs inside an emitted segment. -/
theorem segsOf_no_amp (v : Values) :
    ∀ s ∈ segsOf v, ∀ c ∈ s, c ≠ '&' := by
  intro s hs c hc
  unfold segsOf at hs
  rw [List.mem_flatMap] at hs
  obtain ⟨kv, _, hs⟩ := hs
  rw [List.mem_map] at hs
  obtain ⟨val, _, rfl⟩ := hs
  rcases seg_chars kv.1 val c hc with h | rfl
  · exact ne_of_class h (by decide)
  · exact (by decide : ('=' : Char) ≠ '&')

/-- `ParseQuery` inverts `Values.Encode` up to the sorted key order. -/
theorem parseQuery_valuesEncode (v : Values)
    (hnd : (v.map Prod.fst).Nodup)
    (hbytes : ∀ kv ∈ v, (∀ c ∈ kv.1.data, c.toNat < 256) ∧
      ∀ val ∈ kv.2, ∀ c ∈ val.data, c.toNat < 256)
    (hne : ∀ kv ∈ v, kv.2 ≠ []) :
    parseQuery (valuesEncode v) = sortValues v := by
  have hperm : List.Perm (sortValues v) v := List.perm_insertionSort _ v
  have hnd2 : ((sortValues v).map Prod.fst).Nodup :=
    ((hperm.map Prod.fst).nodup_iff).mpr hnd
  have hbytes2 : ∀ kv ∈ sortValues v, (∀ c ∈ kv.1.data, c.toNat < 256) ∧
      ∀ val ∈ kv.2, ∀ c ∈ val.data, c.toNat < 256 :=
    fun kv hkv => hbytes kv (hperm.mem_iff.mp hkv)
  have hne2 : ∀ kv ∈ sortValues v, kv.2 ≠ [] :=
    fun kv hkv => hne kv (hperm.mem_iff.mp hkv)
  by_cases hv : v = []
  · subst hv
    rfl
  · have hsv : sortValues v ≠ [] := by
      intro h
      exact hv (List.Perm.eq_nil (h ▸ hperm).symm)
    have hsne : segsOf (sortValues v) ≠ [] := segsOf_ne_nil _ hsv hne2
    unfold parseQuery valuesEncode
    rw [show String.data (String.mk (joinAmp (segsOf (sortValues v)))) =
      joinAmp (segsOf (sortValues v)) from rfl]
    rw [splitOnChar_joinAmp _ hsne (segsOf_no_amp _)]
    rw [parseQuerySegs_segsOf (sortValues v) [] (by simp) hnd2 hbytes2
      hne2]
    simp

/-- Keys after a `Values.Add`. -/
theorem valuesAdd_keys (v : Values) (k val : String) :
    (valuesAdd v k val).map Prod.fst =
      if k ∈ v.map Prod.fst then v.map Prod.fst
      else v.map Prod.fst ++ [k] := by
  induction v with
  | nil => simp [valuesAdd]
  | cons e rest ih =>
      obtain ⟨k2, vs2⟩ := e
      by_cases he : k2 = k
      · subst he
        rw [valuesAdd, if_pos rfl]
        simp
      · rw [valuesAdd, if_neg he]
        by_cases hm : k ∈ rest.map Prod.fst
        · have h1 : k ∈ ((k2, vs2) :: rest).map Prod.fst := by simp [hm]
          rw [if_pos h1]
          simp only [List.map_cons]
          rw [ih, if_pos hm]
        · have h1 : k ∉ ((k2, vs2) :: rest).map Prod.fst := by
            simp only [List.map_cons, List.mem_cons, not_or]
            exact ⟨fun h => he h.symm, hm⟩
          rw [if_neg h1]
          simp only [List.map_cons]
          rw [ih, if_neg hm]
          simp

/-- `Values.Add` keeps the keys distinct. -/
theorem valuesAdd_nodup (v : Values) (k val : String)
    (h : (v.map Prod.fst).Nodup) :
    ((valuesAdd v k val).map Prod.fst).Nodup := by
  rw [valuesAdd_keys]
  split_ifs with hm
  · exact h
  · simp [List.nodup_append, h, hm]

/-- Entry predicates survive a `Values.Add`. -/
theorem valuesAdd_pred (P : String × List String → Prop) (v : Values)
    (k val : String) (hv : ∀ kv ∈ v, P kv)
    (hnew : P (k, [val]))
    (happ : ∀ vs, P (k, vs) → P (k, vs ++ [val])) :
    ∀ kv ∈ valuesAdd v k val, P kv := by
  induction v with
  | nil =>
      intro kv hkv
      rw [valuesAdd] at hkv
      rcases List.mem_singleton.mp hkv with rfl
      exact hnew
  | cons e rest ih =>
      obtain ⟨k2, vs2⟩ := e
      intro kv hkv
      rw [valuesAdd] at hkv
      by_cases he : k2 = k
      · rw [if_pos he] at hkv
        rcases List.mem_cons.mp hkv with rfl | hkv
        · subst he
          exact happ vs2 (hv (k2, vs2) (List.mem_cons_self _ _))
        · exact hv kv (List.mem_cons_of_mem _ hkv)
      · rw [if_neg he] at hkv
        rcases List.mem_cons.mp hkv with rfl | hkv
        · exact hv _ (List.mem_cons_self _ _)
        · exact ih (fun kv2 h2 => hv kv2 (List.mem_cons_of_mem _ h2)) kv hkv

/-- Every character of a split segment came from the split string. -/
theorem mem_splitOnChar (l : List Char) (sep : Char) :
    ∀ s ∈ splitOnChar l sep, ∀ c ∈ s, c ∈ l := by
  induction l with
  | nil =>
      intro s hs c hc
      rw [splitOnChar] at hs
      rcases List.mem_singleton.mp hs with rfl
      cases hc
  | cons c0 rest ih =>
      intro s hs c hc
      rw [splitOnChar] at hs
      rcases h : splitOnChar rest sep with _ | ⟨seg, segs⟩ <;>
        rw [h] at hs <;> simp only [] at hs
      · split_ifs at hs
        · rcases List.mem_cons.mp hs with rfl | hs
          · cases hc
          · rcases List.mem_singleton.mp hs with rfl
            cases hc
        · rcases List.mem_singleton.mp hs with rfl
          rcases List.mem_singleton.mp hc with rfl
          exact List.mem_cons_self _ _
      · split_ifs at hs with hcs
        · rcases List.mem_cons.mp hs with rfl | hs
          · cases hc
          · exact List.mem_cons_of_mem _
              (ih s (by rw [h]; exact hs) c hc)
        · rcases List.mem_cons.mp hs with rfl | hs
          · rcases List.mem_cons.mp hc with rfl | hc
            · exact List.mem_cons_self _ _
            · exact List.mem_cons_of_mem _
                (ih seg (by rw [h]; exact List.mem_cons_self _ _) c hc)
          · exact List.mem_cons_of_mem _
              (ih s (by rw [h]; exact List.mem_cons_of_mem _ hs) c hc)

/-- Invariant of the `ParseQuery` accumulation: keys stay distinct, keys
and values stay byte strings, value lists stay nonempty. -/
theorem parseQuerySegs_inv (segs : List (List Char)) :
    ∀ acc : Values,
    (∀ s ∈ segs, ∀ c ∈ s, c.toNat < 256) →
    (acc.map Prod.fst).Nodup →
    (∀ kv ∈ acc, (∀ c ∈ kv.1.data, c.toNat < 256) ∧
      (∀ val ∈ kv.2, ∀ c ∈ val.data, c.toNat < 256) ∧ kv.2 ≠ []) →
    ((parseQuerySegs segs acc).map Prod.fst).Nodup ∧
      ∀ kv ∈ parseQuerySegs segs acc,
        (∀ c ∈ kv.1.data, c.toNat < 256) ∧
        (∀ val ∈ kv.2, ∀ c ∈ val.data, c.toNat < 256) ∧ kv.2 ≠ [] := by
  induction segs with
  | nil =>
      intro acc _ h1 h2
      exact ⟨h1, h2⟩
  | cons seg segs ih =>
      intro acc hb h1 h2
      have hbseg : ∀ c ∈ seg, c.toNat < 256 :=
        fun c hc => hb seg (List.mem_cons_self _ _) c hc
      have hbsegs : ∀ s ∈ segs, ∀ c ∈ s, c.toNat < 256 :=
        fun s hs c hc => hb s (List.mem_cons_of_mem _ hs) c hc
      simp only [parseQuerySegs]
      split_ifs
      · exact ih acc hbsegs h1 h2
      · exact ih acc hbsegs h1 h2
      · cases hk : unescapeList true (seg.takeWhile (· != '=')) with
        | none => exact ih acc hbsegs h1 h2
        | some kd =>
            cases hv : unescapeList true
                ((seg.dropWhile (· != '=')).drop 1) with
            | none => exact ih acc hbsegs h1 h2
            | some vd =>
                have hkb : ∀ c ∈ kd, c.toNat < 256 :=
                  unescape_bytes true _
                    (fun c hc => hbseg c
                      (List.takeWhile_sublist _ |>.mem hc)) kd hk
                have hvb : ∀ c ∈ vd, c.toNat < 256 :=
                  unescape_bytes true _
                    (fun c hc => hbseg c
                      ((List.drop_sublist 1 _).trans
                        (List.dropWhile_sublist _) |>.mem hc)) vd hv
                apply ih _ hbsegs
                · exact valuesAdd_nodup acc _ _ h1
                · apply valuesAdd_pred _ acc _ _ h2
                  · refine ⟨hkb, ?_, by simp⟩
                    intro val hval c hc
                    rcases List.mem_singleton.mp hval with rfl
                    exact hvb c hc
                  · intro vs hvs
                    refine ⟨hvs.1, ?_, by simp⟩
                    intro val hval c hc
                    rcases List.mem_append.mp hval with h | h
                    · exact hvs.2.1 val h c hc
                    · rcases List.mem_singleton.mp h with rfl
                      exact hvb c hc

/-- `valuesDel` is the key filter. -/
theorem valuesDel_eq_filter (v : Values) (k : String) :
    valuesDel v k = v.filter fun kv => kv.1 ≠ k := by
  induction v with
  | nil => rfl
  | cons e rest ih =>
      obtain ⟨k2, vs2⟩ := e
      by_cases he : k2 = k
      · rw [valuesDel, if_pos he, ih,
          List.filter_cons_of_neg (by simp [he])]
      · rw [valuesDel, if_neg he, ih,
          List.filter_cons_of_pos (by simp [he])]

/-- Deleting keys only removes entries. -/
theorem foldl_valuesDel_sublist (ks : List String) : ∀ v : Values,
    List.Sublist (ks.foldl valuesDel v) v := by
  induction ks with
  | nil => intro v; simp
  | cons k ks ih =>
      intro v
      rw [List.foldl_cons]
      exact (ih (valuesDel v k)).trans
        (by rw [valuesDel_eq_filter]; exact List.filter_sublist v)

/-- A key is absent exactly when its lookup is `none`. -/
theorem valuesGet_eq_none (v : Values) (k : String) :
    valuesGet v k = none ↔ k ∉ v.map Prod.fst := by
  induction v with
  | nil => simp [valuesGet]
  | cons e rest ih =>
      obtain ⟨k2, vs2⟩ := e
      by_cases he : k2 = k
      · subst he
        rw [valuesGet, if_pos rfl]
        simp
      · rw [valuesGet, if_neg he]
        simp only [List.map_cons, List.mem_cons, not_or, ih]
        constructor
        · exact fun h => ⟨fun hh => he hh.symm, h⟩
        · exact fun h => h.2

/-- Deleting an absent key changes nothing. -/
theorem valuesDel_get_none (v : Values) (k : String)
    (h : valuesGet v k = none) : valuesDel v k = v := by
  induction v with
  | nil => rfl
  | cons e rest ih =>
      obtain ⟨k2, vs2⟩ := e
      rw [valuesGet] at h
      by_cases he : k2 = k
      · rw [if_pos he] at h
        cases h
      · rw [if_neg he] at h
        rw [valuesDel, if_neg he, ih h]

/-- Deleting keys that are all absent changes nothing. -/
theorem foldl_del_fix (ks : List String) (v : Values)
    (h : ∀ k ∈ ks, valuesGet v k = none) : ks.foldl valuesDel v = v := by
  induction ks with
  | nil => rfl
  | cons k ks ih =>
      rw [List.foldl_cons,
        valuesDel_get_none v k (h k (List.mem_cons_self _ _))]
      exact ih fun k2 hk2 => h k2 (List.mem_cons_of_mem _ hk2)

/-- Sorting the encoder key order is idempotent. -/
theorem sortValues_idem (v : Values) :
    sortValues (sortValues v) = sortValues v :=
  List.Sorted.insertionSort_eq (sortValues_sorted v)

/-- One path/fragment-escaped character decodes back (no `+`
translation outside query mode). -/
theorem unescape_escapeChar (p : Char → Bool) (hp : p '%' = false)
    (c : Char) (hc : c.toNat < 256) (rest : List Char) :
    unescapeList false
      ((if p c then [c] else ['%', hexUpper (c.toNat % 256 / 16),
        hexUpper (c.toNat % 16)]) ++ rest) =
      (unescapeList false rest).map (c :: ·) := by
  split_ifs with h1
  · have hnp : c ≠ '%' := ne_of_class h1 hp
    by_cases hplus : c = '+'
    · subst hplus
      simp only [List.singleton_append]
      rw [unescapeList_plus]
      rfl
    · simp only [List.singleton_append]
      rw [unescapeList_other _ _ _ hnp hplus]
  · have hhex1 : isHexDigit (hexUpper (c.toNat % 256 / 16)) = true :=
      isHexDigit_hexUpper _ (by omega)
    have hhex2 : isHexDigit (hexUpper (c.toNat % 16)) = true :=
      isHexDigit_hexUpper _ (by omega)
    have hval : unhex (hexUpper (c.toNat % 256 / 16)) * 16 +
        unhex (hexUpper (c.toNat % 16)) = c.toNat := by
      rw [unhex_hexUpper _ (by omega), unhex_hexUpper _ (by omega)]
      have hmod : c.toNat % 256 = c.toNat := Nat.mod_eq_of_lt hc
      omega
    show unescapeList false ('%' :: hexUpper (c.toNat % 256 / 16) ::
      hexUpper (c.toNat % 16) :: rest) = _
    rw [unescapeList_pct _ _ _ _ hhex1 hhex2, hval, Char.ofNat_toNat]

/-- A whole path/fragment escaping decodes back. -/
theorem unescape_escapeWith (p : Char → Bool) (hp : p '%' = false)
    (l rest : List Char) (hb : ∀ c ∈ l, c.toNat < 256) :
    unescapeList false
      ((l.map fun c => if p c then [c]
        else ['%', hexUpper (c.toNat % 256 / 16),
          hexUpper (c.toNat % 16)]).flatten ++ rest) =
      (unescapeList false rest).map (l ++ ·) := by
  induction l with
  | nil =>
      simp only [List.map_nil, List.flatten_nil, List.nil_append]
      cases unescapeList false rest <;> rfl
  | cons c tl ih =>
      simp only [List.map_cons, List.flatten_cons, List.append_assoc]
      rw [unescape_escapeChar p hp c (hb c (List.mem_cons_self c tl)),
        ih fun d hd => hb d (List.mem_cons_of_mem c hd)]
      cases unescapeList false rest <;> rfl

/-- `escape(s, encodePath)` decodes back to `s`. -/
theorem unescape_escapePathList (l : List Char)
    (hb : ∀ c ∈ l, c.toNat < 256) :
    unescapeList false (escapePathList l) = some l := by
  have h := unescape_escapeWith pathKeepChar (by decide) l [] hb
  simpa [escapePathList, unescapeList_nil] using h

/-- `escape(s, encodeFragment)` decodes back to `s`. -/
theorem unescape_escapeFragList (l : List Char)
    (hb : ∀ c ∈ l, c.toNat < 256) :
    unescapeList false (escapeFragList l) = some l := by
  have h := unescape_escapeWith fragKeepChar (by decide) l [] hb
  simpa [escapeFragList, unescapeList_nil] using h

/-- Characters kept by path escaping are valid in an escaped path. -/
theorem pathKeep_imp_valid (c : Char) (h : pathKeepChar c = true) :
    pathValidChar c = true := by
  simp only [pathKeepChar, Bool.or_eq_true] at h
  rcases h with h | h
  · simp [pathValidChar, h]
  · have hm : c ∈ ['-', '_', '.', '~', '$', '&', '+', ',', '/', ':',
        ';', '=', '@'] := List.elem_iff.mp h
    fin_cases hm <;> decide

/-- Characters kept by fragment escaping are valid in an escaped
fragment. -/
theorem fragKeep_imp_valid (c : Char) (h : fragKeepChar c = true) :
    fragValidChar c = true := by
  simp only [fragKeepChar, Bool.or_eq_true] at h
  rcases h with h | h
  · simp [fragValidChar, h]
  · have hm : c ∈ ['-', '_', '.', '~', '$', '&', '+', ',', '/', ':',
        ';', '=', '?', '@', '!', '(', ')', '*'] := List.elem_iff.mp h
    fin_cases hm <;> decide

/-- Path escaping emits only valid escaped-path characters. -/
theorem escapePathList_class (l : List Char) :
    ∀ c ∈ escapePathList l, pathValidChar c = true := by
  intro c hc
  unfold escapePathList at hc
  rw [List.mem_flatten] at hc
  obtain ⟨seg, hseg, hc⟩ := hc
  rw [List.mem_map] at hseg
  obtain ⟨d, _, rfl⟩ := hseg
  split_ifs at hc with h1
  · rcases List.mem_singleton.mp hc with rfl
    exact pathKeep_imp_valid _ h1
  · simp only [List.mem_cons, List.not_mem_nil, or_false] at hc
    rcases hc with rfl | rfl | rfl
    · decide
    · simp [pathValidChar, isAlnumGo_hexUpper]
    · simp [pathValidChar, isAlnumGo_hexUpper]

/-- Fragment escaping emits only valid escaped-fragment characters. -/
theorem escapeFragList_class (l : List Char) :
    ∀ c ∈ escapeFragList l, fragValidChar c = true := by
  intro c hc
  unfold escapeFragList at hc
  rw [List.mem_flatten] at hc
  obtain ⟨seg, hseg, hc⟩ := hc
  rw [List.mem_map] at hseg
  obtain ⟨d, _, rfl⟩ := hseg
  split_ifs at hc with h1
  · rcases List.mem_singleton.mp hc with rfl
    exact fragKeep_imp_valid _ h1
  · simp only [List.mem_cons, List.not_mem_nil, or_false] at hc
    rcases hc with rfl | rfl | rfl
    · decide
    · simp [fragValidChar, isAlnumGo_hexUpper]
    · simp [fragValidChar, isAlnumGo_hexUpper]

/-- `EscapedPath` output stays in the escaped-path character class. -/
theorem emitPath_class (raw : List Char)
    (h : (unescapeList false raw).isSome) :
    ∀ c ∈ emitPath raw, pathValidChar c = true := by
  unfold emitPath
  cases hu : unescapeList false raw with
  | none => simp [hu] at h
  | some d =>
      simp only []
      split_ifs with hall
      · exact fun c hc => List.all_eq_true.mp hall c hc
      · exact escapePathList_class d

/-- `EscapedFragment` output stays in the escaped-fragment character
class. -/
theorem emitFrag_class (raw : List Char)
    (h : (unescapeList false raw).isSome) :
    ∀ c ∈ emitFrag raw, fragValidChar c = true := by
  unfold emitFrag
  cases hu : unescapeList false raw with
  | none => simp [hu] at h
  | some d =>
      simp only []
      split_ifs with hall
      · exact fun c hc => List.all_eq_true.mp hall c hc
      · exact escapeFragList_class d

/-- `EscapedPath` output still passes escape validation. -/
theorem emitPath_isSome (raw : List Char)
    (h : (unescapeList false raw).isSome)
    (hb : ∀ c ∈ raw, c.toNat < 256) :
    (unescapeList false (emitPath raw)).isSome := by
  unfold emitPath
  cases hu : unescapeList false raw with
  | none => simp [hu] at h
  | some d =>
      simp only []
      split_ifs with hall
      · rw [hu]
        rfl
      · rw [unescape_escapePathList d
          (unescape_bytes false raw hb d hu)]
        rfl

/-- `EscapedFragment` output still passes escape validation. -/
theorem emitFrag_isSome (raw : List Char)
    (h : (unescapeList false raw).isSome)
    (hb : ∀ c ∈ raw, c.toNat < 256) :
    (unescapeList false (emitFrag raw)).isSome := by
  unfold emitFrag
  cases hu : unescapeList false raw with
  | none => simp [hu] at h
  | some d =>
      simp only []
      split_ifs with hall
      · rw [hu]
        rfl
      · rw [unescape_escapeFragList d
          (unescape_bytes false raw hb d hu)]
        rfl

/-- `EscapedPath` is idempotent on validated byte paths. -/
theorem emitPath_idem (raw : List Char)
    (h : (unescapeList false raw).isSome)
    (hb : ∀ c ∈ raw, c.toNat < 256) :
    emitPath (emitPath raw) = emitPath raw := by
  cases hu : unescapeList false raw with
  | none => simp [hu] at h
  | some d =>
      have hdb : ∀ c ∈ d, c.toNat < 256 :=
        unescape_bytes false raw hb d hu
      by_cases hall : raw.all pathValidChar
      · have he : emitPath raw = raw := by
          unfold emitPath
          rw [hu]
          simp only []
          rw [if_pos hall]
        rw [he, he]
      · have he : emitPath raw = escapePathList d := by
          unfold emitPath
          rw [hu]
          simp only []
          rw [if_neg hall]
        rw [he]
        unfold emitPath
        rw [unescape_escapePathList d hdb]
        simp only []
        rw [if_pos (List.all_eq_true.mpr (escapePathList_class d))]

/-- `EscapedFragment` is idempotent on validated byte fragments. -/
theorem emitFrag_idem (raw : List Char)
    (h : (unescapeList false raw).isSome)
    (hb : ∀ c ∈ raw, c.toNat < 256) :
    emitFrag (emitFrag raw) = emitFrag raw := by
  cases hu : unescapeList false raw with
  | none => simp [hu] at h
  | some d =>
      have hdb : ∀ c ∈ d, c.toNat < 256 :=
        unescape_bytes false raw hb d hu
      by_cases hall : raw.all fragValidChar
      · have he : emitFrag raw = raw := by
          unfold emitFrag
          rw [hu]
          simp only []
          rw [if_pos hall]
        rw [he, he]
      · have he : emitFrag raw = escapeFragList d := by
          unfold emitFrag
          rw [hu]
          simp only []
          rw [if_neg hall]
        rw [he]
        unfold emitFrag
        rw [unescape_escapeFragList d hdb]
        simp only []
        rw [if_pos (List.all_eq_true.mpr (escapeFragList_class d))]

/-- A validated path starting with `/` re-emits starting with `/`. -/
theorem emitPath_head (t : List Char)
    (h : (unescapeList false ('/' :: t)).isSome) :
    ∃ t2, emitPath ('/' :: t) = '/' :: t2 := by
  rw [unescapeList_other false '/' t (by decide) (by decide)] at h
  cases ht : unescapeList false t with
  | none =>
      rw [ht] at h
      cases h
  | some dt =>
      unfold emitPath
      rw [unescapeList_other false '/' t (by decide) (by decide), ht,
        Option.map_some']
      simp only []
      split_ifs with hall
      · exact ⟨t, rfl⟩
      · exact ⟨escapePathList dt, rfl⟩

/-- Re-parsing the authority/path/query part `URL.String` emits recovers
the URL fields (the force-query flag survives only when the query is
empty, which is exactly when `String()` printed the lone `?`). -/
theorem parseHTTP_reconstruct (scheme : String) (u' : GoURL)
    (hH : ∀ c ∈ u'.host.data, hostValidChar c = true)
    (hPsome : (unescapeList false u'.path.data).isSome)
    (hPb : ∀ c ∈ u'.path.data, c.toNat < 256)
    (hPhead : u'.path.data = [] ∨ ∃ t, u'.path.data = '/' :: t)
    (hQ : ∀ c ∈ u'.rawQuery.data, qoutChar c = true ∨ c = '=' ∨ c = '&')
    (frag : List Char) :
    parseHTTP scheme
      (u'.host.data ++ emitPath u'.path.data ++
        (if u'.forceQuery || u'.rawQuery ≠ "" then '?' :: u'.rawQuery.data
         else [])) frag =
      some { scheme := scheme, host := u'.host,
             path := ⟨emitPath u'.path.data⟩,
             forceQuery := u'.forceQuery && decide (u'.rawQuery = ""),
             rawQuery := u'.rawQuery, fragment := ⟨frag⟩ } := by
  have hPclass := emitPath_class u'.path.data hPsome
  have hHnq : ∀ c ∈ u'.host.data, (c != '?') = true := fun c hc =>
    bne_iff_ne.mpr (ne_of_class (hH c hc) (by decide))
  have hHns : ∀ c ∈ u'.host.data, (c != '/') = true := fun c hc =>
    bne_iff_ne.mpr (ne_of_class (hH c hc) (by decide))
  have hPnq : ∀ c ∈ emitPath u'.path.data, (c != '?') = true :=
    fun c hc => bne_iff_ne.mpr (ne_of_class (hPclass c hc) (by decide))
  have hQnq : ∀ c ∈ u'.rawQuery.data, (c != '?') = true := by
    intro c hc
    rcases hQ c hc with h | h | h
    · exact bne_iff_ne.mpr (ne_of_class h (by decide))
    · subst h
      decide
    · subst h
      decide
  have hPshape : emitPath u'.path.data = [] ∨
      ∃ t2, emitPath u'.path.data = '/' :: t2 := by
    rcases hPhead with h | ⟨t, h⟩
    · exact Or.inl (by rw [h]; rfl)
    · rw [h] at hPsome ⊢
      exact Or.inr (emitPath_head t hPsome)
  have hHPnq : ∀ c ∈ u'.host.data ++ emitPath u'.path.data,
      (c != '?') = true :=
    fun c hc => (List.mem_append.mp hc).elim (hHnq c) (hPnq c)
  have hauth : (u'.host.data ++ emitPath u'.path.data).takeWhile
      (· != '/') = u'.host.data := by
    rw [List.takeWhile_append_of_pos hHns]
    rcases hPshape with h | ⟨t2, h⟩
    · rw [h]
      simp
    · rw [h, List.takeWhile_cons_of_neg (by decide)]
      simp
  have hpath2 : (u'.host.data ++ emitPath u'.path.data).dropWhile
      (· != '/') = emitPath u'.path.data := by
    rw [List.dropWhile_append_of_pos hHns]
    rcases hPshape with h | ⟨t2, h⟩
    · rw [h]
      rfl
    · rw [h, List.dropWhile_cons_of_neg (by decide)]
  have hallH : u'.host.data.all hostValidChar = true :=
    List.all_eq_true.mpr hH
  obtain ⟨d2, hu2⟩ := Option.isSome_iff_exists.mp
    (emitPath_isSome _ hPsome hPb)
  by_cases hrq : u'.rawQuery = ""
  · have hqd : u'.rawQuery.data = [] := by
      rw [hrq]
    cases hfq : u'.forceQuery with
    | true =>
        rw [show (if (true || decide (u'.rawQuery ≠ "")) = true then
            '?' :: u'.rawQuery.data else []) = ['?'] from by
          simp [hqd]]
        simp only [parseHTTP]
        have hforce : u'.host.data ++ emitPath u'.path.data ++ ['?'] ≠ []
            ∧ (u'.host.data ++ emitPath u'.path.data ++
                ['?']).getLast? = some '?' ∧
              ((u'.host.data ++ emitPath u'.path.data ++
                ['?']).dropLast).all (· != '?') = true := by
          refine ⟨by simp, List.getLast?_concat _, ?_⟩
          rw [List.dropLast_concat]
          exact List.all_eq_true.mpr hHPnq
        have hforce2 : u'.host.data ++ emitPath u'.path.data ++ ['?'] ≠
            [] ∧ (u'.host.data ++ emitPath u'.path.data ++
                ['?']).getLast? = some '?' ∧
              ((u'.host.data ++ emitPath u'.path.data).all (· != '?')) =
                true :=
          ⟨hforce.1, hforce.2.1, List.all_eq_true.mpr hHPnq⟩
        rw [if_pos hforce, if_pos hforce, List.dropLast_concat, hauth,
          hpath2, if_pos hallH, hu2]
        simp only []
        rw [decide_eq_true hforce2, hrq]
        rfl
    | false =>
        rw [show (if (false || decide (u'.rawQuery ≠ "")) = true then
            '?' :: u'.rawQuery.data else []) = [] from by
          simp [hrq]]
        rw [List.append_nil]
        simp only [parseHTTP]
        have hnforce : ¬ (u'.host.data ++ emitPath u'.path.data ≠ []
            ∧ (u'.host.data ++ emitPath u'.path.data).getLast? =
                some '?' ∧
              ((u'.host.data ++ emitPath
                u'.path.data).dropLast).all (· != '?') = true) := by
          rintro ⟨-, hl, -⟩
          have hm := hHPnq '?' (List.mem_of_mem_getLast? hl)
          exact absurd hm (by decide)
        have hbq : (u'.host.data ++ emitPath u'.path.data).takeWhile
            (· != '?') = u'.host.data ++ emitPath u'.path.data :=
          twSelf hHPnq
        have hrw : ((u'.host.data ++ emitPath u'.path.data).dropWhile
            (· != '?')).drop 1 = ([] : List Char) := by
          rw [dwNil hHPnq]
          rfl
        rw [if_neg hnforce, if_neg hnforce, hbq, hrw, hauth, hpath2,
          if_pos hallH, hu2]
        simp only []
        rw [decide_eq_false hnforce, hrq]
        rfl
  · have hqne : u'.rawQuery.data ≠ [] := fun h =>
      hrq (String.ext (h.trans rfl))
    rw [show (if u'.forceQuery || u'.rawQuery ≠ "" then
        '?' :: u'.rawQuery.data else []) = '?' :: u'.rawQuery.data from by
      simp [hrq]]
    simp only [parseHTTP]
    obtain ⟨cl, hcl⟩ : ∃ cl, u'.rawQuery.data.getLast? = some cl := by
      cases hgl : u'.rawQuery.data.getLast? with
      | none => exact absurd (List.getLast?_eq_none_iff.mp hgl) hqne
      | some cl => exact ⟨cl, rfl⟩
    have hclq : (cl != '?') = true :=
      hQnq cl (List.mem_of_mem_getLast? hcl)
    have hnforce : ¬ (u'.host.data ++ emitPath u'.path.data ++
          '?' :: u'.rawQuery.data ≠ []
        ∧ (u'.host.data ++ emitPath u'.path.data ++
            '?' :: u'.rawQuery.data).getLast? = some '?' ∧
          ((u'.host.data ++ emitPath u'.path.data ++
            '?' :: u'.rawQuery.data).dropLast).all (· != '?') =
            true) := by
      rintro ⟨-, hl, -⟩
      have h1 : ('?' :: u'.rawQuery.data).getLast? = some cl := by
        rw [show ('?' :: u'.rawQuery.data) =
          ['?'] ++ u'.rawQuery.data from rfl, List.getLast?_append, hcl]
        rfl
      rw [List.getLast?_append, h1] at hl
      have h2 : some cl = some '?' := hl
      cases h2
      exact absurd hclq (by decide)
    have hbq : ((u'.host.data ++ emitPath u'.path.data) ++
        '?' :: u'.rawQuery.data).takeWhile (· != '?') =
        u'.host.data ++ emitPath u'.path.data := by
      rw [List.takeWhile_append_of_pos hHPnq,
        List.takeWhile_cons_of_neg (by decide), List.append_nil]
    have hrw : (((u'.host.data ++ emitPath u'.path.data) ++
        '?' :: u'.rawQuery.data).dropWhile (· != '?')).drop 1 =
        u'.rawQuery.data := by
      rw [List.dropWhile_append_of_pos hHPnq,
        List.dropWhile_cons_of_neg (by decide)]
      simp
    rw [if_neg hnforce, if_neg hnforce, hbq, hrw, hauth, hpath2,
      if_pos hallH, hu2]
    simp only []
    rw [decide_eq_false hnforce, decide_eq_false hrq, Bool.and_false]

/-- Re-parsing `URL.String` output of a parsed http/https URL succeeds
and recovers the fields (with path and fragment in emitted form). -/
theorem parseURL_urlString (u' : GoURL)
    (hs : u'.scheme = "http" ∨ u'.scheme = "https")
    (hH : ∀ c ∈ u'.host.data, hostValidChar c = true)
    (hPsome : (unescapeList false u'.path.data).isSome)
    (hPb : ∀ c ∈ u'.path.data, c.toNat < 256)
    (hPhead : u'.path.data = [] ∨ ∃ t, u'.path.data = '/' :: t)
    (hQ : ∀ c ∈ u'.rawQuery.data, qoutChar c = true ∨ c = '=' ∨ c = '&')
    (hFsome : (unescapeList false u'.fragment.data).isSome)
    (hFb : ∀ c ∈ u'.fragment.data, c.toNat < 256) :
    parseURL (urlString u') =
      some { scheme := u'.scheme, host := u'.host,
             path := ⟨emitPath u'.path.data⟩,
             forceQuery := u'.forceQuery && decide (u'.rawQuery = ""),
             rawQuery := u'.rawQuery,
             fragment := ⟨emitFrag u'.fragment.data⟩ } := by
  obtain ⟨df, hdf⟩ : ∃ df,
      unescapeList false (emitFrag u'.fragment.data) = some df :=
    Option.isSome_iff_exists.mp (emitFrag_isSome _ hFsome hFb)
  have hPcl := emitPath_class u'.path.data hPsome
  have hSchars : ∀ c ∈ u'.scheme.data, (c != '#') = true := by
    rcases hs with h | h <;> rw [h] <;> decide
  simp only [parseURL, urlString]
  set qp : List Char := (if (u'.forceQuery ||
      decide (u'.rawQuery ≠ "")) = true then '?' :: u'.rawQuery.data
    else []) with hqp
  have hQc : ∀ c ∈ qp, (c != '#') = true := by
    intro c hc
    rw [hqp] at hc
    split_ifs at hc
    · rcases List.mem_cons.mp hc with rfl | hc
      · decide
      · rcases hQ c hc with h | h | h
        · exact bne_iff_ne.mpr (ne_of_class h (by decide))
        · subst h
          decide
        · subst h
          decide
    · cases hc
  have hpre : ∀ c ∈ u'.scheme.data ++ [':', '/', '/'] ++ u'.host.data ++
      emitPath u'.path.data ++ qp, (c != '#') = true := by
    intro c hc
    rcases List.mem_append.mp hc with hc | hc
    · rcases List.mem_append.mp hc with hc | hc
      · rcases List.mem_append.mp hc with hc | hc
        · rcases List.mem_append.mp hc with hc | hc
          · exact hSchars c hc
          · fin_cases hc <;> decide
        · exact bne_iff_ne.mpr (ne_of_class (hH c hc) (by decide))
      · exact bne_iff_ne.mpr (ne_of_class (hPcl c hc) (by decide))
    · exact hQc c hc
  by_cases hfe : u'.fragment = ""
  · rw [if_neg (fun h => h hfe), List.append_nil]
    have htw : (u'.scheme.data ++ [':', '/', '/'] ++ u'.host.data ++
        emitPath u'.path.data ++ qp).takeWhile (· != '#') =
        u'.scheme.data ++ [':', '/', '/'] ++ u'.host.data ++
        emitPath u'.path.data ++ qp := twSelf hpre
    have hdw : ((u'.scheme.data ++ [':', '/', '/'] ++ u'.host.data ++
        emitPath u'.path.data ++ qp).dropWhile (· != '#')).drop 1 =
        ([] : List Char) := by
      rw [dwNil hpre]
      rfl
    rw [htw, hdw, unescapeList_nil]
    simp only []
    rcases hs with hsch | hsch
    · rw [hsch]
      have hshape : "http".data ++ [':', '/', '/'] ++ u'.host.data ++
          emitPath u'.path.data ++ qp =
          'h' :: 't' :: 't' :: 'p' :: ':' :: '/' :: '/' ::
            (u'.host.data ++ (emitPath u'.path.data ++ qp)) := by
        simp
      rw [hshape]
      have hml : (('h' :: 't' :: 't' :: 'p' :: ':' :: '/' :: '/' ::
          (u'.host.data ++ (emitPath u'.path.data ++ qp))).map
            lowerChar) =
          'h' :: 't' :: 't' :: 'p' :: ':' :: '/' :: '/' ::
            ((u'.host.data ++ (emitPath u'.path.data ++ qp)).map
              lowerChar) := by
        simp only [List.map_cons, show lowerChar 'h' = 'h' from by decide,
          show lowerChar 't' = 't' from by decide,
          show lowerChar 'p' = 'p' from by decide,
          show lowerChar ':' = ':' from by decide,
          show lowerChar '/' = '/' from by decide]
      rw [hml]
      have hpre7 : (['h', 't', 't', 'p', ':', '/', '/'].isPrefixOf
          ('h' :: 't' :: 't' :: 'p' :: ':' :: '/' :: '/' ::
            ((u'.host.data ++ (emitPath u'.path.data ++ qp)).map
              lowerChar))) = true := by
        simp [List.isPrefixOf]
      rw [if_pos hpre7]
      have hdrop : ('h' :: 't' :: 't' :: 'p' :: ':' :: '/' :: '/' ::
          (u'.host.data ++ (emitPath u'.path.data ++ qp))).drop 7 =
          u'.host.data ++ (emitPath u'.path.data ++ qp) := rfl
      rw [hdrop, ← List.append_assoc, hqp, hfe]
      exact parseHTTP_reconstruct "http"
        { u' with scheme := "http", fragment := "" } hH hPsome hPb hPhead
        hQ []
    · rw [hsch]
      have hshape : "https".data ++ [':', '/', '/'] ++ u'.host.data ++
          emitPath u'.path.data ++ qp =
          'h' :: 't' :: 't' :: 'p' :: 's' :: ':' :: '/' :: '/' ::
            (u'.host.data ++ (emitPath u'.path.data ++ qp)) := by
        simp
      rw [hshape]
      have hml : (('h' :: 't' :: 't' :: 'p' :: 's' :: ':' :: '/' :: '/' ::
          (u'.host.data ++ (emitPath u'.path.data ++ qp))).map
            lowerChar) =
          'h' :: 't' :: 't' :: 'p' :: 's' :: ':' :: '/' :: '/' ::
            ((u'.host.data ++ (emitPath u'.path.data ++ qp)).map
              lowerChar) := by
        simp only [List.map_cons, show lowerChar 'h' = 'h' from by decide,
          show lowerChar 't' = 't' from by decide,
          show lowerChar 'p' = 'p' from by decide,
          show lowerChar 's' = 's' from by decide,
          show lowerChar ':' = ':' from by decide,
          show lowerChar '/' = '/' from by decide]
      rw [hml]
      have hneg1 : ¬ ((['h', 't', 't', 'p', ':', '/', '/'].isPrefixOf
          ('h' :: 't' :: 't' :: 'p' :: 's' :: ':' :: '/' :: '/' ::
            ((u'.host.data ++ (emitPath u'.path.data ++ qp)).map
              lowerChar))) = true) := by
        simp [List.isPrefixOf]
      rw [if_neg hneg1]
      have hpre8 : (['h', 't', 't', 'p', 's', ':', '/', '/'].isPrefixOf
          ('h' :: 't' :: 't' :: 'p' :: 's' :: ':' :: '/' :: '/' ::
            ((u'.host.data ++ (emitPath u'.path.data ++ qp)).map
              lowerChar))) = true := by
        simp [List.isPrefixOf]
      rw [if_pos hpre8]
      have hdrop : ('h' :: 't' :: 't' :: 'p' :: 's' :: ':' :: '/' :: '/' ::
          (u'.host.data ++ (emitPath u'.path.data ++ qp))).drop 8 =
          u'.host.data ++ (emitPath u'.path.data ++ qp) := rfl
      rw [hdrop, ← List.append_assoc, hqp, hfe]
      exact parseHTTP_reconstruct "https"
        { u' with scheme := "https", fragment := "" } hH hPsome hPb hPhead
        hQ []
  · rw [if_pos hfe]
    have hfne : ∀ c ∈ emitFrag u'.fragment.data ++ ([] : List Char),
        True := fun _ _ => trivial
    have htw : ((u'.scheme.data ++ [':', '/', '/'] ++ u'.host.data ++
        emitPath u'.path.data ++ qp) ++
          '#' :: emitFrag u'.fragment.data).takeWhile (· != '#') =
        u'.scheme.data ++ [':', '/', '/'] ++ u'.host.data ++
        emitPath u'.path.data ++ qp := by
      rw [List.takeWhile_append_of_pos hpre,
        List.takeWhile_cons_of_neg (by decide), List.append_nil]
    have hdw : (((u'.scheme.data ++ [':', '/', '/'] ++ u'.host.data ++
        emitPath u'.path.data ++ qp) ++
          '#' :: emitFrag u'.fragment.data).dropWhile
            (· != '#')).drop 1 = emitFrag u'.fragment.data := by
      rw [List.dropWhile_append_of_pos hpre,
        List.dropWhile_cons_of_neg (by decide)]
      simp
    rw [htw, hdw, hdf]
    simp only []
    rcases hs with hsch | hsch
    · rw [hsch]
      have hshape : "http".data ++ [':', '/', '/'] ++ u'.host.data ++
          emitPath u'.path.data ++ qp =
          'h' :: 't' :: 't' :: 'p' :: ':' :: '/' :: '/' ::
            (u'.host.data ++ (emitPath u'.path.data ++ qp)) := by
        simp
      rw [hshape]
      have hml : (('h' :: 't' :: 't' :: 'p' :: ':' :: '/' :: '/' ::
          (u'.host.data ++ (emitPath u'.path.data ++ qp))).map
            lowerChar) =
          'h' :: 't' :: 't' :: 'p' :: ':' :: '/' :: '/' ::
            ((u'.host.data ++ (emitPath u'.path.data ++ qp)).map
              lowerChar) := by
        simp only [List.map_cons, show lowerChar 'h' = 'h' from by decide,
          show lowerChar 't' = 't' from by decide,
          show lowerChar 'p' = 'p' from by decide,
          show lowerChar ':' = ':' from by decide,
          show lowerChar '/' = '/' from by decide]
      rw [hml]
      have hpre7 : (['h', 't', 't', 'p', ':', '/', '/'].isPrefixOf
          ('h' :: 't' :: 't' :: 'p' :: ':' :: '/' :: '/' ::
            ((u'.host.data ++ (emitPath u'.path.data ++ qp)).map
              lowerChar))) = true := by
        simp [List.isPrefixOf]
      rw [if_pos hpre7]
      have hdrop : ('h' :: 't' :: 't' :: 'p' :: ':' :: '/' :: '/' ::
          (u'.host.data ++ (emitPath u'.path.data ++ qp))).drop 7 =
          u'.host.data ++ (emitPath u'.path.data ++ qp) := rfl
      rw [hdrop, ← List.append_assoc, hqp]
      exact parseHTTP_reconstruct "http" { u' with scheme := "http" } hH
        hPsome hPb hPhead hQ (emitFrag u'.fragment.data)
    · rw [hsch]
      have hshape : "https".data ++ [':', '/', '/'] ++ u'.host.data ++
          emitPath u'.path.data ++ qp =
          'h' :: 't' :: 't' :: 'p' :: 's' :: ':' :: '/' :: '/' ::
            (u'.host.data ++ (emitPath u'.path.data ++ qp)) := by
        simp
      rw [hshape]
      have hml : (('h' :: 't' :: 't' :: 'p' :: 's' :: ':' :: '/' :: '/' ::
          (u'.host.data ++ (emitPath u'.path.data ++ qp))).map
            lowerChar) =
          'h' :: 't' :: 't' :: 'p' :: 's' :: ':' :: '/' :: '/' ::
            ((u'.host.data ++ (emitPath u'.path.data ++ qp)).map
              lowerChar) := by
        simp only [List.map_cons, show lowerChar 'h' = 'h' from by decide,
          show lowerChar 't' = 't' from by decide,
          show lowerChar 'p' = 'p' from by decide,
          show lowerChar 's' = 's' from by decide,
          show lowerChar ':' = ':' from by decide,
          show lowerChar '/' = '/' from by decide]
      rw [hml]
      have hneg1 : ¬ ((['h', 't', 't', 'p', ':', '/', '/'].isPrefixOf
          ('h' :: 't' :: 't' :: 'p' :: 's' :: ':' :: '/' :: '/' ::
            ((u'.host.data ++ (emitPath u'.path.data ++ qp)).map
              lowerChar))) = true) := by
        simp [List.isPrefixOf]
      rw [if_neg hneg1]
      have hpre8 : (['h', 't', 't', 'p', 's', ':', '/', '/'].isPrefixOf
          ('h' :: 't' :: 't' :: 'p' :: 's' :: ':' :: '/' :: '/' ::
            ((u'.host.data ++ (emitPath u'.path.data ++ qp)).map
              lowerChar))) = true := by
        simp [List.isPrefixOf]
      rw [if_pos hpre8]
      have hdrop : ('h' :: 't' :: 't' :: 'p' :: 's' :: ':' :: '/' :: '/' ::
          (u'.host.data ++ (emitPath u'.path.data ++ qp))).drop 8 =
          u'.host.data ++ (emitPath u'.path.data ++ qp) := rfl
      rw [hdrop, ← List.append_assoc, hqp]
      exact parseHTTP_reconstruct "https" { u' with scheme := "https" } hH
        hPsome hPb hPhead hQ (emitFrag u'.fragment.data)

/-- A character class that excludes whitespace yields no whitespace. -/
theorem class_no_space {p : Char → Bool}
    (hp : ∀ c, isGoSpace c = true → p c = false) :
    ∀ c, p c = true → isGoSpace c = false := by
  intro c hc
  cases hsp : isGoSpace c
  · rfl
  · rw [hp c hsp] at hc
    cases hc

/-- Whitespace fails every URL character class used by `String()`. -/
theorem goSpace_chars (c : Char) (h : isGoSpace c = true) :
    hostValidChar c = false ∧ pathValidChar c = false ∧
    fragValidChar c = false ∧ qoutChar c = false := by
  simp only [isGoSpace, Bool.or_eq_true, decide_eq_true_eq] at h
  rcases h with ((((h | h) | h) | h) | h) | h <;> subst h <;>
    exact (by decide)

/-- `strings.TrimSpace` fixes strings with no whitespace. -/
theorem trimSpace_eq_self (s : String)
    (h : ∀ c ∈ s.data, isGoSpace c = false) : trimSpace s = s := by
  have h1 : ∀ l : List Char, (∀ c ∈ l, isGoSpace c = false) →
      l.dropWhile isGoSpace = l := by
    intro l hl
    cases l with
    | nil => rfl
    | cons c t =>
        exact List.dropWhile_cons_of_neg
          (by rw [hl c (List.mem_cons_self _ _)]; exact Bool.false_ne_true)
  unfold trimSpace
  rw [h1 _ h, h1 _ fun c hc => h c (List.mem_reverse.mp hc),
    List.reverse_reverse]

/-- Characters of a `&`-join come from `&` or the segments. -/
theorem joinAmp_chars (segs : List (List Char)) :
    ∀ c ∈ joinAmp segs, c = '&' ∨ ∃ s ∈ segs, c ∈ s := by
  induction segs with
  | nil =>
      intro c hc
      cases hc
  | cons s rest ih =>
      cases rest with
      | nil =>
          intro c hc
          rw [joinAmp] at hc
          exact Or.inr ⟨s, List.mem_cons_self _ _, hc⟩
      | cons s2 rest2 =>
          intro c hc
          rw [joinAmp] at hc
          · rcases List.mem_append.mp hc with hc | hc
            · exact Or.inr ⟨s, List.mem_cons_self _ _, hc⟩
            · rcases List.mem_cons.mp hc with rfl | hc
              · exact Or.inl rfl
              · rcases ih c hc with h | ⟨s3, hs3, hcs⟩
                · exact Or.inl h
                · exact Or.inr ⟨s3, List.mem_cons_of_mem _ hs3, hcs⟩
          · exact fun hnil => List.noConfusion hnil

/-- Characters `Values.Encode` emits. -/
theorem valuesEncode_chars (v : Values) :
    ∀ c ∈ (valuesEncode v).data,
      qoutChar c = true ∨ c = '=' ∨ c = '&' := by
  intro c hc
  have hc2 : c ∈ joinAmp (segsOf (sortValues v)) := hc
  rcases joinAmp_chars _ c hc2 with h | ⟨s, hs, hcs⟩
  · exact Or.inr (Or.inr h)
  · unfold segsOf at hs
    rw [List.mem_flatMap] at hs
    obtain ⟨kv, _, hs⟩ := hs
    rw [List.mem_map] at hs
    obtain ⟨val, _, rfl⟩ := hs
    rcases seg_chars kv.1 val c hcs with h | h
    · exact Or.inl h
    · exact Or.inr (Or.inl h)

/-- Decoding to the empty string means the input was empty. -/
theorem unescape_nil_inv (ps : Bool) (l : List Char)
    (h : unescapeList ps l = some []) : l = [] := by
  cases l with
  | nil => rfl
  | cons c rest =>
      by_cases hc : c = '%'
      · subst hc
        rcases rest with _ | ⟨a, rest1⟩
        · rw [show unescapeList ps ['%'] = none from rfl] at h
          cases h
        · rcases rest1 with _ | ⟨b, rest2⟩
          · rw [show unescapeList ps ['%', a] = none from rfl] at h
            cases h
          · by_cases hhex : (isHexDigit a && isHexDigit b) = true
            · obtain ⟨h1, h2⟩ := Bool.and_eq_true_iff.mp hhex
              rw [unescapeList_pct ps a b rest2 h1 h2] at h
              cases hr : unescapeList ps rest2 with
              | none => rw [hr] at h; cases h
              | some d => rw [hr] at h; simp at h
            · have hn : unescapeList ps ('%' :: a :: b :: rest2) =
                  none := by
                rw [unescapeList.eq_def]
                simp only []
                rw [if_pos trivial, if_neg hhex]
              rw [hn] at h
              cases h
      · by_cases hp : c = '+'
        · subst hp
          rw [unescapeList_plus ps rest] at h
          cases hr : unescapeList ps rest with
          | none => rw [hr] at h; cases h
          | some d => rw [hr] at h; simp at h
        · rw [unescapeList_other ps c rest hc hp] at h
          cases hr : unescapeList ps rest with
          | none => rw [hr] at h; cases h
          | some d => rw [hr] at h; simp at h

/-- A nonempty validated fragment emits a nonempty escaped fragment. -/
theorem emitFrag_ne_nil (raw : List Char) (hne : raw ≠ [])
    (h : (unescapeList false raw).isSome) : emitFrag raw ≠ [] := by
  cases hu : unescapeList false raw with
  | none => simp [hu] at h
  | some d =>
      unfold emitFrag
      rw [hu]
      simp only []
      split_ifs with hall
      · exact hne
      · have hdne : d ≠ [] := fun hd =>
          hne (unescape_nil_inv false raw (hd ▸ hu))
        cases d with
        | nil => exact absurd rfl hdne
        | cons c t =>
            unfold escapeFragList
            simp only [List.map_cons, List.flatten_cons]
            split_ifs <;> simp

/-- A string that starts with `http://` passes the scheme check. -/
theorem hasStart_http (t : List Char) :
    hasStart (lowerStr ⟨'h' :: 't' :: 't' :: 'p' :: ':' :: '/' :: '/' ::
      t⟩) "http://" = true := by
  unfold hasStart lowerStr
  simp only [List.map_cons, show lowerChar 'h' = 'h' from by decide,
    show lowerChar 't' = 't' from by decide,
    show lowerChar 'p' = 'p' from by decide,
    show lowerChar ':' = ':' from by decide,
    show lowerChar '/' = '/' from by decide]
  simp [List.isPrefixOf]

/-- A string that starts with `https://` passes the scheme check. -/
theorem hasStart_https (t : List Char) :
    hasStart (lowerStr ⟨'h' :: 't' :: 't' :: 'p' :: 's' :: ':' :: '/' ::
      '/' :: t⟩) "https://" = true := by
  unfold hasStart lowerStr
  simp only [List.map_cons, show lowerChar 'h' = 'h' from by decide,
    show lowerChar 't' = 't' from by decide,
    show lowerChar 'p' = 'p' from by decide,
    show lowerChar 's' = 's' from by decide,
    show lowerChar ':' = ':' from by decide,
    show lowerChar '/' = '/' from by decide]
  simp [List.isPrefixOf]

/-- `NormalizeURL` fixes its own output: a URL in emitted form whose
host is nonempty, already lower-case and carries no `www.` prefix, and
whose query is the deterministic re-encoding of a tracking-free map, is
returned unchanged. -/
theorem normalize_urlString_fixpoint (u' : GoURL) (q : Values)
    (hs : u'.scheme = "http" ∨ u'.scheme = "https")
    (hHne : ¬ u'.host = "")
    (hH : ∀ c ∈ u'.host.data, hostValidChar c = true)
    (hHlow : lowerStr u'.host = u'.host)
    (hHw : hasStart u'.host "www." = false)
    (hPsome : (unescapeList false u'.path.data).isSome)
    (hPb : ∀ c ∈ u'.path.data, c.toNat < 256)
    (hPhead : u'.path.data = [] ∨ ∃ t, u'.path.data = '/' :: t)
    (hFsome : (unescapeList false u'.fragment.data).isSome)
    (hFb : ∀ c ∈ u'.fragment.data, c.toNat < 256)
    (hrqe : u'.rawQuery = valuesEncode q)
    (hqnd : (q.map Prod.fst).Nodup)
    (hqb : ∀ kv ∈ q, (∀ c ∈ kv.1.data, c.toNat < 256) ∧
      ∀ val ∈ kv.2, ∀ c ∈ val.data, c.toNat < 256)
    (hqne : ∀ kv ∈ q, kv.2 ≠ [])
    (htrack : ∀ t ∈ trackingParams, valuesGet q t = none) :
    NormalizeURL (urlString u') = .ok (urlString u') := by
  have hQc : ∀ c ∈ u'.rawQuery.data,
      qoutChar c = true ∨ c = '=' ∨ c = '&' := by
    rw [hrqe]
    exact valuesEncode_chars q
  have hu2 := parseURL_urlString u' hs hH hPsome hPb hPhead hQc hFsome hFb
  have hPcl := emitPath_class u'.path.data hPsome
  have hFcl := emitFrag_class u'.fragment.data hFsome
  have hnospace : ∀ c ∈ (urlString u').data, isGoSpace c = false := by
    intro c hc
    rcases List.mem_append.mp hc with hc | hc
    · rcases List.mem_append.mp hc with hc | hc
      · rcases List.mem_append.mp hc with hc | hc
        · rcases List.mem_append.mp hc with hc | hc
          · rcases List.mem_append.mp hc with hc | hc
            · rcases hs with h | h <;> rw [h] at hc
              · exact (by decide : ∀ d ∈ "http".data,
                  isGoSpace d = false) c hc
              · exact (by decide : ∀ d ∈ "https".data,
                  isGoSpace d = false) c hc
            · exact (by decide : ∀ d ∈ [':', '/', '/'],
                isGoSpace d = false) c hc
          · exact class_no_space (fun d hd => (goSpace_chars d hd).1) c
              (hH c hc)
        · exact class_no_space (fun d hd => (goSpace_chars d hd).2.1) c
            (hPcl c hc)
      · split_ifs at hc
        · rcases List.mem_cons.mp hc with rfl | hc
          · decide
          · rcases hQc c hc with h | h | h
            · exact class_no_space
                (fun d hd => (goSpace_chars d hd).2.2.2) c h
            · subst h
              decide
            · subst h
              decide
        · cases hc
    · split_ifs at hc
      · rcases List.mem_cons.mp hc with rfl | hc
        · decide
        · exact class_no_space (fun d hd => (goSpace_chars d hd).2.2.1) c
            (hFcl c hc)
      · cases hc
  have htrim : trimSpace (urlString u') = urlString u' :=
    trimSpace_eq_self _ hnospace
  have hyne : ¬ urlString u' = "" := by
    intro h
    rw [h] at hu2
    rw [show parseURL "" = none from by decide] at hu2
    cases hu2
  have hschemeOr : hasStart (lowerStr (urlString u')) "http://" = true ∨
      hasStart (lowerStr (urlString u')) "https://" = true := by
    rcases hs with hsch | hsch
    · left
      have hshape : urlString u' =
          ⟨'h' :: 't' :: 't' :: 'p' :: ':' :: '/' :: '/' ::
            (((u'.host.data ++ emitPath u'.path.data) ++
              (if (u'.forceQuery || decide (u'.rawQuery ≠ "")) = true
               then '?' :: u'.rawQuery.data else [])) ++
             (if u'.fragment ≠ "" then '#' :: emitFrag u'.fragment.data
              else []))⟩ := by
        unfold urlString
        rw [hsch]
        rfl
      rw [hshape]
      exact hasStart_http _
    · right
      have hshape : urlString u' =
          ⟨'h' :: 't' :: 't' :: 'p' :: 's' :: ':' :: '/' :: '/' ::
            (((u'.host.data ++ emitPath u'.path.data) ++
              (if (u'.forceQuery || decide (u'.rawQuery ≠ "")) = true
               then '?' :: u'.rawQuery.data else [])) ++
             (if u'.fragment ≠ "" then '#' :: emitFrag u'.fragment.data
              else []))⟩ := by
        unfold urlString
        rw [hsch]
        rfl
      rw [hshape]
      exact hasStart_https _
  have htrim2 : trimStart (lowerStr u'.host) "www." = u'.host := by
    rw [hHlow]
    unfold trimStart
    rw [hHw]
    simp
  have hq2 : parseQuery u'.rawQuery = sortValues q := by
    rw [hrqe]
    exact parseQuery_valuesEncode q hqnd hqb hqne
  have hq3 : trackingParams.foldl valuesDel (sortValues q) =
      sortValues q := by
    apply foldl_del_fix
    intro t ht
    rw [valuesGet_eq_none]
    intro hm
    unfold sortValues at hm
    have hm2 : t ∈ q.map Prod.fst :=
      (((List.perm_insertionSort
        (fun a b : String × List String => a.1 ≤ b.1) q).map
        Prod.fst).mem_iff).mp hm
    exact absurd hm2 ((valuesGet_eq_none q t).mp (htrack t ht))
  have hq4 : valuesEncode (sortValues q) = valuesEncode q := by
    unfold valuesEncode
    rw [sortValues_idem]
  have hfinal : urlString { scheme := u'.scheme, host := u'.host, path := ⟨emitPath u'.path.data⟩, forceQuery := u'.forceQuery && decide (u'.rawQuery = ""), rawQuery := u'.rawQuery, fragment := ⟨emitFrag u'.fragment.data⟩ } = urlString u' := by
    unfold urlString
    simp only []
    rw [emitPath_idem _ hPsome hPb]
    have hqeq : (if (u'.forceQuery && decide (u'.rawQuery = "") ||
        decide (u'.rawQuery ≠ "")) = true
        then '?' :: u'.rawQuery.data else []) =
        (if (u'.forceQuery || decide (u'.rawQuery ≠ "")) = true
         then '?' :: u'.rawQuery.data else []) := by
      by_cases hrq : u'.rawQuery = "" <;> simp [hrq]
    rw [hqeq]
    by_cases hfe : u'.fragment = ""
    · have h1 : (⟨emitFrag u'.fragment.data⟩ : String) = "" := by
        rw [hfe]
        rfl
      rw [if_neg (not_not_intro h1), if_neg (not_not_intro hfe)]
    · have hFne : u'.fragment.data ≠ [] := fun hd =>
        hfe (String.ext (hd.trans rfl))
      have hEne : emitFrag u'.fragment.data ≠ [] :=
        emitFrag_ne_nil _ hFne hFsome
      have hfcond : (⟨emitFrag u'.fragment.data⟩ : String) ≠ "" :=
        fun h => hEne (congrArg String.data h)
      rw [if_pos hfcond, if_pos hfe, emitFrag_idem _ hFsome hFb]
  simp only [NormalizeURL]
  rw [htrim, if_neg hyne, if_neg (not_not_intro hschemeOr)]
  try simp only []
  rw [hu2]
  try simp only []
  rw [if_neg hHne]
  try simp only []
  rw [htrim2, hq2, hq3, hq4, ← hrqe]
  rw [hfinal]

/-- ASCII lowercasing is idempotent. -/
theorem lowerChar_idem (c : Char) : lowerChar (lowerChar c) = lowerChar c := by
  unfold lowerChar
  split_ifs with h1 h2
  · exfalso
    obtain ⟨g1, g2⟩ := h1
    obtain ⟨g3, g4⟩ := h2
    have e1 : Char.toNat 'A' ≤ c.toNat := g1
    have e2 : c.toNat ≤ Char.toNat 'Z' := g2
    have q1 : Char.toNat 'A' = 65 := rfl
    have q2 : Char.toNat 'Z' = 90 := rfl
    have hv : (Char.ofNat (c.toNat + 32)).toNat = c.toNat + 32 :=
      toNat_ofNat_byte _ (by omega)
    have e4 : (Char.ofNat (c.toNat + 32)).toNat ≤ Char.toNat 'Z' := g4
    omega
  · rfl
  · rfl

/-- Lowercasing an already-lowercased list changes nothing. -/
theorem map_lowerChar_map (l : List Char) :
    (l.map lowerChar).map lowerChar = l.map lowerChar := by
  rw [List.map_map]
  exact List.map_congr_left fun c _ => lowerChar_idem c

/-- Lowercasing keeps host characters valid. -/
theorem hostValid_lowerChar (c : Char) (h : hostValidChar c = true) :
    hostValidChar (lowerChar c) = true := by
  unfold lowerChar
  split_ifs with h1
  · obtain ⟨g1, g2⟩ := h1
    have e1 : Char.toNat 'A' ≤ c.toNat := g1
    have e2 : c.toNat ≤ Char.toNat 'Z' := g2
    have q1 : Char.toNat 'A' = 65 := rfl
    have q2 : Char.toNat 'Z' = 90 := rfl
    have hv : (Char.ofNat (c.toNat + 32)).toNat = c.toNat + 32 :=
      toNat_ofNat_byte _ (by omega)
    have hle1 : Char.toNat 'a' ≤ (Char.ofNat (c.toNat + 32)).toNat := by
      rw [hv]
      have q3 : Char.toNat 'a' = 97 := rfl
      omega
    have hle2 : (Char.ofNat (c.toNat + 32)).toNat ≤ Char.toNat 'z' := by
      rw [hv]
      have q4 : Char.toNat 'z' = 122 := rfl
      omega
    have hb1 : 'a' ≤ Char.ofNat (c.toNat + 32) := hle1
    have hb2 : Char.ofNat (c.toNat + 32) ≤ 'z' := hle2
    unfold hostValidChar isAlnumGo
    rw [decide_eq_true hb1, decide_eq_true hb2]
    rfl
  · exact h

/-- `TrimSpace` only removes characters. -/
theorem mem_trimSpace (s : String) (c : Char)
    (h : c ∈ (trimSpace s).data) : c ∈ s.data := by
  unfold trimSpace at h
  rw [List.mem_reverse] at h
  have h2 := (List.dropWhile_sublist isGoSpace).mem h
  rw [List.mem_reverse] at h2
  exact (List.dropWhile_sublist isGoSpace).mem h2

/-- The path split off an authority is empty or starts with `/`. -/
theorem dropWhile_slash_shape (l : List Char) :
    l.dropWhile (· != '/') = [] ∨
      ∃ t, l.dropWhile (· != '/') = '/' :: t := by
  induction l with
  | nil => exact Or.inl rfl
  | cons c rest ih =>
      by_cases hc : (c != '/') = true
      · rw [List.dropWhile_cons_of_pos (p := fun x => x != '/') hc]
        exact ih
      · rw [List.dropWhile_cons_of_neg (p := fun x => x != '/') hc]
        have hcs : c = '/' := by
          simpa [bne_iff_ne] using hc
        exact Or.inr ⟨rest, by rw [hcs]⟩

/-- Shape of a successful `parseHTTP` result. -/
theorem parseHTTP_shape (scheme : String) (rest frag : List Char)
    (u : GoURL) (h : parseHTTP scheme rest frag = some u) :
    u.scheme = scheme ∧
    (∀ c ∈ u.host.data, hostValidChar c = true) ∧
    (unescapeList false u.path.data).isSome ∧
    (u.path.data = [] ∨ ∃ t, u.path.data = '/' :: t) ∧
    u.fragment.data = frag ∧
    (∀ c ∈ u.host.data, c ∈ rest) ∧
    (∀ c ∈ u.path.data, c ∈ rest) ∧
    (∀ c ∈ u.rawQuery.data, c ∈ rest) := by
  simp only [parseHTTP] at h
  by_cases hforce : rest ≠ [] ∧ rest.getLast? = some '?' ∧
      (rest.dropLast).all (· != '?') = true
  · rw [if_pos hforce, if_pos hforce] at h
    split_ifs at h with hauth
    · split at h
      · cases h
      · rename_i w hpm
        rw [Option.some.injEq] at h
        subst h
        refine ⟨rfl, fun c hc => List.all_eq_true.mp hauth c hc,
          Option.isSome_iff_exists.mpr ⟨w, hpm⟩,
          dropWhile_slash_shape _, rfl, ?_, ?_, ?_⟩
        · exact fun c hc => (List.dropLast_sublist rest).mem
            ((List.takeWhile_sublist _).mem hc)
        · exact fun c hc => (List.dropLast_sublist rest).mem
            ((List.dropWhile_sublist _).mem hc)
        · exact fun c hc => absurd hc (List.not_mem_nil c)
  · rw [if_neg hforce, if_neg hforce] at h
    split_ifs at h with hauth
    · split at h
      · cases h
      · rename_i w hpm
        rw [Option.some.injEq] at h
        subst h
        refine ⟨rfl, fun c hc => List.all_eq_true.mp hauth c hc,
          Option.isSome_iff_exists.mpr ⟨w, hpm⟩,
          dropWhile_slash_shape _, rfl, ?_, ?_, ?_⟩
        · exact fun c hc => (List.takeWhile_sublist _).mem
            ((List.takeWhile_sublist _).mem hc)
        · exact fun c hc => (List.takeWhile_sublist _).mem
            ((List.dropWhile_sublist _).mem hc)
        · exact fun c hc => ((List.drop_sublist 1 _).trans
            ((List.dropWhile_sublist _).trans
              (List.Sublist.refl rest))).mem hc

/-- Shape of a successful `parseURL` result. -/
theorem parseURL_shape (r : String) (u : GoURL)
    (h : parseURL r = some u) :
    (u.scheme = "http" ∨ u.scheme = "https") ∧
    (∀ c ∈ u.host.data, hostValidChar c = true) ∧
    (unescapeList false u.path.data).isSome ∧
    (u.path.data = [] ∨ ∃ t, u.path.data = '/' :: t) ∧
    (unescapeList false u.fragment.data).isSome ∧
    (∀ c ∈ u.host.data, c ∈ r.data) ∧
    (∀ c ∈ u.path.data, c ∈ r.data) ∧
    (∀ c ∈ u.rawQuery.data, c ∈ r.data) ∧
    (∀ c ∈ u.fragment.data, c ∈ r.data) := by
  simp only [parseURL] at h
  split at h
  · cases h
  · rename_i w hf
    have hsub7 : ((r.data.takeWhile (· != '#')).drop 7).Sublist r.data :=
      (List.drop_sublist 7 _).trans (List.takeWhile_sublist _)
    have hsub8 : ((r.data.takeWhile (· != '#')).drop 8).Sublist r.data :=
      (List.drop_sublist 8 _).trans (List.takeWhile_sublist _)
    have hsubf : (((r.data.dropWhile (· != '#')).drop 1)).Sublist
        r.data :=
      (List.drop_sublist 1 _).trans (List.dropWhile_sublist _)
    split_ifs at h with h7 h8
    · obtain ⟨hsch, hhost, hps, hph, hfr, hmh, hmp, hmq⟩ :=
        parseHTTP_shape _ _ _ _ h
      refine ⟨Or.inl hsch, hhost, hps, hph, ?_, ?_, ?_, ?_, ?_⟩
      · rw [hfr]
        exact Option.isSome_iff_exists.mpr ⟨w, hf⟩
      · exact fun c hc => hsub7.mem (hmh c hc)
      · exact fun c hc => hsub7.mem (hmp c hc)
      · exact fun c hc => hsub7.mem (hmq c hc)
      · intro c hc
        rw [hfr] at hc
        exact hsubf.mem hc
    · obtain ⟨hsch, hhost, hps, hph, hfr, hmh, hmp, hmq⟩ :=
        parseHTTP_shape _ _ _ _ h
      refine ⟨Or.inr hsch, hhost, hps, hph, ?_, ?_, ?_, ?_, ?_⟩
      · rw [hfr]
        exact Option.isSome_iff_exists.mpr ⟨w, hf⟩
      · exact fun c hc => hsub8.mem (hmh c hc)
      · exact fun c hc => hsub8.mem (hmp c hc)
      · exact fun c hc => hsub8.mem (hmq c hc)
      · intro c hc
        rw [hfr] at hc
        exact hsubf.mem hc

/-- `ParseQuery` of a byte string yields distinct byte keys with
nonempty byte value lists. -/
theorem parseQuery_good (s : String)
    (hb : ∀ c ∈ s.data, c.toNat < 256) :
    ((parseQuery s).map Prod.fst).Nodup ∧
      ∀ kv ∈ parseQuery s,
        (∀ c ∈ kv.1.data, c.toNat < 256) ∧
        (∀ val ∈ kv.2, ∀ c ∈ val.data, c.toNat < 256) ∧ kv.2 ≠ [] := by
  unfold parseQuery
  exact parseQuerySegs_inv _ []
    (fun seg hseg c hc => hb c (mem_splitOnChar _ _ seg hseg c hc))
    (by simp) (by simp)

/-- Deleting keys preserves the parse invariants. -/
theorem foldl_del_good (ks : List String) (v : Values)
    (h1 : (v.map Prod.fst).Nodup)
    (h2 : ∀ kv ∈ v, (∀ c ∈ kv.1.data, c.toNat < 256) ∧
      (∀ val ∈ kv.2, ∀ c ∈ val.data, c.toNat < 256) ∧ kv.2 ≠ []) :
    ((ks.foldl valuesDel v).map Prod.fst).Nodup ∧
      ∀ kv ∈ ks.foldl valuesDel v,
        (∀ c ∈ kv.1.data, c.toNat < 256) ∧
        (∀ val ∈ kv.2, ∀ c ∈ val.data, c.toNat < 256) ∧ kv.2 ≠ [] := by
  have hsub := foldl_valuesDel_sublist ks v
  exact ⟨List.Nodup.sublist (hsub.map Prod.fst) h1,
    fun kv hkv => h2 kv (hsub.mem hkv)⟩

/-- `NormalizeURL` fixes its own successful output, provided that output
still parses to a nonempty host without a `www.` prefix. -/
theorem normalize_output_fix (r2 : String) (u : GoURL)
    (hb2 : ∀ c ∈ r2.data, c.toNat < 256)
    (hpu : parseURL r2 = some u)
    (hyhost : ∀ uy, parseURL (urlString { u with host := trimStart (lowerStr u.host) "www.", rawQuery := valuesEncode (trackingParams.foldl valuesDel (parseQuery u.rawQuery)) }) = some uy → ¬ uy.host = "" ∧ hasStart uy.host "www." = false) :
    NormalizeURL (urlString { u with host := trimStart (lowerStr u.host) "www.", rawQuery := valuesEncode (trackingParams.foldl valuesDel (parseQuery u.rawQuery)) }) = .ok (urlString { u with host := trimStart (lowerStr u.host) "www.", rawQuery := valuesEncode (trackingParams.foldl valuesDel (parseQuery u.rawQuery)) }) := by
  obtain ⟨hs0, hH0, hps0, hph0, hfs0, hmh0, hmp0, hmq0, hmf0⟩ :=
    parseURL_shape r2 u hpu
  set q : Values :=
    trackingParams.foldl valuesDel (parseQuery u.rawQuery) with hqdef
  set u' : GoURL := { u with host := trimStart (lowerStr u.host) "www.", rawQuery := valuesEncode q } with hu'def
  have hs : u'.scheme = "http" ∨ u'.scheme = "https" := hs0
  have hcase : (trimStart (lowerStr u.host) "www.").data =
      (u.host.data.map lowerChar).drop 4 ∨
      (trimStart (lowerStr u.host) "www.").data =
        u.host.data.map lowerChar := by
    unfold trimStart
    rw [apply_ite String.data]
    split
    · exact Or.inl rfl
    · exact Or.inr rfl
  have hH : ∀ c ∈ u'.host.data, hostValidChar c = true := by
    intro c hc
    have hc0 : c ∈ (trimStart (lowerStr u.host) "www.").data := hc
    have hc2 : c ∈ u.host.data.map lowerChar := by
      rcases hcase with hcc | hcc <;> rw [hcc] at hc0
      · exact (List.drop_sublist 4 _).mem hc0
      · exact hc0
    obtain ⟨d, hd, rfl⟩ := List.mem_map.mp hc2
    exact hostValid_lowerChar d (hH0 d hd)
  have hHlow : lowerStr u'.host = u'.host := by
    apply String.ext
    show ((trimStart (lowerStr u.host) "www.").data).map lowerChar =
      (trimStart (lowerStr u.host) "www.").data
    rcases hcase with hcc | hcc <;> rw [hcc]
    · rw [List.map_drop, map_lowerChar_map]
    · exact map_lowerChar_map _
  have hPsome2 : (unescapeList false u'.path.data).isSome := hps0
  have hPb2 : ∀ c ∈ u'.path.data, c.toNat < 256 :=
    fun c hc => hb2 c (hmp0 c hc)
  have hPhead2 : u'.path.data = [] ∨ ∃ t, u'.path.data = '/' :: t := hph0
  have hFsome2 : (unescapeList false u'.fragment.data).isSome := hfs0
  have hFb2 : ∀ c ∈ u'.fragment.data, c.toNat < 256 :=
    fun c hc => hb2 c (hmf0 c hc)
  have hrawb : ∀ c ∈ u.rawQuery.data, c.toNat < 256 :=
    fun c hc => hb2 c (hmq0 c hc)
  obtain ⟨hpq1, hpq2⟩ := parseQuery_good u.rawQuery hrawb
  obtain ⟨hqnd, hqgood⟩ := foldl_del_good trackingParams _ hpq1 hpq2
  have hqb : ∀ kv ∈ q, (∀ c ∈ kv.1.data, c.toNat < 256) ∧
      ∀ val ∈ kv.2, ∀ c ∈ val.data, c.toNat < 256 :=
    fun kv hkv => ⟨(hqgood kv hkv).1, (hqgood kv hkv).2.1⟩
  have hqne : ∀ kv ∈ q, kv.2 ≠ [] := fun kv hkv => (hqgood kv hkv).2.2
  have htrack : ∀ t ∈ trackingParams, valuesGet q t = none :=
    fun t ht => valuesGet_foldl_del_mem _ _ t ht
  have hQc : ∀ c ∈ u'.rawQuery.data,
      qoutChar c = true ∨ c = '=' ∨ c = '&' := valuesEncode_chars q
  have hpu2 := parseURL_urlString u' hs hH hPsome2 hPb2 hPhead2 hQc
    hFsome2 hFb2
  obtain ⟨hne, hw⟩ := hyhost _ hpu2
  exact normalize_urlString_fixpoint u' q hs hne hH hHlow hw hPsome2
    hPb2 hPhead2 hFsome2 hFb2 rfl hqnd hqb hqne htrack

/-- Conditional idempotence of `NormalizeURL` on byte-string inputs. -/
theorem normalize_ok_fix (x y : String) (hbx : isByteStr x = true)
    (hok : NormalizeURL x = .ok y)
    (hyhost : ∀ uy, parseURL y = some uy →
      ¬ uy.host = "" ∧ hasStart uy.host "www." = false) :
    NormalizeURL y = .ok y := by
  have hbx2 : ∀ c ∈ x.data, c.toNat < 256 := by
    intro c hc
    have h := List.all_eq_true.mp hbx c hc
    simpa using h
  have hbtrim : ∀ c ∈ (trimSpace x).data, c.toNat < 256 :=
    fun c hc => hbx2 c (mem_trimSpace x c hc)
  simp only [NormalizeURL] at hok
  by_cases h1 : trimSpace x = ""
  · rw [if_pos h1] at hok
    cases hok
  rw [if_neg h1] at hok
  by_cases h2 : ¬ (hasStart (lowerStr (trimSpace x)) "http://" = true ∨
      hasStart (lowerStr (trimSpace x)) "https://" = true)
  · rw [if_pos h2] at hok
    by_cases h3 : containsChar (trimSpace x) '.' = true
    · rw [if_pos h3] at hok
      have hb2 : ∀ c ∈ ("https://" ++ trimSpace x).data,
          c.toNat < 256 := by
        intro c hc
        have hc2 : c ∈ "https://".data ++ (trimSpace x).data := by
          rw [show ("https://" ++ trimSpace x).data =
            "https://".data ++ (trimSpace x).data from rfl] at hc
          exact hc
        rcases List.mem_append.mp hc2 with hc3 | hc3
        · exact (by decide : ∀ d ∈ "https://".data, d.toNat < 256) c hc3
        · exact hbtrim c hc3
      simp only [] at hok
      cases hpu : parseURL ("https://" ++ trimSpace x) with
      | none =>
          rw [hpu] at hok
          cases hok
      | some u =>
          rw [hpu] at hok
          simp only [] at hok
          by_cases hh : u.host = ""
          · rw [if_pos hh] at hok
            cases hok
          · rw [if_neg hh] at hok
            rw [Except.ok.injEq] at hok
            subst hok
            exact normalize_output_fix _ u hb2 hpu hyhost
    · rw [if_neg h3] at hok
      cases hok
  · rw [if_neg h2] at hok
    simp only [] at hok
    cases hpu : parseURL (trimSpace x) with
    | none =>
        rw [hpu] at hok
        cases hok
    | some u =>
        rw [hpu] at hok
        simp only [] at hok
        by_cases hh : u.host = ""
        · rw [if_pos hh] at hok
          cases hok
        · rw [if_neg hh] at hok
          rw [Except.ok.injEq] at hok
          subst hok
          exact normalize_output_fix _ u hbtrim hpu hyhost

/-- C8 (amended): the detector folds every candidate through one URL
decode, the malformed-`?` rewrite and `NormalizeURL`, deduplicating by
the normalized form; and on byte-string inputs whose normalized output
parses to a nonempty host with no remaining `www.` prefix, the output is
canonical (it equals its own normalization).  The canonical-form clause
of the original claim fails without that host condition because the
normalizer strips only one `www.` per call (see the counterexample). -/
theorem detector_dedup_canonical :
    (∀ (m : String → String → Bool) (patterns : List (String × String))
        (cands : List String),
      ((detectURLsFromCandidates m patterns cands).map
        URLInfo.url).Nodup ∧
      ∀ e ∈ detectURLsFromCandidates m patterns cands, ∃ c ∈ cands,
        NormalizeURL (fixMalformedQueryString ((queryUnescape c).getD c))
          = .ok e.url ∧
        e.platform = detectPlatformFromURL m patterns e.url) ∧
    (∀ x y : String, isByteStr x = true → NormalizeURL x = .ok y →
      (∀ uy, parseURL y = some uy →
        ¬ uy.host = "" ∧ hasStart uy.host "www." = false) →
      NormalizeURL y = .ok y) := by
  constructor
  · intro m patterns cands
    obtain ⟨g1, g2, g3⟩ := addIfSupported_fold m patterns cands [] []
      rfl List.nodup_nil
    constructor
    · have hd : (detectURLsFromCandidates m patterns cands).map
          URLInfo.url =
          (cands.foldl (fun acc c =>
            addIfSupported m patterns c acc.1 acc.2) ([], [])).2 := g1
      rw [hd]
      exact g2
    · intro e he
      rcases g3 e he with h | h
      · exact absurd h (List.not_mem_nil e)
      · exact h
  · intro x y hbx hok hyhost
    exact normalize_ok_fix x y hbx hok hyhost

/-- Witness for `detector_dedup_canonical` at concrete inputs: the two
candidates normalize to the same URL and are deduplicated, and the
normalized output is a fixed point of `NormalizeURL`. -/
theorem detector_dedup_canonical_witness :
    NormalizeURL "https://www.YouTube.com/watch?v=abc&utm_source=tw" =
      .ok "https://youtube.com/watch?v=abc" ∧
    NormalizeURL "https://youtube.com/watch?v=abc" =
      .ok "https://youtube.com/watch?v=abc" ∧
    ((detectURLsFromCandidates (fun _ _ => false) []
        ["https://www.YouTube.com/watch?v=abc&utm_source=tw",
         "https://youtube.com/watch?v=abc"]).map URLInfo.url).Nodup := by
  refine ⟨rfl, ?_, ?_⟩
  · refine detector_dedup_canonical.2
      "https://www.YouTube.com/watch?v=abc&utm_source=tw"
      "https://youtube.com/watch?v=abc" (by decide) rfl ?_
    intro uy huy
    rw [show parseURL "https://youtube.com/watch?v=abc" = some { scheme := "https", host := "youtube.com", path := "/watch", forceQuery := false, rawQuery := "v=abc", fragment := "" } from rfl] at huy
    cases huy
    exact ⟨by decide, by decide⟩
  · exact (detector_dedup_canonical.1 (fun _ _ => false) []
      ["https://www.YouTube.com/watch?v=abc&utm_source=tw",
       "https://youtube.com/watch?v=abc"]).1

end KnokFM
